import Mathlib

/-!
# bfk_interpreter: a shallow embedding of `dystring.c`, `parser.c` and `main.c`

The C program reads a source file into a growable byte buffer (`dystring_t`), filters it down to
the eight instruction characters, folds runs of equal characters into instructions while resolving
bracket jumps with an explicit stack (`get_instructions`) and executes the result on a tape of
64000 `int` cells (`run_program`).

Conventions of the embedding

* `size_t` is a `Nat` reduced modulo `2 ^ 64` where the C arithmetic can wrap; `int` is an `Int`
  in the 32-bit range. A conversion `size_t → int` keeps the low 32 bits (`to_int`), a conversion
  `int → size_t` is taken modulo `2 ^ 64` (`to_size_t`).
* Every C function that can leave the defined part of C (an access outside an array, signed
  overflow) or that contains a loop returns a `Res`: `ret` for a normal return, `undef` for
  undefined behaviour, `nofuel` when the iteration budget of the model is exhausted.
* A function returning a pointer returns an `Option` (`none` is `NULL`). `malloc` and `realloc`
  are taken to succeed, `malloc(0)` to return a usable non-null pointer (as glibc does).
* A heap array is the list of its initialised cells, so `size` fields are list lengths.
* Standard output is the list of bytes that `main.c` hands to it (`fwrite` in `write`, `printf`
  in `read` and `print_err_if_needed`). The diagnostics that `parser.c` and `dystring.c` print on
  their error paths (`print_err`, `alloc_err`) are not listed; they change no state.
-/

namespace Bfk

/-! ## Results and machine integers -/

/-- Result of running a piece of C code. -/
inductive Res (α : Type) where
  /-- The code returns normally. -/
  | ret (a : α)
  /-- The code has undefined behaviour (out-of-bounds access, signed overflow). -/
  | undef
  /-- The loop had not finished when the iteration budget of the model ran out. -/
  | nofuel
deriving DecidableEq

/-- Exclusive upper bound of `size_t` (64-bit). -/
def SIZE_CEIL : Nat := 18446744073709551616

/-- Largest value of `int` (32-bit). -/
def INT_MAX : Int := 2147483647

/-- Smallest value of `int` (32-bit). -/
def INT_MIN : Int := -2147483648

/-- Conversion `size_t → int`: the low 32 bits, read as two's complement. -/
def to_int (n : Nat) : Int :=
  if n % 4294967296 < 2147483648 then ((n % 4294967296 : Nat) : Int)
  else ((n % 4294967296 : Nat) : Int) - 4294967296

/-- Conversion `int → size_t`: reduction modulo `2 ^ 64`. -/
def to_size_t (v : Int) : Nat := (v % 18446744073709551616).toNat

/-- Whether a mathematical integer is representable as an `int`. -/
def int_fits (v : Int) : Bool := decide (INT_MIN ≤ v) && decide (v ≤ INT_MAX)

/-! ## dystring.c -/

/-- The growable buffer `dystring_t`: `data` lists the `size` bytes in use (the terminating
null byte that the C code keeps behind them is not listed), `capacity` is the allocated size. -/
structure dystring_t where
  data : List Char
  capacity : Nat
deriving DecidableEq

/-- The field `size` of `dystring_t`. -/
def dystring_t.size (s : dystring_t) : Nat := s.data.length

/-- The constant `INIT_SIZE`. -/
def INIT_SIZE : Nat := 16

/-- The function `init_dystring` on a fresh `dystring_t` (as `get_dystring` calls it). -/
def get_dystring : dystring_t := { data := [], capacity := INIT_SIZE }

/-- The doubling loop of `dystring_expand`: `while (req_size > s->capacity) s->capacity *= 2;`. -/
def dystring_expand_loop : Nat → Nat → Nat → Res Nat
  | 0, _, _ => Res.nofuel
  | fuel + 1, req_size, capacity =>
    if req_size > capacity then dystring_expand_loop fuel req_size (capacity * 2 % SIZE_CEIL)
    else Res.ret capacity

/-- The function `dystring_expand`. After 64 doublings a `size_t` is zero and stays zero, so a
budget of 65 iterations decides whether the loop finishes. -/
def dystring_expand (req_size : Nat) (s : dystring_t) : Res (Int × dystring_t) :=
  if req_size ≤ s.capacity then Res.ret (0, s)
  else
    match dystring_expand_loop 65 req_size s.capacity with
    | Res.ret capacity =>
      Res.ret (to_int ((capacity + SIZE_CEIL - s.capacity) % SIZE_CEIL),
        { s with capacity := capacity })
    | Res.undef => Res.undef
    | Res.nofuel => Res.nofuel

/-- The function `prepare_push`. -/
def prepare_push (data_size : Nat) (s : dystring_t) : Res (Int × dystring_t) :=
  dystring_expand ((s.size + data_size) % SIZE_CEIL) s

/-- The function `null_terminate_buffer`. Writing the terminator at `data[size]` needs
`size < capacity`. -/
def null_terminate_buffer (ret_code : Int) (s : dystring_t) : Res (Int × dystring_t) :=
  if s.size = s.capacity then
    match prepare_push 1 s with
    | Res.ret (r, s1) =>
      if r < 0 then Res.ret (-1, s1)
      else if s1.size < s1.capacity then Res.ret (ret_code, s1) else Res.undef
    | Res.undef => Res.undef
    | Res.nofuel => Res.nofuel
  else if s.size < s.capacity then Res.ret (ret_code, s) else Res.undef

/-- The function `dystring_push`. -/
def dystring_push (c : Char) (s : dystring_t) : Res (Int × dystring_t) :=
  match prepare_push 1 s with
  | Res.ret (r, s1) =>
    if r < 0 then Res.ret (-1, s1)
    else if s1.size < s1.capacity then
      null_terminate_buffer 1 { s1 with data := s1.data ++ [c] }
    else Res.undef
  | Res.undef => Res.undef
  | Res.nofuel => Res.nofuel

/-- The function `dystring_push_cstr` on a C string given by its bytes before the terminator. -/
def dystring_push_cstr (data : List Char) (s : dystring_t) : Res (Int × dystring_t) :=
  match prepare_push data.length s with
  | Res.ret (r, s1) =>
    if r < 0 then Res.ret (-1, s1)
    else if s1.size + data.length ≤ s1.capacity then
      null_terminate_buffer (to_int data.length) { s1 with data := s1.data ++ data }
    else Res.undef
  | Res.undef => Res.undef
  | Res.nofuel => Res.nofuel

/-- The function `dystring_pop`. -/
def dystring_pop (s : dystring_t) : dystring_t :=
  if s.size > 0 then { s with data := s.data.dropLast } else s

/-- The loop of `dystring_filter_except` over the bytes of the source that are still to be
visited; the inner loop over `include` is the membership test. -/
def dystring_filter_except_loop : List Char → dystring_t → List Char → Res (Int × dystring_t)
  | [], dest, _ => Res.ret (to_int dest.size, dest)
  | c :: rest, dest, incl =>
    if incl.contains c then
      match dystring_push c dest with
      | Res.ret (r, dest1) =>
        if r < 0 then Res.ret (-1, dest1) else dystring_filter_except_loop rest dest1 incl
      | Res.undef => Res.undef
      | Res.nofuel => Res.nofuel
    else dystring_filter_except_loop rest dest incl

/-- The function `dystring_filter_except`. -/
def dystring_filter_except (src dest : dystring_t) (incl : List Char) : Res (Int × dystring_t) :=
  dystring_filter_except_loop src.data dest incl

/-- The loop of `dystring_filter`. -/
def dystring_filter_loop : List Char → dystring_t → List Char → Res (Int × dystring_t)
  | [], dest, _ => Res.ret (to_int dest.size, dest)
  | c :: rest, dest, excl =>
    if !excl.contains c then
      match dystring_push c dest with
      | Res.ret (r, dest1) =>
        if r < 0 then Res.ret (-1, dest1) else dystring_filter_loop rest dest1 excl
      | Res.undef => Res.undef
      | Res.nofuel => Res.nofuel
    else dystring_filter_loop rest dest excl

/-- The function `dystring_filter`. -/
def dystring_filter (src dest : dystring_t) (excl : List Char) : Res (Int × dystring_t) :=
  dystring_filter_loop src.data dest excl

/-! ## parser.c -/

/-- The enumeration `BFK_TYPE`. -/
inductive BFK_TYPE where
  | BFK_EOF | MOVR | MOVL | INC | DEC | WRITE | READ | JEQ | JNE
deriving DecidableEq

open BFK_TYPE

/-- The integer value of an enumerator of `BFK_TYPE`. -/
def BFK_TYPE.to_code : BFK_TYPE → Int
  | BFK_EOF => 0 | MOVR => 1 | MOVL => 2 | INC => 3 | DEC => 4
  | WRITE => 5 | READ => 6 | JEQ => 7 | JNE => 8

/-- The struct `bfk_token_t`. -/
structure bfk_token_t where
  type : BFK_TYPE
  value : Int
deriving DecidableEq

/-- The struct `bfk_tokenizer` (without the owning pointer `src`). -/
structure bfk_tokenizer where
  data : List Char
  size : Nat
  index : Nat
deriving DecidableEq

/-- The struct `bfk_instuctions`: `instructions` lists the cells written so far, so the field
`size` is its length; `capacity` is the number of cells allocated. -/
structure bfk_instuctions where
  instructions : List bfk_token_t
  capacity : Nat
deriving DecidableEq

/-- The field `size` of `bfk_instuctions`. -/
def bfk_instuctions.size (prog : bfk_instuctions) : Nat := prog.instructions.length

/-- The constant `VALID_TOKENS`, the string `<>+-.,[]`. -/
def VALID_TOKENS : List Char := ['<', '>', '+', '-', '.', ',', '[', ']']

/-- The function `get_tokenizer`. -/
def get_tokenizer (src : dystring_t) : Res (Option bfk_tokenizer) :=
  match dystring_filter_except src get_dystring VALID_TOKENS with
  | Res.ret (r, tokens) =>
    if r < 0 then Res.ret none
    else Res.ret (some { data := tokens.data, size := tokens.size, index := 0 })
  | Res.undef => Res.undef
  | Res.nofuel => Res.nofuel

/-- The function `get_next_token`: the kind returned and the tokenizer afterwards. -/
def get_next_token (tokenizer : bfk_tokenizer) : BFK_TYPE × bfk_tokenizer :=
  if tokenizer.index ≥ tokenizer.size then (BFK_EOF, tokenizer)
  else
    let c := tokenizer.data.getD tokenizer.index (Char.ofNat 0)
    let adv : bfk_tokenizer := { tokenizer with index := tokenizer.index + 1 }
    if c = '>' then (MOVR, adv)
    else if c = '<' then (MOVL, adv)
    else if c = '+' then (INC, adv)
    else if c = '-' then (DEC, adv)
    else if c = '.' then (WRITE, adv)
    else if c = ',' then (READ, adv)
    else if c = '[' then (JEQ, adv)
    else if c = ']' then (JNE, adv)
    else (BFK_EOF, tokenizer)

/-- The function `peek_next_token`. -/
def peek_next_token (tokenizer : bfk_tokenizer) : BFK_TYPE × bfk_tokenizer :=
  match get_next_token tokenizer with
  | (BFK_EOF, t1) => (BFK_EOF, t1)
  | (next, t1) => (next, { t1 with index := (t1.index + SIZE_CEIL - 1) % SIZE_CEIL })

/-- The loop of `continue_while_type`, with the running `count`. -/
def continue_while_type_loop : Nat → bfk_tokenizer → BFK_TYPE → Nat → Res (Nat × bfk_tokenizer)
  | 0, _, _, _ => Res.nofuel
  | fuel + 1, tokenizer, type, count =>
    match peek_next_token tokenizer with
    | (next, t1) =>
      if type = next then
        continue_while_type_loop fuel (get_next_token t1).2 type (count + 1)
      else Res.ret (count, t1)

/-- The function `continue_while_type`; every iteration consumes a character, so the number of
characters left plus one bounds the iterations. -/
def continue_while_type (tokenizer : bfk_tokenizer) (type : BFK_TYPE) :
    Res (Nat × bfk_tokenizer) :=
  continue_while_type_loop (tokenizer.size - tokenizer.index + 1) tokenizer type 1

/-- The function `push_token`. -/
def push_token (type : BFK_TYPE) (count : Nat) (prog : bfk_instuctions) : bfk_instuctions :=
  if prog.size ≥ prog.capacity then prog
  else { prog with instructions := prog.instructions ++ [{ type := type, value := to_int count }] }

/-- The assignment `prog->instructions[address].value = v`. -/
def set_value (prog : bfk_instuctions) (address : Nat) (v : Int) : bfk_instuctions :=
  { prog with instructions :=
      prog.instructions.modify (fun toke => { toke with value := v }) address }

/-- The local variables of `get_instructions` that its loop changes: the tokenizer, the program
and the jump stack (`jump_stack` lists the `stack_pointer` entries in use, the top first).
The C array is allocated with `sizeof(int)` bytes per entry although it holds `size_t` values;
the byte size of the allocation is not part of the model. -/
structure compile_state where
  tokenizer : bfk_tokenizer
  prog : bfk_instuctions
  jump_stack : List Nat
  stack_size : Nat

/-- The field `stack_pointer` of the compile state. -/
def compile_state.stack_pointer (st : compile_state) : Nat := st.jump_stack.length

/-- One pass through the `while` loop of `get_instructions`, from the call of `get_next_token`
in the loop condition: `Sum.inl` is the state at the next test of the condition, `Sum.inr` the
value that `get_instructions` returns. On `BFK_EOF` the loop is left and the closing
`push_token(type, 0, prog)` runs; the `default` branch of the `switch` is never entered. -/
def get_instructions_body (st : compile_state) : Res (compile_state ⊕ Option bfk_instuctions) :=
  match get_next_token st.tokenizer with
  | (BFK_EOF, _) => Res.ret (Sum.inr (some (push_token BFK_EOF 0 st.prog)))
  | (JEQ, t1) =>
    if st.stack_pointer ≥ st.stack_size then Res.ret (Sum.inr none)
    else Res.ret (Sum.inl { st with
      tokenizer := t1
      jump_stack := st.prog.size :: st.jump_stack
      prog := push_token JEQ 0 st.prog })
  | (JNE, t1) =>
    match st.jump_stack with
    | [] => Res.ret (Sum.inr none)
    | address :: rest =>
      Res.ret (Sum.inl { st with
        tokenizer := t1
        jump_stack := rest
        prog := push_token JNE address (set_value st.prog address (to_int st.prog.size)) })
  | (type, t1) =>
    match continue_while_type t1 type with
    | Res.ret (count, t2) =>
      Res.ret (Sum.inl { st with tokenizer := t2, prog := push_token type count st.prog })
    | Res.undef => Res.undef
    | Res.nofuel => Res.nofuel

/-- The `while` loop of `get_instructions`. -/
def get_instructions_loop : Nat → compile_state → Res (Option bfk_instuctions)
  | 0, _ => Res.nofuel
  | fuel + 1, st =>
    match get_instructions_body st with
    | Res.ret (Sum.inl st1) => get_instructions_loop fuel st1
    | Res.ret (Sum.inr r) => Res.ret r
    | Res.undef => Res.undef
    | Res.nofuel => Res.nofuel

/-- The function `get_instructions`; every pass of the loop consumes a character, so the number
of characters left plus one bounds the passes. -/
def get_instructions (tokenizer : bfk_tokenizer) : Res (Option bfk_instuctions) :=
  get_instructions_loop (tokenizer.size - tokenizer.index + 1)
    { tokenizer := tokenizer
      prog := { instructions := [], capacity := tokenizer.size }
      jump_stack := []
      stack_size := tokenizer.size }

/-- The function `parse` after the file has been read into the buffer `code`. -/
def parse (code : dystring_t) : Res (Option bfk_instuctions) :=
  match get_tokenizer code with
  | Res.ret (some tokenizer) => get_instructions tokenizer
  | Res.ret none => Res.ret none
  | Res.undef => Res.undef
  | Res.nofuel => Res.nofuel

/-- A source text as the buffer that `dystring_read_file` hands to `get_tokenizer`. Only the
bytes matter to the later stages; the capacity is set to leave room for the terminator. -/
def source (text : String) : dystring_t :=
  { data := text.toList, capacity := text.toList.length + 1 }

/-! ## main.c -/

/-- The constant `INT_MAX_SIZE`. -/
def INT_MAX_SIZE : Int := 255

/-- The constant `INT_SIZE_CEIL`. -/
def INT_SIZE_CEIL : Int := INT_MAX_SIZE + 1

/-- The constant `DEFAULT_MEMORY_SIZE`. -/
def DEFAULT_MEMORY_SIZE : Nat := 64000

/-- The struct `prog_state`, together with the bytes handed to standard output so far.
`memory` gives the cell at every index below `DEFAULT_MEMORY_SIZE`. -/
structure prog_state where
  program : bfk_instuctions
  program_counter : Nat
  address_pointer : Nat
  memory : Nat → Int
  should_stop : Bool
  exit_code : Int
  err_msg : Option String
  stdout : List Nat

/-- The bytes of a text printed with `printf`. -/
def text_bytes (text : String) : List Nat := text.toList.map Char.toNat

/-- The assignment `state->memory[state->address_pointer] = v`. -/
def set_cell (state : prog_state) (v : Int) : prog_state :=
  { state with memory := fun i => if i = state.address_pointer then v else state.memory i }

/-- The function `move_right`; the sum is formed in `size_t`. -/
def move_right (state : prog_state) (toke : bfk_token_t) : prog_state :=
  if (state.address_pointer + to_size_t toke.value) % SIZE_CEIL ≥ DEFAULT_MEMORY_SIZE then
    { state with
      should_stop := true
      exit_code := toke.type.to_code
      err_msg := some "move right out of bounds" }
  else
    { state with
      address_pointer := (state.address_pointer + to_size_t toke.value) % SIZE_CEIL }

/-- The function `move_left`; the difference is formed in `size_t`, so the comparison with zero
is a comparison of an unsigned value. -/
def move_left (state : prog_state) (toke : bfk_token_t) : prog_state :=
  if (state.address_pointer + SIZE_CEIL - to_size_t toke.value) % SIZE_CEIL < 0 then
    { state with
      should_stop := true
      exit_code := toke.type.to_code
      err_msg := some "move left out of bounds" }
  else
    { state with
      address_pointer :=
        (state.address_pointer + SIZE_CEIL - to_size_t toke.value) % SIZE_CEIL }

/-- The function `increment`: the cell is read and written at `address_pointer`, the sum is an
`int` sum, and `%` is the truncating remainder of C. -/
def increment (state : prog_state) (toke : bfk_token_t) : Res prog_state :=
  if state.address_pointer < DEFAULT_MEMORY_SIZE then
    let sum := state.memory state.address_pointer + toke.value
    if int_fits sum then Res.ret (set_cell state (Int.tmod sum INT_SIZE_CEIL))
    else Res.undef
  else Res.undef

/-- The function `decrement`: an `int` difference, then the bitwise and with `INT_MAX_SIZE`. -/
def decrement (state : prog_state) (toke : bfk_token_t) : Res prog_state :=
  if state.address_pointer < DEFAULT_MEMORY_SIZE then
    let diff := state.memory state.address_pointer - toke.value
    if int_fits diff then Res.ret (set_cell state (Int.land diff INT_MAX_SIZE))
    else Res.undef
  else Res.undef

/-- The loop of `write` with the number of iterations left. `sink k` tells whether the `fwrite`
that follows `k` bytes of output succeeds. The byte written is the first byte of the cell, its
low eight bits on a little-endian machine. -/
def write_loop (sink : Nat → Bool) : Nat → prog_state → bfk_token_t → prog_state
  | 0, state, _ => state
  | n + 1, state, toke =>
    if sink state.stdout.length then
      write_loop sink n
        { state with
          stdout := state.stdout ++ [(state.memory state.address_pointer % 256).toNat] } toke
    else
      { state with
        should_stop := true
        exit_code := toke.type.to_code
        err_msg := some "write to stdout failed..." }

/-- The function `write`. -/
def write (sink : Nat → Bool) (state : prog_state) (toke : bfk_token_t) : Res prog_state :=
  if toke.value ≤ 0 then Res.ret state
  else if state.address_pointer < DEFAULT_MEMORY_SIZE then
    Res.ret (write_loop sink toke.value.toNat state toke)
  else Res.undef

/-- The function `read`, which only prints a notice. -/
def read (state : prog_state) (_toke : bfk_token_t) : prog_state :=
  { state with stdout := state.stdout ++ text_bytes "not implemented read yet..." }

/-- The function `jump_if_zero`. -/
def jump_if_zero (state : prog_state) (toke : bfk_token_t) : Res prog_state :=
  if state.address_pointer < DEFAULT_MEMORY_SIZE then
    if state.memory state.address_pointer = 0 then
      Res.ret { state with program_counter := to_size_t toke.value }
    else Res.ret state
  else Res.undef

/-- The function `jump_if_not_zero`. -/
def jump_if_not_zero (state : prog_state) (toke : bfk_token_t) : Res prog_state :=
  if state.address_pointer < DEFAULT_MEMORY_SIZE then
    if state.memory state.address_pointer ≠ 0 then
      Res.ret { state with program_counter := to_size_t toke.value }
    else Res.ret state
  else Res.undef

/-- The `switch` of `run_program` on the instruction fetched. The case `READ` has no `break`
and runs on into the case `JEQ`. -/
def dispatch (sink : Nat → Bool) (state : prog_state) (next_token : bfk_token_t) :
    Res prog_state :=
  match next_token.type with
  | MOVR => Res.ret (move_right state next_token)
  | MOVL => Res.ret (move_left state next_token)
  | INC => increment state next_token
  | DEC => decrement state next_token
  | WRITE => write sink state next_token
  | READ => jump_if_zero (read state next_token) next_token
  | JEQ => jump_if_zero state next_token
  | JNE => jump_if_not_zero state next_token
  | BFK_EOF => Res.ret { state with should_stop := true }

/-- One pass through the `while` loop of `run_program`: fetch, dispatch, advance the program
counter. Fetching outside the instructions written by the compiler is undefined. -/
def run_step (sink : Nat → Bool) (state : prog_state) : Res prog_state :=
  match state.program.instructions[state.program_counter]? with
  | none => Res.undef
  | some next_token =>
    match dispatch sink state next_token with
    | Res.ret s1 => Res.ret { s1 with program_counter := (s1.program_counter + 1) % SIZE_CEIL }
    | Res.undef => Res.undef
    | Res.nofuel => Res.nofuel

/-- The state of `run_program` before its loop. -/
def init_state (program : bfk_instuctions) : prog_state :=
  { program := program
    program_counter := 0
    address_pointer := DEFAULT_MEMORY_SIZE / 2
    memory := fun _ => 0
    should_stop := false
    exit_code := 0
    err_msg := none
    stdout := [] }

/-- The `while` loop of `run_program` with a budget of passes. -/
def run_loop (sink : Nat → Bool) : Nat → prog_state → Res prog_state
  | 0, _ => Res.nofuel
  | fuel + 1, state =>
    if state.should_stop then Res.ret state
    else
      match run_step sink state with
      | Res.ret s1 => run_loop sink fuel s1
      | Res.undef => Res.undef
      | Res.nofuel => Res.nofuel

/-- The function `print_err_if_needed`: the exit code and the output after the message. -/
def print_err_if_needed (state : prog_state) : Int × List Nat :=
  if state.exit_code ≠ 0 then
    (state.exit_code,
      state.stdout ++ text_bytes ("[ERROR]: " ++ state.err_msg.getD "(null)" ++ "\n"))
  else (state.exit_code, state.stdout)

/-- The function `run_program` with a budget of loop passes: the exit code and the bytes
written to standard output. -/
def run_program (sink : Nat → Bool) (fuel : Nat) (program : bfk_instuctions) :
    Res (Int × List Nat) :=
  match run_loop sink fuel (init_state program) with
  | Res.ret state => Res.ret (print_err_if_needed state)
  | Res.undef => Res.undef
  | Res.nofuel => Res.nofuel

/-- The function `main` from the contents of the source file on: `parse`, then `run_program`;
when `parse` returns `NULL` the exit code is 2 and nothing is run. The result is the exit code
and the bytes written by the run. -/
def main_on (sink : Nat → Bool) (fuel : Nat) (code : dystring_t) : Res (Int × List Nat) :=
  match parse code with
  | Res.ret (some prog) => run_program sink fuel prog
  | Res.ret none => Res.ret (2, [])
  | Res.undef => Res.undef
  | Res.nofuel => Res.nofuel

/-! ## Notions used to state and prove the properties -/

/-- The buffers that `get_dystring` and successful pushes produce: the capacity is a power of
two between `2 ^ 4` and `2 ^ 31` and there is room for the terminator. -/
def dystring_ok (s : dystring_t) : Prop :=
  ∃ k, 4 ≤ k ∧ k ≤ 31 ∧ s.capacity = 2 ^ k ∧ s.size < s.capacity

/-- The tokenizers that `get_tokenizer` builds: a cursor at the start of the valid characters
of the source, fewer than `2 ^ 31` of them. -/
def tokenizer_of (src : dystring_t) (t : bfk_tokenizer) : Prop :=
  t.data = src.data.filter VALID_TOKENS.contains ∧ t.size = t.data.length ∧ t.index = 0 ∧
    t.size < 2147483648

/-- The kind that `get_next_token` assigns to a character (`BFK_EOF` for any other one). -/
def token_of_char (c : Char) : BFK_TYPE :=
  if c = '>' then MOVR
  else if c = '<' then MOVL
  else if c = '+' then INC
  else if c = '-' then DEC
  else if c = '.' then WRITE
  else if c = ',' then READ
  else if c = '[' then JEQ
  else if c = ']' then JNE
  else BFK_EOF

/-- The character under the cursor of a tokenizer. -/
def bfk_tokenizer.current (t : bfk_tokenizer) : Char := t.data.getD t.index (Char.ofNat 0)

/-- The tokenizers the compiler works on: `size` is the number of characters, all of them are
instruction characters, and the cursor has not passed the end. -/
structure tokenizer_ok (t : bfk_tokenizer) : Prop where
  size_eq : t.size = t.data.length
  size_lt : t.size < 2147483648
  index_le : t.index ≤ t.size
  valid : ∀ c ∈ t.data, c ∈ VALID_TOKENS

/-- The kinds of the instructions of a program, in order. -/
def kinds (prog : bfk_instuctions) : List BFK_TYPE := prog.instructions.map (fun toke => toke.type)

/-- Effect of one instruction kind on the bracket nesting depth `d`; `none` when a closing
bracket arrives at depth zero. -/
def nest_step (d : Nat) : BFK_TYPE → Option Nat
  | JEQ => some (d + 1)
  | JNE => if d = 0 then none else some (d - 1)
  | _ => some d

/-- Bracket nesting depth after a sequence of kinds read from depth `d`; `none` when some
closing bracket has no partner inside the sequence. -/
def nest_depth : List BFK_TYPE → Nat → Option Nat
  | [], d => some d
  | k :: rest, d => (nest_step d k).bind (nest_depth rest)

/-- A sequence of kinds whose brackets pair up among themselves. -/
def balanced (l : List BFK_TYPE) : Prop := nest_depth l 0 = some 0

/-- Matching by bracket nesting: position `i` holds an opening bracket, the later position `j` a
closing bracket, and the brackets strictly between them pair up among themselves. -/
def matching (l : List BFK_TYPE) (i j : Nat) : Prop :=
  i < j ∧ l[i]? = some JEQ ∧ l[j]? = some JNE ∧ balanced ((l.take j).drop (i + 1))

instance (l : List BFK_TYPE) : Decidable (balanced l) := by
  unfold balanced; infer_instance

instance (l : List BFK_TYPE) (i j : Nat) : Decidable (matching l i j) := by
  unfold matching; infer_instance

/-- The kinds that `get_instructions` folds into one instruction with a repeat count. -/
def BFK_TYPE.folds : BFK_TYPE → Bool
  | MOVR | MOVL | INC | DEC | WRITE | READ => true
  | _ => false

/-- The tokenizer with its cursor moved on by `m` characters. -/
def bfk_tokenizer.skip (t : bfk_tokenizer) (m : Nat) : bfk_tokenizer :=
  { t with index := t.index + m }

/-- The possible outcomes of one pass through the loop of `get_instructions`, by the character
under the cursor. -/
inductive body_case (st : compile_state) : Res (compile_state ⊕ Option bfk_instuctions) → Prop
  | eof (hend : st.tokenizer.index = st.tokenizer.size) :
    body_case st (Res.ret (Sum.inr (some (push_token BFK_EOF 0 st.prog))))
  | jeq_full (hlt : st.tokenizer.index < st.tokenizer.size)
      (hc : token_of_char st.tokenizer.current = JEQ)
      (hfull : st.stack_size ≤ st.jump_stack.length) :
    body_case st (Res.ret (Sum.inr none))
  | jeq (hlt : st.tokenizer.index < st.tokenizer.size)
      (hc : token_of_char st.tokenizer.current = JEQ)
      (hroom : st.jump_stack.length < st.stack_size) :
    body_case st (Res.ret (Sum.inl
      { tokenizer := st.tokenizer.skip 1
        prog := push_token JEQ 0 st.prog
        jump_stack := st.prog.size :: st.jump_stack
        stack_size := st.stack_size }))
  | jne_empty (hlt : st.tokenizer.index < st.tokenizer.size)
      (hc : token_of_char st.tokenizer.current = JNE)
      (hstack : st.jump_stack = []) :
    body_case st (Res.ret (Sum.inr none))
  | jne (hlt : st.tokenizer.index < st.tokenizer.size)
      (hc : token_of_char st.tokenizer.current = JNE)
      (address : Nat) (rest : List Nat) (hstack : st.jump_stack = address :: rest) :
    body_case st (Res.ret (Sum.inl
      { tokenizer := st.tokenizer.skip 1
        prog := push_token JNE address (set_value st.prog address (to_int st.prog.size))
        jump_stack := rest
        stack_size := st.stack_size }))
  | fold (hlt : st.tokenizer.index < st.tokenizer.size)
      (ty : BFK_TYPE) (hty : ty.folds = true) (m : Nat)
      (hle : st.tokenizer.index + 1 + m ≤ st.tokenizer.size)
      (hrun : ∀ k, k < 1 + m →
        token_of_char (st.tokenizer.data.getD (st.tokenizer.index + k) (Char.ofNat 0)) = ty)
      (hstop : st.tokenizer.index + 1 + m < st.tokenizer.size →
        token_of_char (st.tokenizer.data.getD (st.tokenizer.index + 1 + m) (Char.ofNat 0)) ≠ ty) :
    body_case st (Res.ret (Sum.inl
      { tokenizer := st.tokenizer.skip (1 + m)
        prog := push_token ty (1 + m) st.prog
        jump_stack := st.jump_stack
        stack_size := st.stack_size }))

/-- What an instruction stands for in source characters: its repeat count for a folded kind,
one for a bracket, nothing for the terminator. -/
def unfolded_weight (toke : bfk_token_t) : Int :=
  match toke.type with
  | JEQ => 1
  | JNE => 1
  | BFK_EOF => 0
  | _ => toke.value

/-- The unfolded instruction count of a program. -/
def unfolded_count (prog : bfk_instuctions) : Int :=
  (prog.instructions.map unfolded_weight).sum

/-- The invariant of the loop of `get_instructions` over the valid characters `cs`: the
instructions written so far account for the characters consumed, the jump stack lists the
opening brackets still waiting for a partner, and every bracket pair closed so far carries its
operands. -/
structure compile_inv (cs : List Char) (st : compile_state) : Prop where
  tok_ok : tokenizer_ok st.tokenizer
  data_eq : st.tokenizer.data = cs
  capacity_eq : st.prog.capacity = cs.length
  size_le : st.prog.size ≤ st.tokenizer.index
  count_eq : unfolded_count st.prog = (st.tokenizer.index : Int)
  stack_ok : ∀ p s, st.jump_stack[p]? = some s →
    s < st.prog.size ∧ (kinds st.prog)[s]? = some JEQ ∧
      nest_depth ((kinds st.prog).drop (s + 1)) 0 = some p
  jne_ok : ∀ j toke, st.prog.instructions[j]? = some toke → toke.type = JNE →
    ∃ i : Nat, toke.value = (i : Int) ∧ matching (kinds st.prog) i j
  jeq_ok : ∀ i toke, st.prog.instructions[i]? = some toke → toke.type = JEQ →
    i ∈ st.jump_stack ∨ ∃ j : Nat, toke.value = (j : Int) ∧ matching (kinds st.prog) i j
  no_eof : ∀ toke, toke ∈ st.prog.instructions → toke.type ≠ BFK_EOF
  depth_eq : st.jump_stack.length + (cs.take st.tokenizer.index).count ']'
    = (cs.take st.tokenizer.index).count '['
  closers_le : ∀ k, k ≤ st.tokenizer.index →
    (cs.take k).count ']' ≤ (cs.take k).count '['

/-- The state of `run_program` before its loop with the current cell set to `c`. -/
def state_with_cell (c : Int) : prog_state :=
  set_cell (init_state { instructions := [], capacity := 0 }) c

/-- The text `++[-]` used to instantiate the theorems about compiled programs. -/
def sample_source : dystring_t := source "++[-]"

/-- The tokenizer that `get_tokenizer` builds for `sample_source`. -/
def sample_tokenizer : bfk_tokenizer := { data := ['+', '+', '[', '-', ']'], size := 5, index := 0 }

/-- The program that `get_instructions` returns for `sample_tokenizer`. -/
def sample_prog : bfk_instuctions :=
  { instructions :=
      [{ type := INC, value := 2 }, { type := JEQ, value := 3 }, { type := DEC, value := 1 },
        { type := JNE, value := 1 }, { type := BFK_EOF, value := 0 }]
    capacity := 5 }

/-- A standard output that accepts every byte. -/
def accepting : Nat → Bool := fun _ => true

/-- The program that `get_instructions` returns for the source `,,+++.`. -/
def read_prog : bfk_instuctions :=
  { instructions :=
      [{ type := READ, value := 2 }, { type := INC, value := 3 }, { type := WRITE, value := 1 },
        { type := BFK_EOF, value := 0 }]
    capacity := 6 }

/-- The buffers that the operations of `dystring.c` produce from a buffer created by
`init_dystring`, whatever the operations return and allocation succeeding. -/
inductive dystring_reach : dystring_t → Prop
  | init : dystring_reach get_dystring
  | push (c : Char) (s : dystring_t) (r : Int) (s1 : dystring_t) (h : dystring_reach s)
      (hop : dystring_push c s = Res.ret (r, s1)) : dystring_reach s1
  | push_cstr (data : List Char) (s : dystring_t) (r : Int) (s1 : dystring_t)
      (h : dystring_reach s) (hop : dystring_push_cstr data s = Res.ret (r, s1)) :
      dystring_reach s1
  | pop (s : dystring_t) (h : dystring_reach s) : dystring_reach (dystring_pop s)
  | filter (src s : dystring_t) (excl : List Char) (r : Int) (s1 : dystring_t)
      (h : dystring_reach s) (hop : dystring_filter src s excl = Res.ret (r, s1)) :
      dystring_reach s1
  | filter_except (src s : dystring_t) (incl : List Char) (r : Int) (s1 : dystring_t)
      (h : dystring_reach s) (hop : dystring_filter_except src s incl = Res.ret (r, s1)) :
      dystring_reach s1

/-- A capacity that `init_dystring` and doublings without wraparound produce. -/
def capacity_shape (s : dystring_t) : Prop := ∃ k, 4 ≤ k ∧ k ≤ 63 ∧ s.capacity = 2 ^ k

/-- The shape of a reachable buffer: a capacity `2 ^ k` with room for the bytes and the
terminator. -/
def dystring_shape (s : dystring_t) : Prop := capacity_shape s ∧ s.size < s.capacity

/-- The buffer `s1` has room for its bytes, and its capacity is that of `s` doubled some number
of times (possibly none). -/
def grows_by_doubling (s s1 : dystring_t) : Prop :=
  s1.size ≤ s1.capacity ∧ ∃ j, s1.capacity = s.capacity * 2 ^ j

/-- The local variables of `get_instructions` when its loop is entered. -/
def compile_start (t : bfk_tokenizer) : compile_state :=
  { tokenizer := t
    prog := { instructions := [], capacity := t.size }
    jump_stack := []
    stack_size := t.size }

/-- The states in which the loop condition of `get_instructions` is tested during the
compilation of the tokenizer `t`. -/
inductive compile_reach (t : bfk_tokenizer) : compile_state → Prop
  | start : compile_reach t (compile_start t)
  | step (st st1 : compile_state) (h : compile_reach t st)
      (hbody : get_instructions_body st = Res.ret (Sum.inl st1)) : compile_reach t st1

/-- The folding part of the loop invariant: folded instructions carry a repeat count of at
least one, neighbours of a folded kind differ in kind, and the character under the cursor is
not of the folded kind written last. -/
structure fold_inv (st : compile_state) : Prop where
  count_pos : ∀ toke, toke ∈ st.prog.instructions → toke.type.folds = true → 1 ≤ toke.value
  adjacent : ∀ i a b, st.prog.instructions[i]? = some a →
    st.prog.instructions[i + 1]? = some b → a.type.folds = true → a.type ≠ b.type
  next_differs : ∀ i a, st.prog.instructions[i]? = some a → i + 1 = st.prog.size →
    a.type.folds = true → st.tokenizer.index < st.tokenizer.size →
    token_of_char st.tokenizer.current ≠ a.type

/-- The source characters that an instruction stands for: its character repeated as often as
its operand says for a folded kind, one bracket for a jump whatever its operand, nothing for
the terminator. -/
def source_text (toke : bfk_token_t) : List Char :=
  match toke.type with
  | MOVR => List.replicate toke.value.toNat '>'
  | MOVL => List.replicate toke.value.toNat '<'
  | INC => List.replicate toke.value.toNat '+'
  | DEC => List.replicate toke.value.toNat '-'
  | WRITE => List.replicate toke.value.toNat '.'
  | READ => List.replicate toke.value.toNat ','
  | JEQ => ['[']
  | JNE => [']']
  | BFK_EOF => []

/-- The source characters of a list of instructions, in order. -/
def decompile_list : List bfk_token_t → List Char
  | [] => []
  | toke :: rest => source_text toke ++ decompile_list rest

/-- The source text that a program stands for. -/
def decompile (prog : bfk_instuctions) : List Char := decompile_list prog.instructions

/-- Every cell of the tape holds a value in `0..255`. -/
def cells_in_range (state : prog_state) : Prop :=
  ∀ i, i < DEFAULT_MEMORY_SIZE → 0 ≤ state.memory i ∧ state.memory i ≤ 255

/-- The states in which the loop condition of `run_program` is tested during the run of a
program: the state before the loop, and the state after a pass made while the stop flag was
not set. -/
inductive run_reach (sink : Nat → Bool) (program : bfk_instuctions) : prog_state → Prop
  | start : run_reach sink program (init_state program)
  | step (state s1 : prog_state) (h : run_reach sink program state)
      (hrun : state.should_stop = false) (hstep : run_step sink state = Res.ret s1) :
      run_reach sink program s1

/-! ## Theorems -/

theorem get_dystring_ok : dystring_ok get_dystring :=
  ⟨4, by decide, by decide, by decide, by decide⟩

theorem to_int_of_lt {n : Nat} (h : n < 2147483648) : to_int n = (n : Int) := by
  unfold to_int
  have h1 : n % 4294967296 = n := Nat.mod_eq_of_lt (by omega)
  rw [h1, if_pos h]

theorem pow_two_le_31 {k : Nat} (h : k ≤ 31) : 2 ^ k ≤ 2147483648 := by
  calc 2 ^ k ≤ 2 ^ 31 := Nat.pow_le_pow_right (by decide) h
    _ = 2147483648 := by norm_num

theorem dystring_ok_size_lt {s : dystring_t} (h : dystring_ok s) : s.size < 2147483648 := by
  obtain ⟨k, _, hk, hc, hs⟩ := h
  have := pow_two_le_31 hk
  omega

/-- The function `dystring_push` on a buffer in the range of `int`: it appends the byte, or
it returns a negative value, which happens only when the byte is the `2 ^ 31`-th one. -/
theorem dystring_push_result (c : Char) (s : dystring_t) (h : dystring_ok s) :
    ∃ r s1, dystring_push c s = Res.ret (r, s1) ∧
      ((r < 0 ∧ 2147483648 ≤ s.size + 1) ∨
        (r = 1 ∧ s1.data = s.data ++ [c] ∧ dystring_ok s1)) := by
  obtain ⟨k, hk4, hk31, hc, hs⟩ := h
  have hpow := pow_two_le_31 hk31
  have hreq : (s.size + 1) % SIZE_CEIL = s.size + 1 :=
    Nat.mod_eq_of_lt (by unfold SIZE_CEIL; omega)
  have hprep : prepare_push 1 s = Res.ret (0, s) := by
    unfold prepare_push dystring_expand
    rw [hreq, if_pos (by omega)]
  unfold dystring_push
  rw [hprep]
  simp only [lt_self_iff_false, if_false, hs, if_true]
  unfold null_terminate_buffer
  by_cases hfull : s.size + 1 = s.capacity
  · have hsz : ({ s with data := s.data ++ [c] } : dystring_t).size = s.capacity := by
      simp [dystring_t.size]; exact hfull
    have hcap : ({ s with data := s.data ++ [c] } : dystring_t).capacity = s.capacity := rfl
    rw [if_pos (by rw [hsz])]
    have hcpos : 16 ≤ s.capacity := by
      rw [hc]; calc 16 = 2 ^ 4 := by norm_num
        _ ≤ 2 ^ k := Nat.pow_le_pow_right (by decide) hk4
    have hreq2 : (s.capacity + 1) % SIZE_CEIL = s.capacity + 1 :=
      Nat.mod_eq_of_lt (by unfold SIZE_CEIL; omega)
    have hdbl : s.capacity * 2 % SIZE_CEIL = s.capacity * 2 :=
      Nat.mod_eq_of_lt (by unfold SIZE_CEIL; omega)
    have hloop : dystring_expand_loop 65 (s.capacity + 1) s.capacity
        = Res.ret (s.capacity * 2) := by
      rw [dystring_expand_loop, if_pos (by omega), hdbl, dystring_expand_loop,
        if_neg (by omega)]
    have hdiff : (s.capacity * 2 + SIZE_CEIL - s.capacity) % SIZE_CEIL = s.capacity := by
      have : s.capacity * 2 + SIZE_CEIL - s.capacity = s.capacity + SIZE_CEIL := by omega
      rw [this, Nat.add_mod_right]
      exact Nat.mod_eq_of_lt (by unfold SIZE_CEIL; omega)
    have hprep2 : prepare_push 1 { s with data := s.data ++ [c] }
        = Res.ret (to_int s.capacity, { data := s.data ++ [c], capacity := s.capacity * 2 }) := by
      unfold prepare_push dystring_expand
      rw [hsz, hcap, hreq2, if_neg (by omega), hloop]
      simp only [hdiff]
    rw [hprep2]
    by_cases hneg : to_int s.capacity < 0
    · have hbig : 2147483648 ≤ s.size + 1 := by
        by_contra hcon
        have := to_int_of_lt (n := s.capacity) (by omega)
        rw [this] at hneg
        omega
      exact ⟨-1, { data := s.data ++ [c], capacity := s.capacity * 2 },
        by simp only [hneg, if_true], Or.inl ⟨by decide, hbig⟩⟩
    · have hk30 : k ≤ 30 := by
        by_contra hcon
        have hk : k = 31 := by omega
        apply hneg
        rw [hc, hk]
        decide
      have hlt : s.size + 1 < s.capacity * 2 := by omega
      refine ⟨1, { data := s.data ++ [c], capacity := s.capacity * 2 }, ?_,
        Or.inr ⟨rfl, rfl, k + 1, by omega, by omega, ?_, ?_⟩⟩
      · simp only [hneg, if_false]
        rw [if_pos (by simpa [dystring_t.size] using hlt)]
      · show s.capacity * 2 = 2 ^ (k + 1)
        rw [hc, pow_succ]
      · simpa [dystring_t.size] using hlt
  · have hlt : s.size + 1 < s.capacity := by omega
    have hsz : ({ s with data := s.data ++ [c] } : dystring_t).size = s.size + 1 := by
      simp [dystring_t.size]
    have hcap : ({ s with data := s.data ++ [c] } : dystring_t).capacity = s.capacity := rfl
    refine ⟨1, { data := s.data ++ [c], capacity := s.capacity }, ?_,
      Or.inr ⟨rfl, rfl, k, hk4, hk31, hc, ?_⟩⟩
    · rw [if_neg (by rw [hsz, hcap]; exact hfull), if_pos (by rw [hsz, hcap]; exact hlt)]
    · rw [hsz]; exact hlt

theorem dystring_push_spec (c : Char) (s : dystring_t) (h : dystring_ok s) :
    ∃ r s1, dystring_push c s = Res.ret (r, s1) ∧
      (r < 0 ∨ (r = 1 ∧ s1.data = s.data ++ [c] ∧ dystring_ok s1)) := by
  obtain ⟨r, s1, hpush, hr⟩ := dystring_push_result c s h
  refine ⟨r, s1, hpush, ?_⟩
  rcases hr with ⟨hneg, _⟩ | hok
  · exact Or.inl hneg
  · exact Or.inr hok

theorem dystring_filter_except_loop_spec (incl : List Char) :
    ∀ (l : List Char) (dest : dystring_t), dystring_ok dest →
      ∃ r d, dystring_filter_except_loop l dest incl = Res.ret (r, d) ∧
        (r < 0 ∨ (r = (d.size : Int) ∧ d.data = dest.data ++ l.filter incl.contains ∧
          dystring_ok d)) := by
  intro l
  induction l with
  | nil =>
    intro dest h
    refine ⟨_, _, rfl, Or.inr ⟨to_int_of_lt (dystring_ok_size_lt h), by simp, h⟩⟩
  | cons c rest ih =>
    intro dest h
    unfold dystring_filter_except_loop
    by_cases hc : incl.contains c = true
    · rw [if_pos hc]
      obtain ⟨r, s1, hpush, hr⟩ := dystring_push_spec c dest h
      rw [hpush]
      rcases hr with hneg | ⟨h1, hdata, hok⟩
      · exact ⟨-1, s1, by simp only [hneg, if_true], Or.inl (by decide)⟩
      · obtain ⟨r2, d, hloop, hd⟩ := ih s1 hok
        refine ⟨r2, d, ?_, ?_⟩
        · simp only [h1]
          rw [if_neg (by decide)]
          exact hloop
        · rcases hd with hn | ⟨hr2, hdd, hokd⟩
          · exact Or.inl hn
          · refine Or.inr ⟨hr2, ?_, hokd⟩
            rw [hdd, hdata, List.filter_cons_of_pos hc]
            simp
    · rw [if_neg hc]
      obtain ⟨r2, d, hloop, hd⟩ := ih dest h
      refine ⟨r2, d, hloop, ?_⟩
      rcases hd with hn | ⟨hr2, hdd, hokd⟩
      · exact Or.inl hn
      · refine Or.inr ⟨hr2, ?_, hokd⟩
        rw [hdd, List.filter_cons_of_neg hc]

theorem get_tokenizer_spec (src : dystring_t) :
    ∃ o, get_tokenizer src = Res.ret o ∧ ∀ t, o = some t → tokenizer_of src t := by
  obtain ⟨r, d, hloop, hd⟩ :=
    dystring_filter_except_loop_spec VALID_TOKENS src.data get_dystring get_dystring_ok
  unfold get_tokenizer dystring_filter_except
  rw [hloop]
  by_cases hneg : r < 0
  · exact ⟨none, by simp only [hneg, if_true], by intro t ht; cases ht⟩
  · refine ⟨some { data := d.data, size := d.size, index := 0 },
      by simp only [hneg, if_false], ?_⟩
    intro t ht
    cases ht
    rcases hd with hn | ⟨_, hdd, hokd⟩
    · exact absurd hn hneg
    · refine ⟨?_, rfl, rfl, dystring_ok_size_lt hokd⟩
      show d.data = _
      rw [hdd]; simp [get_dystring]

theorem get_next_token_at_end (t : bfk_tokenizer) (h : t.size ≤ t.index) :
    get_next_token t = (BFK_EOF, t) := by
  unfold get_next_token
  rw [if_pos h]

theorem get_next_token_of_lt (t : bfk_tokenizer) (h : t.index < t.size)
    (hv : token_of_char t.current ≠ BFK_EOF) :
    get_next_token t = (token_of_char t.current, { t with index := t.index + 1 }) := by
  unfold get_next_token
  rw [if_neg (by omega)]
  unfold token_of_char bfk_tokenizer.current at *
  simp only
  split_ifs at hv ⊢ <;> first | rfl | exact absurd rfl hv

theorem token_of_char_valid {c : Char} (h : c ∈ VALID_TOKENS) : token_of_char c ≠ BFK_EOF := by
  simp only [VALID_TOKENS, List.mem_cons, List.mem_singleton, List.not_mem_nil, or_false] at h
  rcases h with h | h | h | h | h | h | h | h <;> subst h <;> decide

theorem token_of_char_jeq {c : Char} : token_of_char c = JEQ ↔ c = '[' := by
  unfold token_of_char
  constructor
  · intro h
    split_ifs at h; assumption
  · intro h; subst h; decide

theorem token_of_char_jne {c : Char} : token_of_char c = JNE ↔ c = ']' := by
  unfold token_of_char
  constructor
  · intro h
    split_ifs at h; assumption
  · intro h; subst h; decide

theorem peek_next_token_of_lt (t : bfk_tokenizer) (h : t.index < t.size)
    (hs : t.size < SIZE_CEIL) (hv : token_of_char t.current ≠ BFK_EOF) :
    peek_next_token t = (token_of_char t.current, t) := by
  unfold peek_next_token
  rw [get_next_token_of_lt t h hv]
  have hidx : (t.index + 1 + SIZE_CEIL - 1) % SIZE_CEIL = t.index := by
    have : t.index + 1 + SIZE_CEIL - 1 = t.index + SIZE_CEIL := by omega
    rw [this, Nat.add_mod_right]
    exact Nat.mod_eq_of_lt (by omega)
  cases hk : token_of_char t.current <;> first | exact absurd hk hv | simp only [hidx]

theorem peek_next_token_at_end (t : bfk_tokenizer) (h : t.size ≤ t.index) :
    peek_next_token t = (BFK_EOF, t) := by
  unfold peek_next_token
  rw [get_next_token_at_end t h]

theorem tokenizer_ok.current_valid {t : bfk_tokenizer} (h : tokenizer_ok t)
    (hlt : t.index < t.size) : token_of_char t.current ≠ BFK_EOF := by
  apply token_of_char_valid
  apply h.valid
  unfold bfk_tokenizer.current
  have hl : t.index < t.data.length := by rw [← h.size_eq]; exact hlt
  rw [List.getD_eq_getElem _ _ hl]
  exact List.getElem_mem hl

theorem tokenizer_ok.advance {t : bfk_tokenizer} (h : tokenizer_ok t) (m : Nat)
    (hm : t.index + m ≤ t.size) : tokenizer_ok { t with index := t.index + m } :=
  ⟨h.size_eq, h.size_lt, hm, h.valid⟩

theorem continue_while_type_loop_spec (ty : BFK_TYPE) (hty : ty ≠ BFK_EOF) :
    ∀ (fuel : Nat) (t : bfk_tokenizer) (count : Nat), tokenizer_ok t →
      t.size - t.index < fuel →
      ∃ m, continue_while_type_loop fuel t ty count
          = Res.ret (count + m, { t with index := t.index + m }) ∧
        t.index + m ≤ t.size ∧
        (∀ k, k < m → token_of_char (t.data.getD (t.index + k) (Char.ofNat 0)) = ty) ∧
        (t.index + m < t.size →
          token_of_char (t.data.getD (t.index + m) (Char.ofNat 0)) ≠ ty) := by
  intro fuel
  induction fuel with
  | zero => intro t count _ h; omega
  | succ fuel ih =>
    intro t count hok hfuel
    unfold continue_while_type_loop
    by_cases hend : t.size ≤ t.index
    · rw [peek_next_token_at_end t hend]
      refine ⟨0, ?_, hok.index_le, ?_, ?_⟩
      · simp only [hty, if_false, Nat.add_zero]
      · intro k hk; omega
      · intro h; omega
    · have hlt : t.index < t.size := by omega
      have hv := hok.current_valid hlt
      have hsz : t.size < SIZE_CEIL := by have := hok.size_lt; unfold SIZE_CEIL; omega
      rw [peek_next_token_of_lt t hlt hsz hv]
      dsimp only
      by_cases heq : ty = token_of_char t.current
      · rw [if_pos heq, get_next_token_of_lt t hlt hv]
        obtain ⟨m, hres, hle, hall, hstop⟩ :=
          ih { t with index := t.index + 1 } (count + 1) (hok.advance 1 hlt)
            (by show t.size - (t.index + 1) < fuel; omega)
        refine ⟨m + 1, ?_, ?_, ?_, ?_⟩
        · show continue_while_type_loop fuel { t with index := t.index + 1 } ty (count + 1) = _
          rw [hres]
          simp only [Nat.add_assoc, Nat.add_comm 1 m]
        · have : t.index + 1 + m ≤ t.size := hle
          omega
        · intro k hk
          cases k with
          | zero => exact heq.symm
          | succ k =>
            have := hall k (by omega)
            simp only [Nat.add_assoc, Nat.add_comm 1 k] at this ⊢
            exact this
        · intro h
          have := hstop (by show t.index + 1 + m < t.size; omega)
          simp only [Nat.add_assoc, Nat.add_comm 1 m] at this ⊢
          exact this
      · rw [if_neg heq]
        refine ⟨0, rfl, hok.index_le, ?_, ?_⟩
        · intro k hk; omega
        · intro _ h
          exact heq h.symm

theorem continue_while_type_spec (ty : BFK_TYPE) (hty : ty ≠ BFK_EOF) (t : bfk_tokenizer)
    (hok : tokenizer_ok t) :
    ∃ m, continue_while_type t ty = Res.ret (1 + m, { t with index := t.index + m }) ∧
      t.index + m ≤ t.size ∧
      (∀ k, k < m → token_of_char (t.data.getD (t.index + k) (Char.ofNat 0)) = ty) ∧
      (t.index + m < t.size →
        token_of_char (t.data.getD (t.index + m) (Char.ofNat 0)) ≠ ty) :=
  continue_while_type_loop_spec ty hty _ t 1 hok (by omega)

theorem nest_depth_append (a b : List BFK_TYPE) :
    ∀ d, nest_depth (a ++ b) d = (nest_depth a d).bind (nest_depth b) := by
  induction a with
  | nil => intro d; rfl
  | cons k rest ih =>
    intro d
    show (nest_step d k).bind (nest_depth (rest ++ b))
      = ((nest_step d k).bind (nest_depth rest)).bind (nest_depth b)
    cases nest_step d k with
    | none => rfl
    | some e => exact ih e

theorem nest_step_shift {d e : Nat} {k : BFK_TYPE} (h : nest_step d k = some e) (n : Nat) :
    nest_step (d + n) k = some (e + n) := by
  cases k <;> simp only [nest_step, Option.some.injEq] at h ⊢ <;> try omega
  split_ifs at h with h0
  simp only [Option.some.injEq] at h
  rw [if_neg (by omega)]
  simp only [Option.some.injEq]
  omega

theorem nest_depth_shift (a : List BFK_TYPE) :
    ∀ d e n, nest_depth a d = some e → nest_depth a (d + n) = some (e + n) := by
  induction a with
  | nil =>
    intro d e n h
    simp only [nest_depth, Option.some.injEq] at h ⊢
    omega
  | cons k rest ih =>
    intro d e n h
    simp only [nest_depth] at h ⊢
    cases hs : nest_step d k with
    | none => rw [hs] at h; cases h
    | some f =>
      rw [hs] at h
      rw [nest_step_shift hs n]
      exact ih f e n h

theorem balanced_shift {a : List BFK_TYPE} (h : balanced a) (n : Nat) :
    nest_depth a n = some n := by
  have := nest_depth_shift a 0 0 n h
  simpa using this

/-- A balanced stretch followed by a closing bracket leaves its surroundings. -/
theorem nest_depth_balanced_close {a : List BFK_TYPE} (h : balanced a) (b : List BFK_TYPE) :
    nest_depth (a ++ JNE :: b) 0 = none := by
  rw [nest_depth_append, h]
  rfl

theorem drop_succ_split {α : Type} (l : List α) {i j : Nat} {x : α} (hij : i < j)
    (hx : l[j]? = some x) :
    l.drop (i + 1) = (l.take j).drop (i + 1) ++ x :: l.drop (j + 1) := by
  have hj : j < l.length := by
    rw [List.getElem?_eq_some] at hx
    exact hx.1
  have hd : l.drop j = x :: l.drop (j + 1) := by
    rw [List.getElem?_eq_getElem hj, Option.some.injEq] at hx
    rw [← hx]
    exact List.drop_eq_getElem_cons hj
  conv_lhs => rw [← List.take_append_drop j l]
  rw [List.drop_append_of_le_length (by rw [List.length_take]; omega), hd]

theorem matching_append {l : List BFK_TYPE} {i j : Nat} (h : matching l i j)
    (x : List BFK_TYPE) : matching (l ++ x) i j := by
  obtain ⟨hij, hi, hj, hb⟩ := h
  have hjl : j < l.length := by
    rw [List.getElem?_eq_some] at hj
    exact hj.1
  refine ⟨hij, ?_, ?_, ?_⟩
  · rw [List.getElem?_append_left (by omega)]; exact hi
  · rw [List.getElem?_append_left hjl]; exact hj
  · rw [List.take_append_of_le_length (by omega)]; exact hb

theorem matching_new {l : List BFK_TYPE} {s : Nat} (hs : s < l.length)
    (hopen : l[s]? = some JEQ) (hb : nest_depth (l.drop (s + 1)) 0 = some 0) :
    matching (l ++ [JNE]) s l.length := by
  refine ⟨hs, ?_, ?_, ?_⟩
  · rw [List.getElem?_append_left hs]; exact hopen
  · rw [List.getElem?_append_right (le_refl _)]; simp
  · rw [List.take_left]; exact hb

theorem not_matching_of_open {l : List BFK_TYPE} {i j p : Nat}
    (hp : nest_depth (l.drop (i + 1)) 0 = some p) : ¬ matching l i j := by
  rintro ⟨hij, _, hj, hb⟩
  rw [drop_succ_split l hij hj, nest_depth_balanced_close hb] at hp
  cases hp

theorem matching_close_unique {l : List BFK_TYPE} {i j j2 : Nat} (h : matching l i j)
    (h2 : matching l i j2) : j = j2 := by
  by_contra hne
  have key : ∀ a b, matching l i a → matching l i b → a < b → False := by
    intro a b ha hb hab
    obtain ⟨hia, _, haj, hba⟩ := ha
    obtain ⟨_, _, hbj, hbb⟩ := hb
    have hbl : b < l.length := by
      rw [List.getElem?_eq_some] at hbj
      exact hbj.1
    have hget : (l.take b)[a]? = some JNE := by
      rw [List.getElem?_take_of_lt hab]
      exact haj
    have hsplit := drop_succ_split (l.take b) hia hget
    rw [List.take_take, min_eq_left (le_of_lt hab)] at hsplit
    unfold balanced at hbb
    rw [hsplit, nest_depth_balanced_close hba] at hbb
    cases hbb
  rcases Nat.lt_or_gt_of_ne hne with hlt | hgt
  · exact key j j2 h h2 hlt
  · exact key j2 j h2 h hgt

theorem matching_open_unique {l : List BFK_TYPE} {i i2 j : Nat} (h : matching l i j)
    (h2 : matching l i2 j) : i = i2 := by
  by_contra hne
  have key : ∀ a b, matching l a j → matching l b j → a < b → False := by
    intro a b ha hb hab
    obtain ⟨_, _, _, hba⟩ := ha
    obtain ⟨hbj, hbo, _, hbb⟩ := hb
    have hget : (l.take j)[b]? = some JEQ := by
      rw [List.getElem?_take_of_lt hbj]
      exact hbo
    have hsplit := drop_succ_split (l.take j) hab hget
    unfold balanced at hba
    rw [hsplit, nest_depth_append] at hba
    cases hd : nest_depth (List.drop (a + 1) (List.take b (List.take j l))) 0 with
    | none => rw [hd] at hba; cases hba
    | some d =>
      rw [hd] at hba
      simp only [Option.some_bind, nest_depth, nest_step] at hba
      rw [List.take_take, min_eq_left (le_of_lt hbj)] at hd
      have := balanced_shift hbb (d + 1)
      rw [this] at hba
      cases hba
  rcases Nat.lt_or_gt_of_ne hne with hlt | hgt
  · exact key i i2 h h2 hlt
  · exact key i2 i h2 h hgt

theorem get_instructions_body_case (st : compile_state) (hok : tokenizer_ok st.tokenizer) :
    body_case st (get_instructions_body st) := by
  by_cases hend : st.tokenizer.size ≤ st.tokenizer.index
  · have h := get_next_token_at_end st.tokenizer hend
    have : get_instructions_body st
        = Res.ret (Sum.inr (some (push_token BFK_EOF 0 st.prog))) := by
      unfold get_instructions_body
      rw [h]
    rw [this]
    exact body_case.eof (le_antisymm hok.index_le hend)
  · have hlt : st.tokenizer.index < st.tokenizer.size := by omega
    have hv := hok.current_valid hlt
    have h := get_next_token_of_lt st.tokenizer hlt hv
    have hfold : ∀ ty, ty.folds = true → token_of_char st.tokenizer.current = ty →
        body_case st (match continue_while_type (st.tokenizer.skip 1) ty with
          | Res.ret (count, t2) =>
            Res.ret (Sum.inl { st with tokenizer := t2, prog := push_token ty count st.prog })
          | Res.undef => Res.undef
          | Res.nofuel => Res.nofuel) := by
      intro ty hty hc
      have hne : ty ≠ BFK_EOF := by intro h0; rw [h0] at hty; cases hty
      obtain ⟨m, hres, hle, hall, hstop⟩ :=
        continue_while_type_spec ty hne (st.tokenizer.skip 1) (hok.advance 1 hlt)
      rw [hres]
      have hsk : ({ st.tokenizer.skip 1 with index := (st.tokenizer.skip 1).index + m }
          : bfk_tokenizer) = st.tokenizer.skip (1 + m) := by
        simp only [bfk_tokenizer.skip, Nat.add_assoc]
      simp only [hsk]
      refine body_case.fold hlt ty hty m hle ?_ ?_
      · intro k hk
        cases k with
        | zero => exact hc
        | succ k =>
          have := hall k (by omega)
          simp only [bfk_tokenizer.skip, Nat.add_assoc, Nat.add_comm 1 k] at this ⊢
          exact this
      · intro hlt2
        have := hstop hlt2
        simp only [bfk_tokenizer.skip] at this
        exact this
    cases hc : token_of_char st.tokenizer.current with
    | BFK_EOF => exact absurd hc hv
    | JEQ =>
      rw [hc] at h
      by_cases hfull : st.stack_size ≤ st.jump_stack.length
      · have : get_instructions_body st = Res.ret (Sum.inr none) := by
          unfold get_instructions_body
          rw [h]
          simp only [compile_state.stack_pointer, ge_iff_le, hfull, if_true]
        rw [this]
        exact body_case.jeq_full hlt hc hfull
      · have : get_instructions_body st = Res.ret (Sum.inl
            { tokenizer := st.tokenizer.skip 1
              prog := push_token JEQ 0 st.prog
              jump_stack := st.prog.size :: st.jump_stack
              stack_size := st.stack_size }) := by
          unfold get_instructions_body
          rw [h]
          simp only [compile_state.stack_pointer, ge_iff_le, hfull, if_false]
          rfl
        rw [this]
        exact body_case.jeq hlt hc (by omega)
    | JNE =>
      rw [hc] at h
      cases hstack : st.jump_stack with
      | nil =>
        have : get_instructions_body st = Res.ret (Sum.inr none) := by
          unfold get_instructions_body
          rw [h]
          simp only [hstack]
        rw [this]
        exact body_case.jne_empty hlt hc hstack
      | cons address rest =>
        have : get_instructions_body st = Res.ret (Sum.inl
            { tokenizer := st.tokenizer.skip 1
              prog := push_token JNE address (set_value st.prog address (to_int st.prog.size))
              jump_stack := rest
              stack_size := st.stack_size }) := by
          unfold get_instructions_body
          rw [h]
          simp only [hstack]
          rfl
        rw [this]
        exact body_case.jne hlt hc address rest hstack
    | MOVR =>
      have := hfold MOVR rfl hc
      unfold get_instructions_body
      rw [h, hc]
      exact this
    | MOVL =>
      have := hfold MOVL rfl hc
      unfold get_instructions_body
      rw [h, hc]
      exact this
    | INC =>
      have := hfold INC rfl hc
      unfold get_instructions_body
      rw [h, hc]
      exact this
    | DEC =>
      have := hfold DEC rfl hc
      unfold get_instructions_body
      rw [h, hc]
      exact this
    | WRITE =>
      have := hfold WRITE rfl hc
      unfold get_instructions_body
      rw [h, hc]
      exact this
    | READ =>
      have := hfold READ rfl hc
      unfold get_instructions_body
      rw [h, hc]
      exact this

/-- Invariant rule for the loop of `get_instructions`. -/
theorem get_instructions_loop_rule (P : compile_state → Prop)
    (Q : Option bfk_instuctions → Prop)
    (hstep : ∀ st st1, P st → get_instructions_body st = Res.ret (Sum.inl st1) → P st1)
    (hret : ∀ st r, P st → get_instructions_body st = Res.ret (Sum.inr r) → Q r) :
    ∀ (fuel : Nat) (st : compile_state) (r : Option bfk_instuctions), P st →
      get_instructions_loop fuel st = Res.ret r → Q r := by
  intro fuel
  induction fuel with
  | zero => intro st r _ h; cases h
  | succ fuel ih =>
    intro st r hP h
    unfold get_instructions_loop at h
    cases hb : get_instructions_body st with
    | undef => rw [hb] at h; cases h
    | nofuel => rw [hb] at h; cases h
    | ret x =>
      rw [hb] at h
      cases x with
      | inl st1 => exact ih st1 r (hstep st st1 hP hb) h
      | inr r1 =>
        simp only [Res.ret.injEq] at h
        rw [← h]
        exact hret st r1 hP hb

theorem skip_ok {t : bfk_tokenizer} (h : tokenizer_ok t) (m : Nat)
    (hm : t.index + m ≤ t.size) : tokenizer_ok (t.skip m) :=
  h.advance m hm

/-- One pass of the loop keeps the tokenizer well formed and, when the loop goes on, has moved
the cursor forward. -/
theorem get_instructions_body_progress (st st1 : compile_state)
    (hok : tokenizer_ok st.tokenizer)
    (h : get_instructions_body st = Res.ret (Sum.inl st1)) :
    tokenizer_ok st1.tokenizer ∧ st1.tokenizer.size = st.tokenizer.size ∧
      st.tokenizer.index < st1.tokenizer.index := by
  have hc := get_instructions_body_case st hok
  rw [h] at hc
  cases hc with
  | jeq hlt _ _ =>
    exact ⟨skip_ok hok 1 hlt, rfl, by show st.tokenizer.index < st.tokenizer.index + 1; omega⟩
  | jne hlt _ _ _ _ =>
    exact ⟨skip_ok hok 1 hlt, rfl, by show st.tokenizer.index < st.tokenizer.index + 1; omega⟩
  | fold hlt ty _ m hle _ _ =>
    exact ⟨skip_ok hok (1 + m) (by omega), rfl,
      by show st.tokenizer.index < st.tokenizer.index + (1 + m); omega⟩

/-- The loop of `get_instructions` returns: the budget is never exhausted and nothing undefined
happens. -/
theorem get_instructions_loop_total :
    ∀ (fuel : Nat) (st : compile_state), tokenizer_ok st.tokenizer →
      st.tokenizer.size - st.tokenizer.index < fuel →
      ∃ r, get_instructions_loop fuel st = Res.ret r := by
  intro fuel
  induction fuel with
  | zero => intro st _ h; omega
  | succ fuel ih =>
    intro st hok hfuel
    unfold get_instructions_loop
    have hc := get_instructions_body_case st hok
    cases hb : get_instructions_body st with
    | undef => rw [hb] at hc; cases hc
    | nofuel => rw [hb] at hc; cases hc
    | ret x =>
      cases x with
      | inr r => exact ⟨r, rfl⟩
      | inl st1 =>
        obtain ⟨hok1, hsize, hidx⟩ := get_instructions_body_progress st st1 hok hb
        exact ih st1 hok1 (by have := hok1.index_le; omega)

theorem get_instructions_total (t : bfk_tokenizer) (hok : tokenizer_ok t) :
    ∃ r, get_instructions t = Res.ret r :=
  get_instructions_loop_total _ _ hok (by show t.size - t.index < t.size - t.index + 1; omega)

theorem tokenizer_of_ok {src : dystring_t} {t : bfk_tokenizer} (h : tokenizer_of src t) :
    tokenizer_ok t := by
  obtain ⟨hdata, hsize, hidx, hlt⟩ := h
  refine ⟨hsize, hlt, by omega, ?_⟩
  intro c hc
  rw [hdata, List.mem_filter] at hc
  simpa using hc.2

/-- The function `parse` always returns, with a program or with `NULL`. -/
theorem parse_total (code : dystring_t) : ∃ r, parse code = Res.ret r := by
  obtain ⟨o, ho, hspec⟩ := get_tokenizer_spec code
  unfold parse
  rw [ho]
  cases o with
  | none => exact ⟨none, rfl⟩
  | some t => exact get_instructions_total t (tokenizer_of_ok (hspec t rfl))

theorem push_token_of_room (ty : BFK_TYPE) (n : Nat) (prog : bfk_instuctions)
    (h : prog.size < prog.capacity) :
    push_token ty n prog
      = { instructions := prog.instructions ++ [{ type := ty, value := to_int n }]
          capacity := prog.capacity } := by
  unfold push_token
  rw [if_neg (by omega)]

theorem push_token_of_full (ty : BFK_TYPE) (n : Nat) (prog : bfk_instuctions)
    (h : prog.capacity ≤ prog.size) : push_token ty n prog = prog := by
  unfold push_token
  rw [if_pos h]

theorem set_value_size (prog : bfk_instuctions) (a : Nat) (v : Int) :
    (set_value prog a v).size = prog.size := by
  simp [set_value, bfk_instuctions.size]

theorem set_value_capacity (prog : bfk_instuctions) (a : Nat) (v : Int) :
    (set_value prog a v).capacity = prog.capacity := rfl

theorem map_modify_of_fixed {α β : Type} (g : α → β) (f : α → α) :
    ∀ (l : List α) (n : Nat), (∀ x, l[n]? = some x → g (f x) = g x) →
      (l.modify f n).map g = l.map g := by
  intro l
  induction l with
  | nil => intro n _; cases n <;> rfl
  | cons y rest ih =>
    intro n h
    cases n with
    | zero =>
      have := h y (by simp)
      simp [List.modify, List.modifyHead, this]
    | succ n =>
      have := ih n (fun x hx => h x (by simpa using hx))
      simpa [List.modify] using this

theorem kinds_set_value (prog : bfk_instuctions) (a : Nat) (v : Int) :
    kinds (set_value prog a v) = kinds prog :=
  map_modify_of_fixed _ _ _ _ (fun _ _ => rfl)

theorem kinds_length (prog : bfk_instuctions) : (kinds prog).length = prog.size := by
  simp [kinds, bfk_instuctions.size]

theorem kinds_getElem? (prog : bfk_instuctions) (i : Nat) :
    (kinds prog)[i]? = (prog.instructions[i]?).map (fun toke => toke.type) := by
  simp [kinds]

theorem unfolded_count_set_value (prog : bfk_instuctions) (a : Nat) (v : Int)
    (h : (kinds prog)[a]? = some JEQ) :
    unfolded_count (set_value prog a v) = unfolded_count prog := by
  unfold unfolded_count set_value
  simp only
  rw [map_modify_of_fixed]
  intro x hx
  rw [kinds_getElem?, hx] at h
  simp only [Option.map_some', Option.some.injEq] at h
  simp only [unfolded_weight, h]

theorem unfolded_count_append (l : List bfk_token_t) (c : Nat) (toke : bfk_token_t) :
    unfolded_count { instructions := l ++ [toke], capacity := c }
      = unfolded_count { instructions := l, capacity := c } + unfolded_weight toke := by
  simp [unfolded_count]

theorem count_take_succ (cs : List Char) (c : Char) (k : Nat) (hk : k < cs.length) :
    (cs.take (k + 1)).count c
      = (cs.take k).count c + (if cs.getD k (Char.ofNat 0) = c then 1 else 0) := by
  rw [List.take_succ, List.count_append, List.getD_eq_getElem _ _ hk,
    List.getElem?_eq_getElem hk]
  simp only [Option.toList, List.count_cons, List.count_nil, beq_iff_eq, Nat.zero_add]

theorem count_take_run (cs : List Char) (c : Char) (i : Nat) :
    ∀ n, i + n ≤ cs.length → (∀ k, k < n → cs.getD (i + k) (Char.ofNat 0) ≠ c) →
      (cs.take (i + n)).count c = (cs.take i).count c := by
  intro n
  induction n with
  | zero => intro _ _; rfl
  | succ n ih =>
    intro hle hall
    rw [← Nat.add_assoc, count_take_succ cs c (i + n) (by omega),
      if_neg (hall n (by omega)), Nat.add_zero]
    exact ih (by omega) (fun k hk => hall k (by omega))

theorem folds_ne_jeq {ty : BFK_TYPE} (h : ty.folds = true) : ty ≠ JEQ := by
  intro h0; rw [h0] at h; cases h

theorem folds_ne_jne {ty : BFK_TYPE} (h : ty.folds = true) : ty ≠ JNE := by
  intro h0; rw [h0] at h; cases h

theorem folds_ne_eof {ty : BFK_TYPE} (h : ty.folds = true) : ty ≠ BFK_EOF := by
  intro h0; rw [h0] at h; cases h

theorem nest_step_folds {ty : BFK_TYPE} (h : ty.folds = true) (d : Nat) :
    nest_step d ty = some d := by
  cases ty <;> first | rfl | cases h

theorem unfolded_weight_folds {ty : BFK_TYPE} (h : ty.folds = true) (v : Int) :
    unfolded_weight { type := ty, value := v } = v := by
  cases ty <;> first | rfl | cases h

theorem compile_inv.length_eq {cs : List Char} {st : compile_state} (h : compile_inv cs st) :
    st.tokenizer.size = cs.length := by
  rw [h.tok_ok.size_eq, h.data_eq]

theorem compile_inv.length_lt {cs : List Char} {st : compile_state} (h : compile_inv cs st) :
    cs.length < 2147483648 := by
  rw [← h.length_eq]; exact h.tok_ok.size_lt

theorem kinds_append (l : List bfk_token_t) (c : Nat) (toke : bfk_token_t) :
    kinds { instructions := l ++ [toke], capacity := c }
      = kinds { instructions := l, capacity := c } ++ [toke.type] := by
  simp [kinds]

theorem getElem?_append_singleton {α : Type} (l : List α) (x y : α) (j : Nat)
    (h : (l ++ [x])[j]? = some y) : (j < l.length ∧ l[j]? = some y) ∨ (j = l.length ∧ y = x) := by
  by_cases hj : j < l.length
  · rw [List.getElem?_append_left hj] at h
    exact Or.inl ⟨hj, h⟩
  · rw [List.getElem?_append_right (by omega)] at h
    have hj2 : j - l.length = 0 := by
      by_contra hne
      rw [List.getElem?_eq_none (by simp; omega)] at h
      cases h
    rw [hj2] at h
    simp only [List.getElem?_cons_zero, Option.some.injEq] at h
    exact Or.inr ⟨by omega, h.symm⟩

/-- Appending an instruction that is no bracket keeps the bracket part of the invariant. -/
theorem compile_inv_fold {cs : List Char} {st : compile_state} (h : compile_inv cs st)
    (hlt : st.tokenizer.index < st.tokenizer.size)
    (ty : BFK_TYPE) (hty : ty.folds = true) (m : Nat)
    (hle : st.tokenizer.index + 1 + m ≤ st.tokenizer.size)
    (hrun : ∀ k, k < 1 + m →
      token_of_char (st.tokenizer.data.getD (st.tokenizer.index + k) (Char.ofNat 0)) = ty) :
    compile_inv cs
      { tokenizer := st.tokenizer.skip (1 + m)
        prog := push_token ty (1 + m) st.prog
        jump_stack := st.jump_stack
        stack_size := st.stack_size } := by
  have hlen := h.length_eq
  have hlen_lt := h.length_lt
  have hroom : st.prog.size < st.prog.capacity := by
    have := h.size_le; have := h.capacity_eq; omega
  have hpush := push_token_of_room ty (1 + m) st.prog hroom
  have hval : to_int (1 + m) = ((1 + m : Nat) : Int) := to_int_of_lt (by omega)
  have hkinds : kinds (push_token ty (1 + m) st.prog) = kinds st.prog ++ [ty] := by
    rw [hpush]; exact kinds_append _ _ _
  have hnotc : ∀ c, (c = '[' ∨ c = ']') → ∀ k, k < 1 + m →
      cs.getD (st.tokenizer.index + k) (Char.ofNat 0) ≠ c := by
    intro c hc k hk hcon
    have := hrun k hk
    rw [h.data_eq, hcon] at this
    rcases hc with hc | hc
    · rw [hc] at this
      exact folds_ne_jeq hty (this.symm.trans (token_of_char_jeq.mpr rfl))
    · rw [hc] at this
      exact folds_ne_jne hty (this.symm.trans (token_of_char_jne.mpr rfl))
  have hcnt : ∀ c, (c = '[' ∨ c = ']') → ∀ n, n ≤ 1 + m →
      (cs.take (st.tokenizer.index + n)).count c = (cs.take st.tokenizer.index).count c := by
    intro c hc n hn
    exact count_take_run cs c st.tokenizer.index n (by omega)
      (fun k hk => hnotc c hc k (by omega))
  refine ⟨skip_ok h.tok_ok (1 + m) (by omega), h.data_eq, ?_, ?_, ?_, ?_, ?_, ?_, ?_, ?_, ?_⟩
  · rw [hpush]; exact h.capacity_eq
  · show (push_token ty (1 + m) st.prog).size ≤ st.tokenizer.index + (1 + m)
    rw [hpush]
    have := h.size_le
    simp only [bfk_instuctions.size, List.length_append, List.length_singleton] at this ⊢
    omega
  · show unfolded_count (push_token ty (1 + m) st.prog) = ((st.tokenizer.index + (1 + m) : Nat) : Int)
    rw [hpush, unfolded_count_append, unfolded_weight_folds hty, hval]
    have := h.count_eq
    unfold unfolded_count at this ⊢
    rw [this]
    push_cast
    ring
  · intro p s hs
    obtain ⟨h1, h2, h3⟩ := h.stack_ok p s hs
    have hsl : s < (kinds st.prog).length := by rw [kinds_length]; exact h1
    refine ⟨?_, ?_, ?_⟩
    · rw [← kinds_length, hkinds, List.length_append]; omega
    · rw [hkinds, List.getElem?_append_left hsl]; exact h2
    · rw [hkinds, List.drop_append_of_le_length (by omega), nest_depth_append, h3]
      show (nest_step p ty).bind (nest_depth []) = some p
      rw [nest_step_folds hty]; rfl
  · intro j toke hj hjne
    rw [hpush] at hj
    rcases getElem?_append_singleton _ _ _ _ hj with ⟨_, hold⟩ | ⟨_, hnew⟩
    · obtain ⟨i, hi, hm⟩ := h.jne_ok j toke hold hjne
      exact ⟨i, hi, by rw [hkinds]; exact matching_append hm _⟩
    · rw [hnew] at hjne
      exact absurd hjne (folds_ne_jne hty)
  · intro i toke hi hjeq
    rw [hpush] at hi
    rcases getElem?_append_singleton _ _ _ _ hi with ⟨_, hold⟩ | ⟨_, hnew⟩
    · rcases h.jeq_ok i toke hold hjeq with hin | ⟨j, hj, hm⟩
      · exact Or.inl hin
      · exact Or.inr ⟨j, hj, by rw [hkinds]; exact matching_append hm _⟩
    · rw [hnew] at hjeq
      exact absurd hjeq (folds_ne_jeq hty)
  · intro toke hmem
    rw [hpush] at hmem
    simp only [List.mem_append, List.mem_singleton] at hmem
    rcases hmem with hold | hnew
    · exact h.no_eof toke hold
    · rw [hnew]; exact folds_ne_eof hty
  · show st.jump_stack.length + (cs.take (st.tokenizer.index + (1 + m))).count ']'
      = (cs.take (st.tokenizer.index + (1 + m))).count '['
    rw [hcnt ']' (Or.inr rfl) (1 + m) (le_refl _), hcnt '[' (Or.inl rfl) (1 + m) (le_refl _)]
    exact h.depth_eq
  · intro k hk
    have hk2 : k ≤ st.tokenizer.index + (1 + m) := hk
    by_cases hki : k ≤ st.tokenizer.index
    · exact h.closers_le k hki
    · obtain ⟨n, hn⟩ : ∃ n, k = st.tokenizer.index + n := ⟨k - st.tokenizer.index, by omega⟩
      rw [hn, hcnt ']' (Or.inr rfl) n (by omega), hcnt '[' (Or.inl rfl) n (by omega)]
      exact h.closers_le _ (le_refl _)

theorem set_value_getElem? (prog : bfk_instuctions) (a : Nat) (v : Int) (j : Nat)
    (toke : bfk_token_t) (h : (set_value prog a v).instructions[j]? = some toke) :
    ∃ old, prog.instructions[j]? = some old ∧ toke.type = old.type ∧
      (j ≠ a → toke = old) ∧ (j = a → toke.value = v) := by
  unfold set_value at h
  simp only at h
  by_cases hja : a = j
  · subst hja
    rw [List.getElem?_modify_eq] at h
    cases hold : prog.instructions[a]? with
    | none => rw [hold] at h; cases h
    | some old =>
      rw [hold] at h
      simp only [Option.map_eq_map, Option.map_some', Option.some.injEq] at h
      refine ⟨old, rfl, ?_, fun hne => absurd rfl hne, fun _ => ?_⟩
      · rw [← h]
      · rw [← h]
  · rw [List.getElem?_modify_ne _ _ hja] at h
    exact ⟨toke, h, rfl, fun _ => rfl, fun heq => absurd heq.symm hja⟩

/-- An opening bracket keeps the invariant: its own index goes on the jump stack. -/
theorem compile_inv_jeq {cs : List Char} {st : compile_state} (h : compile_inv cs st)
    (hlt : st.tokenizer.index < st.tokenizer.size)
    (hc : token_of_char st.tokenizer.current = JEQ) :
    compile_inv cs
      { tokenizer := st.tokenizer.skip 1
        prog := push_token JEQ 0 st.prog
        jump_stack := st.prog.size :: st.jump_stack
        stack_size := st.stack_size } := by
  have hlen := h.length_eq
  have hroom : st.prog.size < st.prog.capacity := by
    have := h.size_le; have := h.capacity_eq; omega
  have hpush := push_token_of_room JEQ 0 st.prog hroom
  have hkinds : kinds (push_token JEQ 0 st.prog) = kinds st.prog ++ [JEQ] := by
    rw [hpush]; exact kinds_append _ _ _
  have hcur : cs.getD st.tokenizer.index (Char.ofNat 0) = '[' := by
    rw [← h.data_eq]; exact token_of_char_jeq.mp hc
  have hil : st.tokenizer.index < cs.length := by omega
  have hopen := count_take_succ cs '[' st.tokenizer.index hil
  have hclose := count_take_succ cs ']' st.tokenizer.index hil
  rw [hcur, if_pos rfl] at hopen
  rw [hcur, if_neg (by decide), Nat.add_zero] at hclose
  refine ⟨skip_ok h.tok_ok 1 (by omega), h.data_eq, ?_, ?_, ?_, ?_, ?_, ?_, ?_, ?_, ?_⟩
  · rw [hpush]; exact h.capacity_eq
  · show (push_token JEQ 0 st.prog).size ≤ st.tokenizer.index + 1
    rw [hpush]
    have := h.size_le
    simp only [bfk_instuctions.size, List.length_append, List.length_singleton] at this ⊢
    omega
  · show unfolded_count (push_token JEQ 0 st.prog) = ((st.tokenizer.index + 1 : Nat) : Int)
    rw [hpush, unfolded_count_append]
    have := h.count_eq
    unfold unfolded_count at this ⊢
    rw [this]
    simp [unfolded_weight]
  · intro p s hs
    cases p with
    | zero =>
      simp only [List.getElem?_cons_zero, Option.some.injEq] at hs
      subst hs
      refine ⟨?_, ?_, ?_⟩
      · rw [← kinds_length, ← kinds_length, hkinds, List.length_append]
        simp
      · rw [hkinds, ← kinds_length, List.getElem?_append_right (le_refl _)]
        simp
      · have hnil : List.drop (st.prog.size + 1) (kinds st.prog ++ [JEQ]) = [] :=
          List.drop_eq_nil_of_le (by simp [kinds_length])
        rw [hkinds, hnil]
        rfl
    | succ p =>
      simp only [List.getElem?_cons_succ] at hs
      obtain ⟨h1, h2, h3⟩ := h.stack_ok p s hs
      have hsl : s < (kinds st.prog).length := by rw [kinds_length]; exact h1
      refine ⟨?_, ?_, ?_⟩
      · rw [← kinds_length, hkinds, List.length_append]; omega
      · rw [hkinds, List.getElem?_append_left hsl]; exact h2
      · rw [hkinds, List.drop_append_of_le_length (by omega), nest_depth_append, h3]
        rfl
  · intro j toke hj hjne
    rw [hpush] at hj
    rcases getElem?_append_singleton _ _ _ _ hj with ⟨_, hold⟩ | ⟨_, hnew⟩
    · obtain ⟨i, hi, hm⟩ := h.jne_ok j toke hold hjne
      exact ⟨i, hi, by rw [hkinds]; exact matching_append hm _⟩
    · rw [hnew] at hjne
      cases hjne
  · intro i toke hi hjeq
    rw [hpush] at hi
    rcases getElem?_append_singleton _ _ _ _ hi with ⟨_, hold⟩ | ⟨hnew, _⟩
    · rcases h.jeq_ok i toke hold hjeq with hin | ⟨j, hj, hm⟩
      · exact Or.inl (List.mem_cons_of_mem _ hin)
      · exact Or.inr ⟨j, hj, by rw [hkinds]; exact matching_append hm _⟩
    · left
      rw [hnew]
      exact List.mem_cons_self _ _
  · intro toke hmem
    rw [hpush] at hmem
    simp only [List.mem_append, List.mem_singleton] at hmem
    rcases hmem with hold | hnew
    · exact h.no_eof toke hold
    · rw [hnew]; intro h0; cases h0
  · show (st.prog.size :: st.jump_stack).length + (cs.take (st.tokenizer.index + 1)).count ']'
      = (cs.take (st.tokenizer.index + 1)).count '['
    have := h.depth_eq
    rw [hopen, hclose, List.length_cons]
    omega
  · intro k hk
    have hk2 : k ≤ st.tokenizer.index + 1 := hk
    by_cases hki : k ≤ st.tokenizer.index
    · exact h.closers_le k hki
    · have hkeq : k = st.tokenizer.index + 1 := by omega
      have := h.closers_le _ (le_refl _)
      rw [hkeq, hopen, hclose]
      omega

/-- A closing bracket with a partner on the jump stack keeps the invariant: the pair is
closed and both operands are set. -/
theorem compile_inv_jne {cs : List Char} {st : compile_state} (h : compile_inv cs st)
    (hlt : st.tokenizer.index < st.tokenizer.size)
    (hc : token_of_char st.tokenizer.current = JNE)
    (address : Nat) (rest : List Nat) (hstack : st.jump_stack = address :: rest) :
    compile_inv cs
      { tokenizer := st.tokenizer.skip 1
        prog := push_token JNE address (set_value st.prog address (to_int st.prog.size))
        jump_stack := rest
        stack_size := st.stack_size } := by
  have hlen := h.length_eq
  have hlen_lt := h.length_lt
  have hsize_le := h.size_le
  have hroom : (set_value st.prog address (to_int st.prog.size)).size
      < (set_value st.prog address (to_int st.prog.size)).capacity := by
    rw [set_value_size, set_value_capacity]
    have := h.capacity_eq; omega
  have hpush := push_token_of_room JNE address _ hroom
  obtain ⟨ha1, ha2, ha3⟩ := h.stack_ok 0 address (by rw [hstack]; simp)
  have hva : to_int address = (address : Int) := to_int_of_lt (by omega)
  have hvs : to_int st.prog.size = (st.prog.size : Int) := to_int_of_lt (by omega)
  have hkinds : kinds (push_token JNE address (set_value st.prog address (to_int st.prog.size)))
      = kinds st.prog ++ [JNE] := by
    rw [hpush, set_value_capacity]
    have := kinds_append (set_value st.prog address (to_int st.prog.size)).instructions
      st.prog.capacity { type := JNE, value := to_int address }
    rw [this]
    congr 1
    exact kinds_set_value st.prog address _
  have hnew_match : matching (kinds st.prog ++ [JNE]) address st.prog.size := by
    have := matching_new (l := kinds st.prog) (by rw [kinds_length]; exact ha1) ha2 ha3
    rw [kinds_length] at this
    exact this
  have hcur : cs.getD st.tokenizer.index (Char.ofNat 0) = ']' := by
    rw [← h.data_eq]; exact token_of_char_jne.mp hc
  have hil : st.tokenizer.index < cs.length := by omega
  have hopen := count_take_succ cs '[' st.tokenizer.index hil
  have hclose := count_take_succ cs ']' st.tokenizer.index hil
  rw [hcur, if_neg (by decide), Nat.add_zero] at hopen
  rw [hcur, if_pos rfl] at hclose
  have hdepth := h.depth_eq
  rw [hstack, List.length_cons] at hdepth
  refine ⟨skip_ok h.tok_ok 1 (by omega), h.data_eq, ?_, ?_, ?_, ?_, ?_, ?_, ?_, ?_, ?_⟩
  · rw [hpush]; exact h.capacity_eq
  · show (push_token JNE address _).size ≤ st.tokenizer.index + 1
    rw [← kinds_length, hkinds, List.length_append, kinds_length]
    simp only [List.length_singleton]
    omega
  · show unfolded_count (push_token JNE address _) = ((st.tokenizer.index + 1 : Nat) : Int)
    rw [hpush, unfolded_count_append]
    have h1 := unfolded_count_set_value st.prog address (to_int st.prog.size) ha2
    have h2 := h.count_eq
    unfold unfolded_count at h1 h2 ⊢
    rw [h1, h2]
    simp [unfolded_weight]
  · intro p s hs
    obtain ⟨h1, h2, h3⟩ := h.stack_ok (p + 1) s (by rw [hstack]; simpa using hs)
    have hsl : s < (kinds st.prog).length := by rw [kinds_length]; exact h1
    refine ⟨?_, ?_, ?_⟩
    · rw [← kinds_length, hkinds, List.length_append]; omega
    · rw [hkinds, List.getElem?_append_left hsl]; exact h2
    · rw [hkinds, List.drop_append_of_le_length (by omega), nest_depth_append, h3]
      simp [nest_depth, nest_step]
  · intro j toke hj hjne
    rw [hkinds]
    rw [hpush] at hj
    rcases getElem?_append_singleton _ _ _ _ hj with ⟨_, hold⟩ | ⟨hjs, hnew⟩
    · obtain ⟨old, hget, htype, hsame, _⟩ := set_value_getElem? _ _ _ _ _ hold
      by_cases hja : j = address
      · exfalso
        rw [kinds_getElem?, ← hja, hget] at ha2
        simp only [Option.map_some', Option.some.injEq] at ha2
        rw [htype, ha2] at hjne
        cases hjne
      · rw [hsame hja] at hjne ⊢
        obtain ⟨i, hi, hm⟩ := h.jne_ok j old hget hjne
        exact ⟨i, hi, matching_append hm _⟩
    · refine ⟨address, ?_, ?_⟩
      · rw [hnew]; exact hva
      · have hjs2 : j = st.prog.size := by
          rw [hjs]; exact set_value_size _ _ _
        rw [hjs2]; exact hnew_match
  · intro i toke hi hjeq
    rw [hkinds]
    rw [hpush] at hi
    rcases getElem?_append_singleton _ _ _ _ hi with ⟨_, hold⟩ | ⟨_, hnew⟩
    · obtain ⟨old, hget, htype, hsame, hval⟩ := set_value_getElem? _ _ _ _ _ hold
      by_cases hia : i = address
      · right
        refine ⟨st.prog.size, ?_, ?_⟩
        · rw [hval hia]; exact hvs
        · rw [hia]; exact hnew_match
      · rw [hsame hia] at hjeq ⊢
        rcases h.jeq_ok i old hget hjeq with hin | ⟨j, hj, hm⟩
        · left
          rw [hstack] at hin
          rcases List.mem_cons.mp hin with heq | hin2
          · exact absurd heq hia
          · exact hin2
        · exact Or.inr ⟨j, hj, matching_append hm _⟩
    · rw [hnew] at hjeq
      cases hjeq
  · intro toke hmem
    rw [hpush] at hmem
    simp only [List.mem_append, List.mem_singleton] at hmem
    rcases hmem with hold | hnew
    · obtain ⟨j, hj⟩ := List.mem_iff_getElem?.mp hold
      obtain ⟨old, hget, htype, _, _⟩ := set_value_getElem? _ _ _ _ _ hj
      rw [htype]
      exact h.no_eof old (List.mem_iff_getElem?.mpr ⟨j, hget⟩)
    · rw [hnew]; intro h0; cases h0
  · show rest.length + (cs.take (st.tokenizer.index + 1)).count ']'
      = (cs.take (st.tokenizer.index + 1)).count '['
    rw [hopen, hclose]
    omega
  · intro k hk
    have hk2 : k ≤ st.tokenizer.index + 1 := hk
    by_cases hki : k ≤ st.tokenizer.index
    · exact h.closers_le k hki
    · have hkeq : k = st.tokenizer.index + 1 := by omega
      rw [hkeq, hopen, hclose]
      omega

theorem compile_inv_step {cs : List Char} (st st1 : compile_state) (h : compile_inv cs st)
    (hb : get_instructions_body st = Res.ret (Sum.inl st1)) : compile_inv cs st1 := by
  have hc := get_instructions_body_case st h.tok_ok
  rw [hb] at hc
  cases hc with
  | jeq hlt hc _ => exact compile_inv_jeq h hlt hc
  | jne hlt hc address rest hstack => exact compile_inv_jne h hlt hc address rest hstack
  | fold hlt ty hty m hle hrun _ => exact compile_inv_fold h hlt ty hty m hle hrun

theorem compile_inv_init (t : bfk_tokenizer) (hok : tokenizer_ok t) (hidx : t.index = 0) :
    compile_inv t.data
      { tokenizer := t
        prog := { instructions := [], capacity := t.size }
        jump_stack := []
        stack_size := t.size } := by
  refine ⟨hok, rfl, hok.size_eq, Nat.zero_le _, ?_, ?_, ?_, ?_, ?_, ?_, ?_⟩
  · show unfolded_count { instructions := [], capacity := t.size } = (t.index : Int)
    rw [hidx]; rfl
  · intro p s hs; simp at hs
  · intro j toke hj; simp at hj
  · intro i toke hi; simp at hi
  · intro toke hmem; simp at hmem
  · show 0 + (t.data.take t.index).count ']' = (t.data.take t.index).count '['
    rw [hidx]; rfl
  · intro k hk
    have hk0 : k = 0 := by
      have : k ≤ t.index := hk
      omega
    rw [hk0]; exact le_refl _

/-- What a successful `get_instructions` returns: the program of a final loop state, read to the
end of the characters, after the closing call of `push_token`. -/
theorem get_instructions_some (t : bfk_tokenizer) (hok : tokenizer_ok t) (hidx : t.index = 0)
    (prog : bfk_instuctions) (h : get_instructions t = Res.ret (some prog)) :
    ∃ st, compile_inv t.data st ∧ st.tokenizer.index = t.data.length ∧
      prog = push_token BFK_EOF 0 st.prog := by
  have key := get_instructions_loop_rule (compile_inv t.data)
    (fun r => ∀ prog, r = some prog → ∃ st, compile_inv t.data st ∧
      st.tokenizer.index = t.data.length ∧ prog = push_token BFK_EOF 0 st.prog)
    (fun st st1 hinv hb => compile_inv_step st st1 hinv hb)
    (by
      intro st r hinv hb prog hr
      have hc := get_instructions_body_case st hinv.tok_ok
      rw [hb] at hc
      cases hc with
      | eof hend =>
        simp only [Option.some.injEq] at hr
        refine ⟨st, hinv, ?_, hr.symm⟩
        rw [hend, hinv.length_eq]
      | jeq_full _ _ _ => cases hr
      | jne_empty _ _ _ => cases hr)
  exact key _ _ _ (compile_inv_init t hok hidx) h prog rfl

/-- The two shapes of the returned program: with the terminator when a cell is left for it,
without it when every cell is taken. -/
theorem push_eof_shape (prog : bfk_instuctions) :
    push_token BFK_EOF 0 prog = prog ∨
      push_token BFK_EOF 0 prog
        = { instructions := prog.instructions ++ [{ type := BFK_EOF, value := 0 }]
            capacity := prog.capacity } := by
  by_cases h : prog.capacity ≤ prog.size
  · exact Or.inl (push_token_of_full _ _ _ h)
  · right
    rw [push_token_of_room _ _ _ (by omega)]
    rfl

theorem get_tokenizer_some {code : dystring_t} {t : bfk_tokenizer}
    (ht : get_tokenizer code = Res.ret (some t)) : tokenizer_of code t := by
  obtain ⟨o, ho, hspec⟩ := get_tokenizer_spec code
  rw [ht] at ho
  simp only [Res.ret.injEq] at ho
  exact hspec t ho.symm

theorem matching_of_append {l : List BFK_TYPE} {i j : Nat} (x : List BFK_TYPE)
    (hj : j < l.length) (h : matching (l ++ x) i j) : matching l i j := by
  obtain ⟨hij, hi, hjj, hb⟩ := h
  refine ⟨hij, ?_, ?_, ?_⟩
  · rw [List.getElem?_append_left (by omega)] at hi; exact hi
  · rw [List.getElem?_append_left hj] at hjj; exact hjj
  · rw [List.take_append_of_le_length (by omega)] at hb; exact hb

/-- The facts about the loop state that carry over to the returned program. -/
theorem returned_program {st : compile_state}
    (prog : bfk_instuctions) (hprog : prog = push_token BFK_EOF 0 st.prog) :
    ∃ tail : List bfk_token_t, prog.instructions = st.prog.instructions ++ tail ∧
      (∀ toke, toke ∈ tail → toke = { type := BFK_EOF, value := 0 }) := by
  rcases push_eof_shape st.prog with hs | hs
  · exact ⟨[], by rw [hprog, hs]; simp, by intro toke h; simp at h⟩
  · refine ⟨[{ type := BFK_EOF, value := 0 }], by rw [hprog, hs], ?_⟩
    intro toke h
    simpa using h

theorem kinds_of_append {prog prog0 : bfk_instuctions} {tail : List bfk_token_t}
    (h : prog.instructions = prog0.instructions ++ tail) :
    kinds prog = kinds prog0 ++ tail.map (fun toke => toke.type) := by
  simp [kinds, h]

/-- An instruction of the returned program that is not the terminator was written by the
loop. -/
theorem returned_getElem? {prog prog0 : bfk_instuctions} {tail : List bfk_token_t}
    (h : prog.instructions = prog0.instructions ++ tail)
    (htail : ∀ toke, toke ∈ tail → toke = { type := BFK_EOF, value := 0 })
    {i : Nat} {toke : bfk_token_t} (hi : prog.instructions[i]? = some toke)
    (hne : toke.type ≠ BFK_EOF) : i < prog0.size ∧ prog0.instructions[i]? = some toke := by
  rw [h] at hi
  by_cases hlt : i < prog0.instructions.length
  · rw [List.getElem?_append_left hlt] at hi
    exact ⟨hlt, hi⟩
  · rw [List.getElem?_append_right (by omega)] at hi
    have := htail toke (List.mem_iff_getElem?.mpr ⟨_, hi⟩)
    rw [this] at hne
    exact absurd rfl hne

theorem ldiff_byte (m : Nat) : Nat.ldiff 255 m = 255 - m % 256 := by
  apply Nat.eq_of_testBit_eq
  intro i
  have h1 : (255 : Nat) = 2 ^ 8 - 1 := by norm_num
  have h2 : 255 - m % 256 = 2 ^ 8 - (m % 2 ^ 8 + 1) := by
    have : (2 : Nat) ^ 8 = 256 := by norm_num
    rw [this]; omega
  rw [Nat.testBit_ldiff, h2, Nat.testBit_two_pow_sub_succ (Nat.mod_lt _ (by norm_num)), h1,
    Nat.testBit_two_pow_sub_one, Nat.testBit_mod_two_pow]
  by_cases hi : i < 8 <;> simp [hi]

/-- Masking an `int` with `0xff` is the remainder modulo 256 taken in `0..255`. -/
theorem land_byte (x : Int) : Int.land x 255 = x % 256 := by
  cases x with
  | ofNat m =>
    show ((m &&& 255 : Nat) : Int) = (m : Int) % 256
    have : m &&& 255 = m % 256 := Nat.and_pow_two_sub_one_eq_mod m 8
    rw [this]
    rfl
  | negSucc m =>
    show ((Nat.ldiff 255 m : Nat) : Int) = Int.negSucc m % 256
    rw [ldiff_byte, Int.negSucc_emod m (by decide)]
    have : m % 256 < 256 := Nat.mod_lt _ (by decide)
    omega

/-- More budget does not change the result of a finished loop of `run_program`. -/
theorem run_loop_mono (sink : Nat → Bool) :
    ∀ (fuel k : Nat) (state r : prog_state), run_loop sink fuel state = Res.ret r →
      run_loop sink (fuel + k) state = Res.ret r := by
  intro fuel
  induction fuel with
  | zero => intro k state r h; cases h
  | succ fuel ih =>
    intro k state r h
    rw [Nat.add_right_comm]
    unfold run_loop at h ⊢
    by_cases hstop : state.should_stop = true
    · rw [if_pos hstop] at h ⊢; exact h
    · rw [if_neg hstop] at h ⊢
      cases hs : run_step sink state with
      | undef => rw [hs] at h; cases h
      | nofuel => rw [hs] at h; cases h
      | ret s1 =>
        rw [hs] at h
        exact ih k s1 r h

theorem run_program_mono (sink : Nat → Bool) (fuel k : Nat) (program : bfk_instuctions)
    (x : Int × List Nat) (h : run_program sink fuel program = Res.ret x) :
    run_program sink (fuel + k) program = Res.ret x := by
  unfold run_program at h ⊢
  cases hl : run_loop sink fuel (init_state program) with
  | undef => rw [hl] at h; cases h
  | nofuel => rw [hl] at h; cases h
  | ret s =>
    rw [hl] at h
    rw [run_loop_mono sink fuel k _ s hl]
    exact h

theorem main_on_mono (sink : Nat → Bool) (fuel k : Nat) (code : dystring_t)
    (x : Int × List Nat) (h : main_on sink fuel code = Res.ret x) :
    main_on sink (fuel + k) code = Res.ret x := by
  unfold main_on at h ⊢
  cases hp : parse code with
  | undef => rw [hp] at h; cases h
  | nofuel => rw [hp] at h; cases h
  | ret o =>
    rw [hp] at h
    cases o with
    | none => exact h
    | some prog => exact run_program_mono sink fuel k prog x h

theorem to_size_t_natCast (n : Nat) (h : n < 18446744073709551616) :
    to_size_t (n : Int) = n := by
  unfold to_size_t
  have : ((n : Int) % 18446744073709551616) = (n : Int) := Int.emod_eq_of_lt (by omega) (by omega)
  rw [this]
  simp

/-- A step on a `READ` instruction over a cell holding 0 sets the program counter from the
repeat count of the instruction. -/
theorem run_step_read_zero (sink : Nat → Bool) (state : prog_state) (toke : bfk_token_t)
    (hty : toke.type = READ) (hap : state.address_pointer < DEFAULT_MEMORY_SIZE)
    (hcell : state.memory state.address_pointer = 0)
    (hfetch : state.program.instructions[state.program_counter]? = some toke) :
    ∃ s1, run_step sink state = Res.ret s1 ∧
      s1.program_counter = (to_size_t toke.value + 1) % SIZE_CEIL := by
  unfold run_step
  rw [hfetch]
  simp only [dispatch, hty, jump_if_zero, read, hap, if_true, hcell]
  exact ⟨_, rfl, rfl⟩

set_option maxRecDepth 4000 in
theorem read_prog_run :
    main_on accepting 10 (source ",,+++.")
      = Res.ret (0, text_bytes "not implemented read yet...") := by
  decide

set_option maxRecDepth 4000 in
theorem read_prog_step :
    ∃ s1, run_step accepting (init_state read_prog) = Res.ret s1 ∧
      s1.program_counter = 3 ∧ s1.should_stop = false :=
  ⟨_, rfl, rfl, rfl⟩

/-- The function `get_next_token` either reports `BFK_EOF` and leaves the tokenizer alone or
reports an instruction kind and moves the cursor on by one. -/
theorem get_next_token_cases (t : bfk_tokenizer) :
    get_next_token t = (BFK_EOF, t) ∨
      ∃ ty, ty ≠ BFK_EOF ∧ t.index < t.size ∧
        get_next_token t = (ty, { t with index := t.index + 1 }) := by
  unfold get_next_token
  by_cases hend : t.index ≥ t.size
  · rw [if_pos hend]; exact Or.inl rfl
  · rw [if_neg hend]
    have hlt : t.index < t.size := by omega
    simp only
    split_ifs
    · exact Or.inr ⟨MOVR, by decide, hlt, rfl⟩
    · exact Or.inr ⟨MOVL, by decide, hlt, rfl⟩
    · exact Or.inr ⟨INC, by decide, hlt, rfl⟩
    · exact Or.inr ⟨DEC, by decide, hlt, rfl⟩
    · exact Or.inr ⟨WRITE, by decide, hlt, rfl⟩
    · exact Or.inr ⟨READ, by decide, hlt, rfl⟩
    · exact Or.inr ⟨JEQ, by decide, hlt, rfl⟩
    · exact Or.inr ⟨JNE, by decide, hlt, rfl⟩
    · exact Or.inl rfl

/-- A loop that pushes the bytes satisfying `keep` onto a buffer in the range of `int`, as
the loops of `dystring_filter` and `dystring_filter_except` do: it returns the length of the
buffer with the kept bytes appended, or a negative value when the buffer would reach
`2 ^ 31` bytes. -/
theorem filter_loop_result (keep : Char → Bool)
    (loop : List Char → dystring_t → Res (Int × dystring_t))
    (hnil : ∀ dest, loop [] dest = Res.ret (to_int dest.size, dest))
    (hcons : ∀ c rest dest, loop (c :: rest) dest =
      if keep c = true then
        match dystring_push c dest with
        | Res.ret (r, dest1) => if r < 0 then Res.ret (-1, dest1) else loop rest dest1
        | Res.undef => Res.undef
        | Res.nofuel => Res.nofuel
      else loop rest dest) :
    ∀ (l : List Char) (dest : dystring_t), dystring_ok dest →
      ∃ r d, loop l dest = Res.ret (r, d) ∧
        ((r < 0 ∧ 2147483648 ≤ dest.size + (l.filter keep).length) ∨
          (r = (d.size : Int) ∧ d.data = dest.data ++ l.filter keep ∧ dystring_ok d)) := by
  intro l
  induction l with
  | nil =>
    intro dest h
    refine ⟨_, _, hnil dest, Or.inr ⟨to_int_of_lt (dystring_ok_size_lt h), by simp, h⟩⟩
  | cons c rest ih =>
    intro dest h
    rw [hcons]
    by_cases hc : keep c = true
    · rw [if_pos hc, List.filter_cons_of_pos hc]
      obtain ⟨r, s1, hpush, hr⟩ := dystring_push_result c dest h
      rw [hpush]
      rcases hr with ⟨hneg, hbig⟩ | ⟨h1, hdata, hok⟩
      · refine ⟨-1, s1, by simp only [hneg, if_true], Or.inl ⟨by decide, ?_⟩⟩
        simp only [List.length_cons]
        omega
      · obtain ⟨r2, d, hloop, hd⟩ := ih s1 hok
        have hsz : s1.size = dest.size + 1 := by
          simp [dystring_t.size, hdata]
        refine ⟨r2, d, ?_, ?_⟩
        · simp only [h1]
          rw [if_neg (by decide)]
          exact hloop
        · rcases hd with ⟨hn, hbig⟩ | ⟨hr2, hdd, hokd⟩
          · refine Or.inl ⟨hn, ?_⟩
            simp only [List.length_cons]
            omega
          · refine Or.inr ⟨hr2, ?_, hokd⟩
            rw [hdd, hdata]
            simp
    · rw [if_neg hc, List.filter_cons_of_neg hc]
      exact ih dest h

theorem dystring_filter_except_result (src dest : dystring_t) (incl : List Char)
    (h : dystring_ok dest) :
    ∃ r d, dystring_filter_except src dest incl = Res.ret (r, d) ∧
      ((r < 0 ∧ 2147483648 ≤ dest.size + (src.data.filter incl.contains).length) ∨
        (r = (d.size : Int) ∧ d.data = dest.data ++ src.data.filter incl.contains ∧
          dystring_ok d)) :=
  filter_loop_result incl.contains (fun l d => dystring_filter_except_loop l d incl)
    (fun _ => rfl) (fun _ _ _ => rfl) src.data dest h

theorem dystring_filter_result (src dest : dystring_t) (excl : List Char)
    (h : dystring_ok dest) :
    ∃ r d, dystring_filter src dest excl = Res.ret (r, d) ∧
      ((r < 0 ∧
          2147483648 ≤ dest.size + (src.data.filter (fun c => !excl.contains c)).length) ∨
        (r = (d.size : Int) ∧
          d.data = dest.data ++ src.data.filter (fun c => !excl.contains c) ∧
          dystring_ok d)) :=
  filter_loop_result (fun c => !excl.contains c) (fun l d => dystring_filter_loop l d excl)
    (fun _ => rfl) (fun _ _ _ => rfl) src.data dest h

theorem dystring_expand_loop_zero (req : Nat) (hreq : 0 < req) :
    ∀ (fuel c : Nat), dystring_expand_loop fuel req 0 ≠ Res.ret c := by
  intro fuel
  induction fuel with
  | zero => intro c h; cases h
  | succ fuel ih =>
    intro c h
    unfold dystring_expand_loop at h
    rw [if_pos hreq] at h
    exact ih c h

theorem pow_two_lt_ceil {k : Nat} (h : k ≤ 63) : 2 ^ k < SIZE_CEIL := by
  calc 2 ^ k ≤ 2 ^ 63 := Nat.pow_le_pow_right (by decide) h
    _ < SIZE_CEIL := by unfold SIZE_CEIL; norm_num

/-- The doubling loop of `dystring_expand` from a capacity `2 ^ k`: when it ends, the capacity
is `2 ^ (k + j)` without wraparound, it covers the required size, and `j` is zero exactly
when the old capacity already did. -/
theorem dystring_expand_loop_ret (req : Nat) :
    ∀ (fuel k c : Nat), k ≤ 63 → dystring_expand_loop fuel req (2 ^ k) = Res.ret c →
      ∃ j, c = 2 ^ (k + j) ∧ k + j ≤ 63 ∧ req ≤ c ∧ (req ≤ 2 ^ k → j = 0) ∧
        (2 ^ k < req → 0 < j) := by
  intro fuel
  induction fuel with
  | zero => intro k c _ h; cases h
  | succ fuel ih =>
    intro k c hk h
    unfold dystring_expand_loop at h
    by_cases hgt : req > 2 ^ k
    · rw [if_pos hgt] at h
      by_cases hk63 : k = 63
      · exfalso
        have hwrap : 2 ^ k * 2 % SIZE_CEIL = 0 := by
          rw [hk63]; unfold SIZE_CEIL; norm_num
        rw [hwrap] at h
        exact dystring_expand_loop_zero req (Nat.lt_of_le_of_lt (Nat.zero_le _) hgt) fuel c h
      · have hlt := pow_two_lt_ceil (k := k + 1) (by omega)
        have hdbl : 2 ^ k * 2 % SIZE_CEIL = 2 ^ (k + 1) := by
          rw [← pow_succ]; exact Nat.mod_eq_of_lt hlt
        rw [hdbl] at h
        obtain ⟨j, hc, hkj, hreq, _, _⟩ := ih (k + 1) c (by omega) h
        refine ⟨j + 1, ?_, by omega, hreq, by intro hle; omega, by intro _; omega⟩
        rw [hc]; congr 1; omega
    · rw [if_neg hgt] at h
      simp only [Res.ret.injEq] at h
      exact ⟨0, by rw [← h]; rfl, by omega, by omega, fun _ => rfl, fun hlt => by omega⟩

/-- The function `dystring_expand` on a capacity `2 ^ k`: the bytes stay, the capacity stays
when it covers the required size and is doubled at least once, up to the required size,
otherwise. -/
theorem dystring_expand_ret (req : Nat) (s : dystring_t) (r : Int) (s1 : dystring_t)
    (hs : capacity_shape s) (h : dystring_expand req s = Res.ret (r, s1)) :
    s1.data = s.data ∧ capacity_shape s1 ∧ req ≤ s1.capacity ∧
      (req ≤ s.capacity → s1 = s) ∧
      ∃ j, s1.capacity = s.capacity * 2 ^ j ∧ (s.capacity < req → 0 < j) := by
  obtain ⟨k, hk4, hk63, hcap⟩ := hs
  unfold dystring_expand at h
  by_cases hle : req ≤ s.capacity
  · rw [if_pos hle] at h
    simp only [Res.ret.injEq, Prod.mk.injEq] at h
    rw [← h.2]
    exact ⟨rfl, ⟨k, hk4, hk63, hcap⟩, hle, fun _ => rfl, 0, by simp, fun hlt => by omega⟩
  · rw [if_neg hle] at h
    cases hloop : dystring_expand_loop 65 req s.capacity with
    | undef => rw [hloop] at h; cases h
    | nofuel => rw [hloop] at h; cases h
    | ret c =>
      rw [hloop] at h
      simp only [Res.ret.injEq, Prod.mk.injEq] at h
      rw [hcap] at hloop
      obtain ⟨j, hc, hkj, hreq, _, hpos⟩ := dystring_expand_loop_ret req 65 k c hk63 hloop
      rw [← h.2]
      refine ⟨rfl, ⟨k + j, by omega, hkj, hc⟩, hreq, fun hle2 => absurd hle2 hle, j, ?_, ?_⟩
      · show c = s.capacity * 2 ^ j
        rw [hc, hcap, pow_add]
      · intro hlt
        exact hpos (by rw [← hcap]; exact hlt)

theorem capacity_shape_lt_ceil {s : dystring_t} (h : capacity_shape s) :
    s.capacity < SIZE_CEIL := by
  obtain ⟨k, _, hk63, hcap⟩ := h
  rw [hcap]; exact pow_two_lt_ceil hk63

/-- The function `null_terminate_buffer` on a buffer that holds its bytes: it leaves room for
the terminator, doubling the capacity only when the bytes fill it. -/
theorem null_terminate_buffer_ret (code : Int) (s : dystring_t) (r : Int) (s1 : dystring_t)
    (hs : capacity_shape s) (hsize : s.size ≤ s.capacity)
    (h : null_terminate_buffer code s = Res.ret (r, s1)) :
    s1.data = s.data ∧ dystring_shape s1 ∧
      (∃ j, s1.capacity = s.capacity * 2 ^ j) ∧
      (s.size + 1 ≤ s.capacity → s1.capacity = s.capacity) := by
  have hceil := capacity_shape_lt_ceil hs
  unfold null_terminate_buffer at h
  by_cases hfull : s.size = s.capacity
  · rw [if_pos hfull] at h
    have hreq : (s.size + 1) % SIZE_CEIL = s.capacity + 1 := by
      rw [hfull]
      apply Nat.mod_eq_of_lt
      obtain ⟨k, _, hk63, hcap⟩ := hs
      have : 2 ^ k ≤ 2 ^ 63 := Nat.pow_le_pow_right (by decide) hk63
      rw [hcap]; unfold SIZE_CEIL; norm_num at this ⊢; omega
    unfold prepare_push at h
    rw [hreq] at h
    cases hexp : dystring_expand (s.capacity + 1) s with
    | undef => rw [hexp] at h; cases h
    | nofuel => rw [hexp] at h; cases h
    | ret x =>
      obtain ⟨r0, s0⟩ := x
      rw [hexp] at h
      obtain ⟨hdata, hshape, hroom, _, j, hj, _⟩ :=
        dystring_expand_ret (s.capacity + 1) s r0 s0 hs hexp
      have hsz0 : s0.size = s.capacity := by
        rw [dystring_t.size, hdata, ← hfull]; rfl
      have hres : s1 = s0 := by
        simp only at h
        by_cases hneg : r0 < 0
        · rw [if_pos hneg] at h
          simp only [Res.ret.injEq, Prod.mk.injEq] at h
          exact h.2.symm
        · rw [if_neg hneg, if_pos (by omega)] at h
          simp only [Res.ret.injEq, Prod.mk.injEq] at h
          exact h.2.symm
      rw [hres]
      exact ⟨hdata, ⟨hshape, by omega⟩, ⟨j, hj⟩, fun hfit => by omega⟩
  · rw [if_neg hfull] at h
    have hlt : s.size < s.capacity := by omega
    rw [if_pos hlt] at h
    simp only [Res.ret.injEq, Prod.mk.injEq] at h
    rw [← h.2]
    exact ⟨rfl, ⟨hs, hlt⟩, ⟨0, by simp⟩, fun _ => rfl⟩

theorem prepare_push_fits (n : Nat) (s : dystring_t) (hs : capacity_shape s)
    (hfit : s.size + n ≤ s.capacity) : prepare_push n s = Res.ret (0, s) := by
  have hceil := capacity_shape_lt_ceil hs
  unfold prepare_push dystring_expand
  rw [Nat.mod_eq_of_lt (by omega), if_pos hfit]

/-- The function `dystring_push` on a buffer of the reachable shape. -/
theorem dystring_push_ret (c : Char) (s : dystring_t) (r : Int) (s1 : dystring_t)
    (hs : dystring_shape s) (h : dystring_push c s = Res.ret (r, s1)) :
    s1.data = s.data ++ [c] ∧ dystring_shape s1 ∧
      (∃ j, s1.capacity = s.capacity * 2 ^ j) ∧
      (s.size + 1 + 1 ≤ s.capacity → s1.capacity = s.capacity) := by
  obtain ⟨hcap, hlt⟩ := hs
  unfold dystring_push at h
  rw [prepare_push_fits 1 s hcap (by omega)] at h
  simp only [lt_self_iff_false, if_false, hlt, if_true] at h
  have hsz : ({ s with data := s.data ++ [c] } : dystring_t).size = s.size + 1 := by
    simp [dystring_t.size]
  obtain ⟨hdata, hshape, hj, hfit⟩ :=
    null_terminate_buffer_ret 1 { s with data := s.data ++ [c] } r s1 hcap
      (by rw [hsz]; exact hlt) h
  exact ⟨hdata, hshape, hj, fun hroom => hfit (by rw [hsz]; exact hroom)⟩

/-- The function `dystring_push_cstr` on a buffer of the reachable shape. -/
theorem dystring_push_cstr_ret (data : List Char) (s : dystring_t) (r : Int)
    (s1 : dystring_t) (hs : dystring_shape s)
    (h : dystring_push_cstr data s = Res.ret (r, s1)) :
    dystring_shape s1 ∧ (∃ j, s1.capacity = s.capacity * 2 ^ j) ∧
      (s.size + data.length + 1 ≤ s.capacity → s1.capacity = s.capacity) := by
  obtain ⟨hcap, hlt⟩ := hs
  have hceil := capacity_shape_lt_ceil hcap
  unfold dystring_push_cstr at h
  cases hprep : prepare_push data.length s with
  | undef => rw [hprep] at h; cases h
  | nofuel => rw [hprep] at h; cases h
  | ret x =>
    obtain ⟨r0, s0⟩ := x
    rw [hprep] at h
    simp only at h
    unfold prepare_push at hprep
    obtain ⟨hdata0, hshape0, _, hsame0, j0, hj0, _⟩ :=
      dystring_expand_ret _ s r0 s0 hcap hprep
    have hsz0 : s0.size = s.size := by rw [dystring_t.size, hdata0]; rfl
    have hge : s.capacity ≤ s0.capacity := by
      rw [hj0]; exact Nat.le_mul_of_pos_right _ (by positivity)
    have hfit0 : s.size + data.length + 1 ≤ s.capacity → s0 = s := by
      intro hfit
      apply hsame0
      rw [Nat.mod_eq_of_lt (by omega)]
      omega
    by_cases hneg : r0 < 0
    · rw [if_pos hneg] at h
      simp only [Res.ret.injEq, Prod.mk.injEq] at h
      rw [← h.2]
      exact ⟨⟨hshape0, by omega⟩, ⟨j0, hj0⟩, fun hfit => by rw [hfit0 hfit]⟩
    · rw [if_neg hneg] at h
      by_cases hroom : s0.size + data.length ≤ s0.capacity
      · rw [if_pos hroom] at h
        have hsz : ({ s0 with data := s0.data ++ data } : dystring_t).size
            = s0.size + data.length := by
          simp [dystring_t.size]
        obtain ⟨_, hshape, ⟨j, hj⟩, hfit⟩ :=
          null_terminate_buffer_ret _ { s0 with data := s0.data ++ data } r s1 hshape0
            (by rw [hsz]; exact hroom) h
        refine ⟨hshape, ⟨j0 + j, ?_⟩, ?_⟩
        · rw [hj]
          show s0.capacity * 2 ^ j = s.capacity * 2 ^ (j0 + j)
          rw [hj0, pow_add, Nat.mul_assoc]
        · intro hfits
          have h0 := hfit0 hfits
          have := hfit (by rw [hsz, h0]; exact hfits)
          rw [this]
          show s0.capacity = s.capacity
          rw [h0]
      · rw [if_neg hroom] at h
        cases h

theorem dystring_pop_shape (s : dystring_t) (hs : dystring_shape s) :
    dystring_shape (dystring_pop s) ∧ (dystring_pop s).capacity = s.capacity := by
  obtain ⟨hcap, hlt⟩ := hs
  unfold dystring_pop
  by_cases hpos : s.size > 0
  · rw [if_pos hpos]
    refine ⟨⟨hcap, ?_⟩, rfl⟩
    show s.data.dropLast.length < s.capacity
    rw [List.length_dropLast]
    unfold dystring_t.size at hlt
    omega
  · rw [if_neg hpos]
    exact ⟨⟨hcap, hlt⟩, rfl⟩

/-- A loop that pushes the bytes satisfying `keep`, as the loops of `dystring_filter` and
`dystring_filter_except` do, on a destination of the reachable shape. -/
theorem filter_loop_ret (keep : Char → Bool)
    (loop : List Char → dystring_t → Res (Int × dystring_t))
    (hnil : ∀ dest, loop [] dest = Res.ret (to_int dest.size, dest))
    (hcons : ∀ c rest dest, loop (c :: rest) dest =
      if keep c = true then
        match dystring_push c dest with
        | Res.ret (r, dest1) => if r < 0 then Res.ret (-1, dest1) else loop rest dest1
        | Res.undef => Res.undef
        | Res.nofuel => Res.nofuel
      else loop rest dest) :
    ∀ (l : List Char) (dest : dystring_t) (r : Int) (d : dystring_t), dystring_shape dest →
      loop l dest = Res.ret (r, d) →
      dystring_shape d ∧ (∃ j, d.capacity = dest.capacity * 2 ^ j) ∧
        (dest.size + (l.filter keep).length + 1 ≤ dest.capacity →
          d.capacity = dest.capacity) := by
  intro l
  induction l with
  | nil =>
    intro dest r d hs h
    rw [hnil] at h
    simp only [Res.ret.injEq, Prod.mk.injEq] at h
    rw [← h.2]
    exact ⟨hs, ⟨0, by simp⟩, fun _ => rfl⟩
  | cons c rest ih =>
    intro dest r d hs h
    rw [hcons] at h
    by_cases hc : keep c = true
    · rw [if_pos hc] at h
      rw [List.filter_cons_of_pos hc]
      cases hpush : dystring_push c dest with
      | undef => rw [hpush] at h; cases h
      | nofuel => rw [hpush] at h; cases h
      | ret x =>
        obtain ⟨r1, d1⟩ := x
        rw [hpush] at h
        simp only at h
        obtain ⟨hdata1, hshape1, ⟨j1, hj1⟩, hfit1⟩ := dystring_push_ret c dest r1 d1 hs hpush
        have hsz1 : d1.size = dest.size + 1 := by simp [dystring_t.size, hdata1]
        by_cases hneg : r1 < 0
        · rw [if_pos hneg] at h
          simp only [Res.ret.injEq, Prod.mk.injEq] at h
          rw [← h.2]
          refine ⟨hshape1, ⟨j1, hj1⟩, fun hfit => hfit1 ?_⟩
          simp only [List.length_cons] at hfit
          omega
        · rw [if_neg hneg] at h
          obtain ⟨hshape, ⟨j, hj⟩, hfit⟩ := ih d1 r d hshape1 h
          refine ⟨hshape, ⟨j1 + j, ?_⟩, ?_⟩
          · rw [hj, hj1, pow_add, Nat.mul_assoc]
          · intro hfits
            simp only [List.length_cons] at hfits
            have h1 := hfit1 (by omega)
            rw [hfit (by rw [hsz1, h1]; omega), h1]
    · rw [if_neg hc] at h
      rw [List.filter_cons_of_neg hc]
      exact ih dest r d hs h

theorem dystring_filter_ret (src dest : dystring_t) (excl : List Char) (r : Int)
    (d : dystring_t) (hs : dystring_shape dest)
    (h : dystring_filter src dest excl = Res.ret (r, d)) :
    dystring_shape d ∧ (∃ j, d.capacity = dest.capacity * 2 ^ j) ∧
      (dest.size + (src.data.filter (fun c => !excl.contains c)).length + 1 ≤ dest.capacity →
        d.capacity = dest.capacity) :=
  filter_loop_ret (fun c => !excl.contains c) (fun l d => dystring_filter_loop l d excl)
    (fun _ => rfl) (fun _ _ _ => rfl) src.data dest r d hs h

theorem dystring_filter_except_ret (src dest : dystring_t) (incl : List Char) (r : Int)
    (d : dystring_t) (hs : dystring_shape dest)
    (h : dystring_filter_except src dest incl = Res.ret (r, d)) :
    dystring_shape d ∧ (∃ j, d.capacity = dest.capacity * 2 ^ j) ∧
      (dest.size + (src.data.filter incl.contains).length + 1 ≤ dest.capacity →
        d.capacity = dest.capacity) :=
  filter_loop_ret incl.contains (fun l d => dystring_filter_except_loop l d incl)
    (fun _ => rfl) (fun _ _ _ => rfl) src.data dest r d hs h

/-- Every reachable buffer has the reachable shape. -/
theorem dystring_reach_shape (s : dystring_t) (h : dystring_reach s) : dystring_shape s := by
  induction h with
  | init => exact ⟨⟨4, by decide, by decide, by decide⟩, by decide⟩
  | push c s r s1 _ hop ih => exact (dystring_push_ret c s r s1 ih hop).2.1
  | push_cstr data s r s1 _ hop ih => exact (dystring_push_cstr_ret data s r s1 ih hop).1
  | pop s _ ih => exact (dystring_pop_shape s ih).1
  | filter src s excl r s1 _ hop ih => exact (dystring_filter_ret src s excl r s1 ih hop).1
  | filter_except src s incl r s1 _ hop ih =>
    exact (dystring_filter_except_ret src s incl r s1 ih hop).1

/-- Below the capacity `2 ^ 63` the function `dystring_push` returns. -/
theorem dystring_push_returns (c : Char) (s : dystring_t) (hs : dystring_shape s)
    (hsmall : s.capacity < 9223372036854775808) :
    ∃ r s1, dystring_push c s = Res.ret (r, s1) := by
  obtain ⟨hcap, hlt⟩ := hs
  unfold dystring_push
  rw [prepare_push_fits 1 s hcap (by omega)]
  simp only [lt_self_iff_false, if_false, hlt, if_true]
  unfold null_terminate_buffer
  have hsz : ({ s with data := s.data ++ [c] } : dystring_t).size = s.size + 1 := by
    simp [dystring_t.size]
  have hcp : ({ s with data := s.data ++ [c] } : dystring_t).capacity = s.capacity := rfl
  by_cases hfull : s.size + 1 = s.capacity
  · rw [if_pos (by rw [hsz, hcp]; exact hfull)]
    have hloop : dystring_expand_loop 65 (s.capacity + 1) s.capacity
        = Res.ret (s.capacity * 2) := by
      rw [dystring_expand_loop, if_pos (by omega),
        Nat.mod_eq_of_lt (by unfold SIZE_CEIL; omega), dystring_expand_loop,
        if_neg (by omega)]
    have hprep : prepare_push 1 { s with data := s.data ++ [c] }
        = Res.ret (to_int ((s.capacity * 2 + SIZE_CEIL - s.capacity) % SIZE_CEIL),
            { data := s.data ++ [c], capacity := s.capacity * 2 }) := by
      unfold prepare_push dystring_expand
      rw [hsz, hcp, hfull, Nat.mod_eq_of_lt (by unfold SIZE_CEIL; omega),
        if_neg (by omega), hloop]
    rw [hprep]
    simp only
    by_cases hneg : to_int ((s.capacity * 2 + SIZE_CEIL - s.capacity) % SIZE_CEIL) < 0
    · rw [if_pos hneg]; exact ⟨_, _, rfl⟩
    · have hroom : ({ data := s.data ++ [c], capacity := s.capacity * 2 } : dystring_t).size
          < s.capacity * 2 := by
        show (s.data ++ [c]).length < s.capacity * 2
        rw [List.length_append, List.length_singleton]
        unfold dystring_t.size at hfull
        omega
      rw [if_neg hneg, if_pos hroom]
      exact ⟨_, _, rfl⟩
  · rw [if_neg (by rw [hsz, hcp]; exact hfull), if_pos (by rw [hsz, hcp]; omega)]
    exact ⟨_, _, rfl⟩

theorem get_instructions_eq_loop (t : bfk_tokenizer) :
    get_instructions t = get_instructions_loop (t.size - t.index + 1) (compile_start t) :=
  rfl

/-- Every state of the loop satisfies the invariant. -/
theorem compile_reach_inv (t : bfk_tokenizer) (hok : tokenizer_ok t) (hidx : t.index = 0)
    (st : compile_state) (h : compile_reach t st) : compile_inv t.data st := by
  induction h with
  | start => exact compile_inv_init t hok hidx
  | step st st1 _ hbody ih => exact compile_inv_step st st1 ih hbody

/-- Induction over the states of the loop, with the invariant at hand and the pass through
the loop given by its case. -/
theorem compile_reach_induct (t : bfk_tokenizer) (hok : tokenizer_ok t) (hidx : t.index = 0)
    (I : compile_state → Prop) (hinit : I (compile_start t))
    (hstep : ∀ st st1, compile_inv t.data st → I st →
      body_case st (Res.ret (Sum.inl st1)) → I st1) :
    ∀ st, compile_reach t st → I st := by
  intro st h
  induction h with
  | start => exact hinit
  | step st st1 hreach hbody ih =>
    have hinv := compile_reach_inv t hok hidx st hreach
    have hcase := get_instructions_body_case st hinv.tok_ok
    rw [hbody] at hcase
    exact hstep st st1 hinv ih hcase

theorem get_instructions_loop_reach (t : bfk_tokenizer) :
    ∀ (fuel : Nat) (st : compile_state) (r : Option bfk_instuctions), compile_reach t st →
      get_instructions_loop fuel st = Res.ret r →
      ∃ st1, compile_reach t st1 ∧ get_instructions_body st1 = Res.ret (Sum.inr r) := by
  intro fuel
  induction fuel with
  | zero => intro st r _ h; cases h
  | succ fuel ih =>
    intro st r hreach h
    unfold get_instructions_loop at h
    cases hb : get_instructions_body st with
    | undef => rw [hb] at h; cases h
    | nofuel => rw [hb] at h; cases h
    | ret x =>
      rw [hb] at h
      cases x with
      | inl st1 => exact ih st1 r (compile_reach.step st st1 hreach hb) h
      | inr r1 =>
        simp only [Res.ret.injEq] at h
        rw [← h]
        exact ⟨st, hreach, hb⟩

/-- A program returned by `get_instructions` comes from a state of the loop in which all
characters have been read, by the closing call of `push_token`. -/
theorem get_instructions_final (t : bfk_tokenizer) (hok : tokenizer_ok t)
    (hidx : t.index = 0) (prog : bfk_instuctions)
    (h : get_instructions t = Res.ret (some prog)) :
    ∃ st, compile_reach t st ∧ compile_inv t.data st ∧
      st.tokenizer.index = t.data.length ∧ prog = push_token BFK_EOF 0 st.prog := by
  rw [get_instructions_eq_loop] at h
  obtain ⟨st, hreach, hbody⟩ := get_instructions_loop_reach t _ _ _ compile_reach.start h
  have hinv := compile_reach_inv t hok hidx st hreach
  have hcase := get_instructions_body_case st hinv.tok_ok
  rw [hbody] at hcase
  cases hcase with
  | eof hend => exact ⟨st, hreach, hinv, by rw [hend, hinv.length_eq], rfl⟩

theorem kinds_push_token (ty : BFK_TYPE) (n : Nat) (prog : bfk_instuctions)
    (h : prog.size < prog.capacity) : kinds (push_token ty n prog) = kinds prog ++ [ty] := by
  rw [push_token_of_room ty n prog h]
  exact kinds_append _ _ _

theorem compile_inv.room {cs : List Char} {st : compile_state} (h : compile_inv cs st)
    (hlt : st.tokenizer.index < st.tokenizer.size) : st.prog.size < st.prog.capacity := by
  have := h.size_le
  have := h.capacity_eq
  have := h.length_eq
  omega

/-- The nesting depth of the instructions written so far is the height of the jump stack. -/
theorem compile_reach_depth (t : bfk_tokenizer) (hok : tokenizer_ok t) (hidx : t.index = 0)
    (st : compile_state) (h : compile_reach t st) :
    nest_depth (kinds st.prog) 0 = some st.jump_stack.length := by
  refine compile_reach_induct t hok hidx
    (fun st => nest_depth (kinds st.prog) 0 = some st.jump_stack.length) rfl ?_ st h
  intro st st1 hinv hI hcase
  cases hcase with
  | jeq hlt _ _ =>
    show nest_depth (kinds (push_token JEQ 0 st.prog)) 0
      = some (st.prog.size :: st.jump_stack).length
    rw [kinds_push_token _ _ _ (hinv.room hlt), nest_depth_append, hI]
    rfl
  | jne hlt _ address rest hstack =>
    show nest_depth (kinds (push_token JNE address
      (set_value st.prog address (to_int st.prog.size)))) 0 = some rest.length
    rw [kinds_push_token _ _ _ (by rw [set_value_size, set_value_capacity]; exact hinv.room hlt),
      kinds_set_value, nest_depth_append, hI, hstack]
    simp [nest_depth, nest_step]
  | fold hlt ty hty m _ _ _ =>
    show nest_depth (kinds (push_token ty (1 + m) st.prog)) 0 = some st.jump_stack.length
    rw [kinds_push_token _ _ _ (hinv.room hlt), nest_depth_append, hI]
    show (nest_step st.jump_stack.length ty).bind (nest_depth []) = some st.jump_stack.length
    rw [nest_step_folds hty]
    rfl

/-- In a returned program with balanced brackets the jump stack was empty at the end. -/
theorem balanced_final_stack {t : bfk_tokenizer} (hok : tokenizer_ok t) (hidx : t.index = 0)
    {st : compile_state} (hreach : compile_reach t st) {prog : bfk_instuctions}
    (hprog : prog = push_token BFK_EOF 0 st.prog) (hbal : balanced (kinds prog)) :
    st.jump_stack = [] := by
  have hdepth := compile_reach_depth t hok hidx st hreach
  have hsame : nest_depth (kinds prog) 0 = some st.jump_stack.length := by
    rcases push_eof_shape st.prog with hs | hs
    · rw [hprog, hs]; exact hdepth
    · rw [hprog, hs, kinds_append, nest_depth_append]
      show (nest_depth (kinds st.prog) 0).bind (nest_depth [BFK_EOF]) = _
      rw [hdepth]
      rfl
  unfold balanced at hbal
  rw [hsame] at hbal
  simp only [Option.some.injEq] at hbal
  exact List.length_eq_zero.mp hbal

/-- A step of `run_program` on a `JEQ` instruction. -/
theorem run_step_jeq (sink : Nat → Bool) (state : prog_state) (toke : bfk_token_t)
    (hfetch : state.program.instructions[state.program_counter]? = some toke)
    (hty : toke.type = JEQ) (hap : state.address_pointer < DEFAULT_MEMORY_SIZE) :
    ∃ s1, run_step sink state = Res.ret s1 ∧
      (state.memory state.address_pointer = 0 →
        s1.program_counter = (to_size_t toke.value + 1) % SIZE_CEIL) ∧
      (state.memory state.address_pointer ≠ 0 →
        s1.program_counter = (state.program_counter + 1) % SIZE_CEIL) := by
  by_cases hcell : state.memory state.address_pointer = 0
  · have hstep : run_step sink state = Res.ret
        { state with program_counter := (to_size_t toke.value + 1) % SIZE_CEIL } := by
      unfold run_step
      rw [hfetch]
      simp only [dispatch, hty, jump_if_zero, hap, if_true, hcell]
    exact ⟨_, hstep, fun _ => rfl, fun hne => absurd hcell hne⟩
  · have hstep : run_step sink state = Res.ret
        { state with program_counter := (state.program_counter + 1) % SIZE_CEIL } := by
      unfold run_step
      rw [hfetch]
      simp only [dispatch, hty, jump_if_zero, hap, if_true, hcell, if_false]
    exact ⟨_, hstep, fun h0 => absurd h0 hcell, fun _ => rfl⟩

/-- A step of `run_program` on a `JNE` instruction. -/
theorem run_step_jne (sink : Nat → Bool) (state : prog_state) (toke : bfk_token_t)
    (hfetch : state.program.instructions[state.program_counter]? = some toke)
    (hty : toke.type = JNE) (hap : state.address_pointer < DEFAULT_MEMORY_SIZE) :
    ∃ s1, run_step sink state = Res.ret s1 ∧
      (state.memory state.address_pointer ≠ 0 →
        s1.program_counter = (to_size_t toke.value + 1) % SIZE_CEIL) ∧
      (state.memory state.address_pointer = 0 →
        s1.program_counter = (state.program_counter + 1) % SIZE_CEIL) := by
  by_cases hcell : state.memory state.address_pointer = 0
  · have hstep : run_step sink state = Res.ret
        { state with program_counter := (state.program_counter + 1) % SIZE_CEIL } := by
      unfold run_step
      rw [hfetch]
      simp only [dispatch, hty, jump_if_not_zero, hap, if_true, hcell, ne_eq,
        not_true_eq_false, if_false]
    exact ⟨_, hstep, fun hne => absurd hcell hne, fun _ => rfl⟩
  · have hstep : run_step sink state = Res.ret
        { state with program_counter := (to_size_t toke.value + 1) % SIZE_CEIL } := by
      unfold run_step
      rw [hfetch]
      simp only [dispatch, hty, jump_if_not_zero, hap, if_true, hcell, ne_eq,
        not_false_eq_true]
    exact ⟨_, hstep, fun _ => rfl, fun h0 => absurd h0 hcell⟩

/-- Appending an instruction keeps the folding facts when it has a positive count if folded
and a kind other than that of a folded instruction before it. -/
theorem fold_facts_append (l : List bfk_token_t) (x : bfk_token_t)
    (hcount : ∀ toke, toke ∈ l → toke.type.folds = true → 1 ≤ toke.value)
    (hadj : ∀ i a b, l[i]? = some a → l[i + 1]? = some b → a.type.folds = true →
      a.type ≠ b.type)
    (hx : x.type.folds = true → 1 ≤ x.value)
    (hlast : ∀ i a, l[i]? = some a → i + 1 = l.length → a.type.folds = true →
      a.type ≠ x.type) :
    (∀ toke, toke ∈ l ++ [x] → toke.type.folds = true → 1 ≤ toke.value) ∧
      (∀ i a b, (l ++ [x])[i]? = some a → (l ++ [x])[i + 1]? = some b →
        a.type.folds = true → a.type ≠ b.type) := by
  constructor
  · intro toke hmem hf
    simp only [List.mem_append, List.mem_singleton] at hmem
    rcases hmem with hold | hnew
    · exact hcount toke hold hf
    · rw [hnew] at hf ⊢; exact hx hf
  · intro i a b ha hb hf
    rcases getElem?_append_singleton _ _ _ _ hb with ⟨hlt, hbold⟩ | ⟨heq, hbnew⟩
    · have haold : l[i]? = some a := by
        rw [List.getElem?_append_left (by omega)] at ha; exact ha
      exact hadj i a b haold hbold hf
    · have haold : l[i]? = some a := by
        rw [List.getElem?_append_left (by omega)] at ha; exact ha
      rw [hbnew]
      exact hlast i a haold heq hf

theorem compile_reach_fold (t : bfk_tokenizer) (hok : tokenizer_ok t) (hidx : t.index = 0)
    (st : compile_state) (h : compile_reach t st) : fold_inv st := by
  refine compile_reach_induct t hok hidx fold_inv ?_ ?_ st h
  · refine ⟨?_, ?_, ?_⟩
    · intro toke hmem; simp [compile_start] at hmem
    · intro i a b ha; simp [compile_start] at ha
    · intro i a ha; simp [compile_start] at ha
  · intro st st1 hinv hI hcase
    cases hcase with
    | jeq hlt hc _ =>
      have hpush := push_token_of_room JEQ 0 st.prog (hinv.room hlt)
      obtain ⟨h1, h2⟩ := fold_facts_append st.prog.instructions { type := JEQ, value := to_int 0 }
        hI.count_pos hI.adjacent (fun hf => by cases hf)
        (fun i a _ _ hf => folds_ne_jeq hf)
      refine ⟨?_, ?_, ?_⟩
      · show ∀ toke, toke ∈ (push_token JEQ 0 st.prog).instructions → _
        rw [hpush]; exact h1
      · show ∀ i a b, (push_token JEQ 0 st.prog).instructions[i]? = some a → _
        rw [hpush]; exact h2
      · intro i a ha hi hf _
        exfalso
        have ha2 : (push_token JEQ 0 st.prog).instructions[i]? = some a := ha
        have hi2 : i + 1 = (push_token JEQ 0 st.prog).size := hi
        rw [hpush] at ha2 hi2
        simp only [bfk_instuctions.size, List.length_append, List.length_singleton] at hi2
        rcases getElem?_append_singleton _ _ _ _ ha2 with ⟨hlt2, _⟩ | ⟨_, hnew⟩
        · omega
        · rw [hnew] at hf; cases hf
    | jne hlt hc address rest hstack =>
      have hroom : (set_value st.prog address (to_int st.prog.size)).size
          < (set_value st.prog address (to_int st.prog.size)).capacity := by
        rw [set_value_size, set_value_capacity]; exact hinv.room hlt
      have hpush := push_token_of_room JNE address _ hroom
      have hcount0 : ∀ toke, toke ∈ (set_value st.prog address (to_int st.prog.size)).instructions →
          toke.type.folds = true → 1 ≤ toke.value := by
        intro toke hmem hf
        obtain ⟨j, hj⟩ := List.mem_iff_getElem?.mp hmem
        obtain ⟨old, hget, htype, hsame, _⟩ := set_value_getElem? _ _ _ _ _ hj
        by_cases hja : j = address
        · exfalso
          have hjeq := (hinv.stack_ok 0 address (by rw [hstack]; simp)).2.1
          rw [kinds_getElem?, ← hja, hget] at hjeq
          simp only [Option.map_some', Option.some.injEq] at hjeq
          rw [htype, hjeq] at hf
          cases hf
        · rw [hsame hja] at hf ⊢
          exact hI.count_pos old (List.mem_iff_getElem?.mpr ⟨j, hget⟩) hf
      have hadj0 : ∀ i a b, (set_value st.prog address (to_int st.prog.size)).instructions[i]?
          = some a → (set_value st.prog address (to_int st.prog.size)).instructions[i + 1]?
          = some b → a.type.folds = true → a.type ≠ b.type := by
        intro i a b ha hb hf
        obtain ⟨olda, hga, hta, _, _⟩ := set_value_getElem? _ _ _ _ _ ha
        obtain ⟨oldb, hgb, htb, _, _⟩ := set_value_getElem? _ _ _ _ _ hb
        rw [hta, htb]
        rw [hta] at hf
        exact hI.adjacent i olda oldb hga hgb hf
      obtain ⟨h1, h2⟩ := fold_facts_append _ { type := JNE, value := to_int address }
        hcount0 hadj0 (fun hf => by cases hf) (fun i a _ _ hf => folds_ne_jne hf)
      refine ⟨?_, ?_, ?_⟩
      · show ∀ toke, toke ∈ (push_token JNE address _).instructions → _
        rw [hpush]; exact h1
      · show ∀ i a b, (push_token JNE address _).instructions[i]? = some a → _
        rw [hpush]; exact h2
      · intro i a ha hi hf _
        exfalso
        have ha2 : (push_token JNE address
          (set_value st.prog address (to_int st.prog.size))).instructions[i]? = some a := ha
        have hi2 : i + 1 = (push_token JNE address
          (set_value st.prog address (to_int st.prog.size))).size := hi
        rw [hpush] at ha2 hi2
        change i + 1 = ((set_value st.prog address (to_int st.prog.size)).instructions
          ++ [({ type := JNE, value := to_int address } : bfk_token_t)]).length at hi2
        rw [List.length_append, List.length_singleton] at hi2
        rcases getElem?_append_singleton _ _ _ _ ha2 with ⟨hlt2, _⟩ | ⟨_, hnew⟩
        · omega
        · rw [hnew] at hf; cases hf
    | fold hlt ty hty m hle hrun hstop =>
      have hpush := push_token_of_room ty (1 + m) st.prog (hinv.room hlt)
      have hval : to_int (1 + m) = ((1 + m : Nat) : Int) :=
        to_int_of_lt (by have := hinv.tok_ok.size_lt; omega)
      have hcur : token_of_char st.tokenizer.current = ty := by
        have := hrun 0 (by omega)
        simpa [bfk_tokenizer.current] using this
      obtain ⟨h1, h2⟩ := fold_facts_append st.prog.instructions
        { type := ty, value := to_int (1 + m) } hI.count_pos hI.adjacent
        (fun _ => by show 1 ≤ to_int (1 + m); rw [hval]; push_cast; omega)
        (fun i a ha hi hf => by
          have := hI.next_differs i a ha hi hf hlt
          rw [hcur] at this
          exact fun heq => this heq.symm)
      refine ⟨?_, ?_, ?_⟩
      · show ∀ toke, toke ∈ (push_token ty (1 + m) st.prog).instructions → _
        rw [hpush]; exact h1
      · show ∀ i a b, (push_token ty (1 + m) st.prog).instructions[i]? = some a → _
        rw [hpush]; exact h2
      · intro i a ha hi hf hlt2
        have ha2 : (push_token ty (1 + m) st.prog).instructions[i]? = some a := ha
        have hi2 : i + 1 = (push_token ty (1 + m) st.prog).size := hi
        have hlt3 : st.tokenizer.index + (1 + m) < st.tokenizer.size := hlt2
        rw [hpush] at ha2 hi2
        simp only [bfk_instuctions.size, List.length_append, List.length_singleton] at hi2
        rcases getElem?_append_singleton _ _ _ _ ha2 with ⟨hlt4, _⟩ | ⟨_, hnew⟩
        · omega
        · rw [hnew]
          have := hstop (by omega)
          show token_of_char ((st.tokenizer.skip (1 + m)).data.getD
            (st.tokenizer.skip (1 + m)).index (Char.ofNat 0)) ≠ ty
          simp only [bfk_tokenizer.skip, Nat.add_assoc] at this ⊢
          exact this

theorem decompile_list_append (l1 l2 : List bfk_token_t) :
    decompile_list (l1 ++ l2) = decompile_list l1 ++ decompile_list l2 := by
  induction l1 with
  | nil => rfl
  | cons a rest ih =>
    show source_text a ++ decompile_list (rest ++ l2) = _
    rw [ih, decompile_list, List.append_assoc]

theorem decompile_list_modify (f : bfk_token_t → bfk_token_t) :
    ∀ (l : List bfk_token_t) (n : Nat),
      (∀ x, l[n]? = some x → source_text (f x) = source_text x) →
      decompile_list (l.modify f n) = decompile_list l := by
  intro l
  induction l with
  | nil => intro n _; cases n <;> rfl
  | cons y rest ih =>
    intro n h
    cases n with
    | zero =>
      have := h y (by simp)
      show source_text (f y) ++ decompile_list rest = source_text y ++ decompile_list rest
      rw [this]
    | succ n =>
      have := ih n (fun x hx => h x (by simpa using hx))
      show source_text y ++ decompile_list (rest.modify f n) = _
      rw [this]
      rfl

theorem take_succ_getD (cs : List Char) (i : Nat) (h : i < cs.length) :
    cs.take (i + 1) = cs.take i ++ [cs.getD i (Char.ofNat 0)] := by
  rw [List.take_succ, List.getD_eq_getElem _ _ h, List.getElem?_eq_getElem h]
  rfl

theorem take_add_run (cs : List Char) (c : Char) (i : Nat) :
    ∀ n, i + n ≤ cs.length → (∀ k, k < n → cs.getD (i + k) (Char.ofNat 0) = c) →
      cs.take (i + n) = cs.take i ++ List.replicate n c := by
  intro n
  induction n with
  | zero => intro _ _; simp
  | succ n ih =>
    intro hle hall
    rw [← Nat.add_assoc, take_succ_getD cs (i + n) (by omega), hall n (by omega),
      ih (by omega) (fun k hk => hall k (by omega)), List.append_assoc,
      List.replicate_succ', ]

theorem token_of_char_movr {c : Char} (h : token_of_char c = MOVR) : c = '>' := by
  unfold token_of_char at h
  split_ifs at h; assumption

theorem token_of_char_movl {c : Char} (h : token_of_char c = MOVL) : c = '<' := by
  unfold token_of_char at h
  split_ifs at h; assumption

theorem token_of_char_inc {c : Char} (h : token_of_char c = INC) : c = '+' := by
  unfold token_of_char at h
  split_ifs at h; assumption

theorem token_of_char_dec {c : Char} (h : token_of_char c = DEC) : c = '-' := by
  unfold token_of_char at h
  split_ifs at h; assumption

theorem token_of_char_write {c : Char} (h : token_of_char c = WRITE) : c = '.' := by
  unfold token_of_char at h
  split_ifs at h; assumption

theorem token_of_char_read {c : Char} (h : token_of_char c = READ) : c = ',' := by
  unfold token_of_char at h
  split_ifs at h; assumption

/-- A character of a folded kind is the character of that kind, so a run of the kind is what
the folded instruction stands for. -/
theorem source_text_folds (ty : BFK_TYPE) (hty : ty.folds = true) (n : Nat) :
    ∃ c, source_text { type := ty, value := (n : Int) } = List.replicate n c ∧
      ∀ x, token_of_char x = ty → x = c := by
  cases ty with
  | MOVR => exact ⟨'>', rfl, fun _ hx => token_of_char_movr hx⟩
  | MOVL => exact ⟨'<', rfl, fun _ hx => token_of_char_movl hx⟩
  | INC => exact ⟨'+', rfl, fun _ hx => token_of_char_inc hx⟩
  | DEC => exact ⟨'-', rfl, fun _ hx => token_of_char_dec hx⟩
  | WRITE => exact ⟨'.', rfl, fun _ hx => token_of_char_write hx⟩
  | READ => exact ⟨',', rfl, fun _ hx => token_of_char_read hx⟩
  | BFK_EOF => cases hty
  | JEQ => cases hty
  | JNE => cases hty

/-- The instructions written so far stand for the characters read so far. -/
theorem compile_reach_decompile (t : bfk_tokenizer) (hok : tokenizer_ok t)
    (hidx : t.index = 0) (st : compile_state) (h : compile_reach t st) :
    decompile st.prog = t.data.take st.tokenizer.index := by
  refine compile_reach_induct t hok hidx
    (fun st => decompile st.prog = t.data.take st.tokenizer.index) ?_ ?_ st h
  · show decompile_list [] = t.data.take t.index
    rw [hidx]; rfl
  · intro st st1 hinv hI hcase
    have hil : st.tokenizer.index < st.tokenizer.size → st.tokenizer.index < t.data.length := by
      intro hlt; rw [← hinv.length_eq]; exact hlt
    cases hcase with
    | jeq hlt hc _ =>
      show decompile (push_token JEQ 0 st.prog) = t.data.take (st.tokenizer.index + 1)
      have hcur : t.data.getD st.tokenizer.index (Char.ofNat 0) = '[' := by
        rw [← hinv.data_eq]; exact token_of_char_jeq.mp hc
      rw [push_token_of_room JEQ 0 st.prog (hinv.room hlt), take_succ_getD _ _ (hil hlt), hcur,
        ← hI]
      exact decompile_list_append _ _
    | jne hlt hc address rest hstack =>
      show decompile (push_token JNE address (set_value st.prog address (to_int st.prog.size)))
        = t.data.take (st.tokenizer.index + 1)
      have hcur : t.data.getD st.tokenizer.index (Char.ofNat 0) = ']' := by
        rw [← hinv.data_eq]; exact token_of_char_jne.mp hc
      have hroom : (set_value st.prog address (to_int st.prog.size)).size
          < (set_value st.prog address (to_int st.prog.size)).capacity := by
        rw [set_value_size, set_value_capacity]; exact hinv.room hlt
      have hjeq := (hinv.stack_ok 0 address (by rw [hstack]; simp)).2.1
      have hmod : decompile_list (set_value st.prog address (to_int st.prog.size)).instructions
          = decompile_list st.prog.instructions := by
        apply decompile_list_modify
        intro x hx
        rw [kinds_getElem?, hx] at hjeq
        simp only [Option.map_some', Option.some.injEq] at hjeq
        simp only [source_text, hjeq]
      rw [push_token_of_room JNE address _ hroom, take_succ_getD _ _ (hil hlt), hcur, ← hI]
      show decompile_list (_ ++ _) = _
      rw [decompile_list_append, hmod]
      rfl
    | fold hlt ty hty m hle hrun _ =>
      show decompile (push_token ty (1 + m) st.prog)
        = t.data.take (st.tokenizer.index + (1 + m))
      have hval : to_int (1 + m) = ((1 + m : Nat) : Int) :=
        to_int_of_lt (by have := hinv.tok_ok.size_lt; omega)
      obtain ⟨c, htext, hchar⟩ := source_text_folds ty hty (1 + m)
      have hrun2 : ∀ k, k < 1 + m → t.data.getD (st.tokenizer.index + k) (Char.ofNat 0) = c := by
        intro k hk
        have := hrun k hk
        rw [hinv.data_eq] at this
        exact hchar _ this
      rw [push_token_of_room ty (1 + m) st.prog (hinv.room hlt), hval,
        take_add_run t.data c st.tokenizer.index (1 + m)
          (by rw [← hinv.length_eq]; omega) hrun2, ← hI]
      show decompile_list (_ ++ _) = _
      rw [decompile_list_append, ← htext]
      show _ ++ (source_text _ ++ []) = _
      rw [List.append_nil]
      rfl

theorem write_loop_frame (sink : Nat → Bool) (toke : bfk_token_t) :
    ∀ (n : Nat) (state : prog_state),
      (write_loop sink n state toke).memory = state.memory ∧
        (write_loop sink n state toke).program = state.program := by
  intro n
  induction n with
  | zero => intro state; exact ⟨rfl, rfl⟩
  | succ n ih =>
    intro state
    unfold write_loop
    by_cases hs : sink state.stdout.length = true
    · rw [if_pos hs]
      exact ih _
    · rw [if_neg hs]
      exact ⟨rfl, rfl⟩

theorem set_cell_in_range (state : prog_state) (v : Int) (h : cells_in_range state)
    (h0 : 0 ≤ v) (h1 : v ≤ 255) : cells_in_range (set_cell state v) := by
  intro i hi
  show 0 ≤ (if i = state.address_pointer then v else state.memory i) ∧
    (if i = state.address_pointer then v else state.memory i) ≤ 255
  by_cases hia : i = state.address_pointer
  · rw [if_pos hia]; exact ⟨h0, h1⟩
  · rw [if_neg hia]; exact h i hi

/-- The `switch` of `run_program` keeps the program and the range of the cells, the operand
of an `INC` instruction being positive. -/
theorem dispatch_cells (sink : Nat → Bool) (state s1 : prog_state) (toke : bfk_token_t)
    (hpos : toke.type = INC → 1 ≤ toke.value) (h : cells_in_range state)
    (hd : dispatch sink state toke = Res.ret s1) :
    s1.program = state.program ∧ cells_in_range s1 := by
  unfold dispatch at hd
  cases hty : toke.type with
  | MOVR =>
    rw [hty] at hd
    simp only [Res.ret.injEq] at hd
    rw [← hd]
    unfold move_right
    split_ifs <;> exact ⟨rfl, h⟩
  | MOVL =>
    rw [hty] at hd
    simp only [Res.ret.injEq] at hd
    rw [← hd]
    unfold move_left
    split_ifs <;> exact ⟨rfl, h⟩
  | INC =>
    rw [hty] at hd
    simp only at hd
    unfold increment at hd
    by_cases hap : state.address_pointer < DEFAULT_MEMORY_SIZE
    · rw [if_pos hap] at hd
      simp only at hd
      by_cases hfit : int_fits (state.memory state.address_pointer + toke.value) = true
      · rw [if_pos hfit] at hd
        simp only [Res.ret.injEq] at hd
        rw [← hd]
        have hc := h _ hap
        have hv := hpos hty
        have hsum : 0 ≤ state.memory state.address_pointer + toke.value := by omega
        refine ⟨rfl, set_cell_in_range state _ h ?_ ?_⟩
        · rw [show INT_SIZE_CEIL = 256 from rfl, Int.tmod_eq_emod hsum (by decide)]
          omega
        · rw [show INT_SIZE_CEIL = 256 from rfl, Int.tmod_eq_emod hsum (by decide)]
          omega
      · rw [if_neg hfit] at hd; cases hd
    · rw [if_neg hap] at hd; cases hd
  | DEC =>
    rw [hty] at hd
    simp only at hd
    unfold decrement at hd
    by_cases hap : state.address_pointer < DEFAULT_MEMORY_SIZE
    · rw [if_pos hap] at hd
      simp only at hd
      by_cases hfit : int_fits (state.memory state.address_pointer - toke.value) = true
      · rw [if_pos hfit] at hd
        simp only [Res.ret.injEq] at hd
        rw [← hd]
        refine ⟨rfl, set_cell_in_range state _ h ?_ ?_⟩
        · rw [show INT_MAX_SIZE = 255 from rfl, land_byte]; omega
        · rw [show INT_MAX_SIZE = 255 from rfl, land_byte]; omega
      · rw [if_neg hfit] at hd; cases hd
    · rw [if_neg hap] at hd; cases hd
  | WRITE =>
    rw [hty] at hd
    simp only at hd
    unfold write at hd
    by_cases hv : toke.value ≤ 0
    · rw [if_pos hv] at hd
      simp only [Res.ret.injEq] at hd
      rw [← hd]; exact ⟨rfl, h⟩
    · rw [if_neg hv] at hd
      by_cases hap : state.address_pointer < DEFAULT_MEMORY_SIZE
      · rw [if_pos hap] at hd
        simp only [Res.ret.injEq] at hd
        rw [← hd]
        obtain ⟨hm, hp⟩ := write_loop_frame sink toke toke.value.toNat state
        refine ⟨hp, ?_⟩
        intro i hi
        rw [hm]; exact h i hi
      · rw [if_neg hap] at hd; cases hd
  | READ =>
    rw [hty] at hd
    simp only at hd
    unfold jump_if_zero at hd
    split_ifs at hd <;>
      (simp only [Res.ret.injEq] at hd; rw [← hd]; exact ⟨rfl, h⟩)
  | JEQ =>
    rw [hty] at hd
    simp only at hd
    unfold jump_if_zero at hd
    split_ifs at hd <;>
      (simp only [Res.ret.injEq] at hd; rw [← hd]; exact ⟨rfl, h⟩)
  | JNE =>
    rw [hty] at hd
    simp only at hd
    unfold jump_if_not_zero at hd
    split_ifs at hd <;>
      (simp only [Res.ret.injEq] at hd; rw [← hd]; exact ⟨rfl, h⟩)
  | BFK_EOF =>
    rw [hty] at hd
    simp only [Res.ret.injEq] at hd
    rw [← hd]; exact ⟨rfl, h⟩

/-- One pass of the loop of `run_program` keeps the program and the range of the cells when
the `INC` instructions of the program have positive operands. -/
theorem run_step_cells (sink : Nat → Bool) (state s1 : prog_state)
    (hpos : ∀ toke, toke ∈ state.program.instructions → toke.type = INC → 1 ≤ toke.value)
    (h : cells_in_range state) (hstep : run_step sink state = Res.ret s1) :
    s1.program = state.program ∧ cells_in_range s1 := by
  unfold run_step at hstep
  cases hf : state.program.instructions[state.program_counter]? with
  | none => rw [hf] at hstep; cases hstep
  | some toke =>
    rw [hf] at hstep
    simp only at hstep
    cases hd : dispatch sink state toke with
    | undef => rw [hd] at hstep; cases hstep
    | nofuel => rw [hd] at hstep; cases hstep
    | ret s0 =>
      rw [hd] at hstep
      simp only [Res.ret.injEq] at hstep
      obtain ⟨hp, hc⟩ := dispatch_cells sink state s0 toke
        (hpos toke (List.mem_iff_getElem?.mpr ⟨_, hf⟩)) h hd
      rw [← hstep]
      exact ⟨hp, hc⟩

/-- The folded instructions of a returned program have operands of at least 1. -/
theorem returned_count_pos (code : dystring_t) (t : bfk_tokenizer) (prog : bfk_instuctions)
    (ht : get_tokenizer code = Res.ret (some t))
    (hp : get_instructions t = Res.ret (some prog)) :
    ∀ toke, toke ∈ prog.instructions → toke.type.folds = true → 1 ≤ toke.value := by
  have htok := get_tokenizer_some ht
  have hok := tokenizer_of_ok htok
  obtain ⟨st, hreach, _, _, hfinal⟩ := get_instructions_final t hok htok.2.2.1 prog hp
  have hI := compile_reach_fold t hok htok.2.2.1 st hreach
  obtain ⟨tail, htail, hall⟩ := returned_program prog hfinal
  intro toke hmem hf
  rw [htail, List.mem_append] at hmem
  rcases hmem with hold | hnew
  · exact hI.count_pos toke hold hf
  · rw [hall toke hnew] at hf; cases hf

theorem run_reach_cells (sink : Nat → Bool) (prog : bfk_instuctions)
    (hpos : ∀ toke, toke ∈ prog.instructions → toke.type = INC → 1 ≤ toke.value)
    (state : prog_state) (h : run_reach sink prog state) :
    state.program = prog ∧ cells_in_range state := by
  induction h with
  | start =>
    refine ⟨rfl, ?_⟩
    intro i _
    show (0 : Int) ≤ 0 ∧ (0 : Int) ≤ 255
    decide
  | step state s1 _ _ hstep ih =>
    obtain ⟨hp, hc⟩ := run_step_cells sink state s1 (by rw [ih.1]; exact hpos) ih.2 hstep
    exact ⟨by rw [hp, ih.1], hc⟩

/-- The state that the loop of `run_program` ends in is one of its reachable states. -/
theorem run_loop_reach (sink : Nat → Bool) (prog : bfk_instuctions) :
    ∀ (fuel : Nat) (state r : prog_state), run_reach sink prog state →
      run_loop sink fuel state = Res.ret r → run_reach sink prog r := by
  intro fuel
  induction fuel with
  | zero => intro state r _ h; cases h
  | succ fuel ih =>
    intro state r hreach h
    unfold run_loop at h
    by_cases hstop : state.should_stop = true
    · rw [if_pos hstop] at h
      simp only [Res.ret.injEq] at h
      rw [← h]; exact hreach
    · rw [if_neg hstop] at h
      cases hs : run_step sink state with
      | undef => rw [hs] at h; cases h
      | nofuel => rw [hs] at h; cases h
      | ret s1 =>
        rw [hs] at h
        exact ih s1 r (run_reach.step state s1 hreach (by simpa using hstop) hs) h

/-! ## The claims -/

/-- C1. The source `++>+++++[<+>-]<.` is filtered, compiled and run on the fresh tape: with a
standard output that accepts every byte the run halts (33 passes of the loop of `run_program`
are enough, and a larger budget changes nothing) with exit code 0 after writing the single
byte 7. -/
theorem addition_program_writes_seven (fuel : Nat) (h : 33 ≤ fuel) :
    main_on accepting fuel (source "++>+++++[<+>-]<.") = Res.ret (0, [7]) := by
  have h33 : main_on accepting 33 (source "++>+++++[<+>-]<.") = Res.ret (0, [7]) := by decide
  have := main_on_mono accepting 33 (fuel - 33) _ _ h33
  rw [Nat.add_sub_cancel' h] at this
  exact this

/-- C1, witness: a budget of 1000 passes. -/
theorem addition_program_writes_seven_witness :
    main_on accepting 1000 (source "++>+++++[<+>-]<.") = Res.ret (0, [7]) :=
  addition_program_writes_seven 1000 (by decide)

/-- C2. Folding keeps the instruction count: when the source consists of instruction characters
only and compiles, the repeat counts of the folded instructions plus one for every bracket
instruction (nothing for the terminator) add up to the number of characters of the source. -/
theorem unfolded_count_eq_source_length (code : dystring_t) (t : bfk_tokenizer)
    (prog : bfk_instuctions) (hvalid : ∀ c, c ∈ code.data → c ∈ VALID_TOKENS)
    (ht : get_tokenizer code = Res.ret (some t))
    (hp : get_instructions t = Res.ret (some prog)) :
    unfolded_count prog = (code.data.length : Int) := by
  have htok := get_tokenizer_some ht
  obtain ⟨st, hinv, hidx, hprog⟩ :=
    get_instructions_some t (tokenizer_of_ok htok) htok.2.2.1 prog hp
  have hdata : t.data = code.data := by
    rw [htok.1, List.filter_eq_self]
    intro c hc
    simpa using hvalid c hc
  have hcount := hinv.count_eq
  rw [hidx, hdata] at hcount
  rcases push_eof_shape st.prog with hs | hs
  · rw [hprog, hs]; exact hcount
  · rw [hprog, hs, unfolded_count_append]
    unfold unfolded_count at hcount ⊢
    rw [hcount]
    simp [unfolded_weight]

/-- C2, witness: the program of `++[-]` stands for five characters. -/
theorem unfolded_count_eq_source_length_witness :
    unfolded_count sample_prog = (sample_source.data.length : Int) :=
  unfolded_count_eq_source_length sample_source sample_tokenizer sample_prog
    (by decide) (by decide) (by decide)

/-- C3. In every program that `get_instructions` returns, the operand of a `JNE` instruction
is the index of the `JEQ` instruction that matches it by bracket nesting; that index is smaller
than the index of the `JNE` instruction, and no other index matches. -/
theorem jne_operand_is_matching_jeq (code : dystring_t) (t : bfk_tokenizer)
    (prog : bfk_instuctions) (ht : get_tokenizer code = Res.ret (some t))
    (hp : get_instructions t = Res.ret (some prog)) (j : Nat) (toke : bfk_token_t)
    (hj : prog.instructions[j]? = some toke) (hjne : toke.type = JNE) :
    ∃ i : Nat, toke.value = (i : Int) ∧ i < j ∧ matching (kinds prog) i j ∧
      ∀ i2, matching (kinds prog) i2 j → i2 = i := by
  have htok := get_tokenizer_some ht
  obtain ⟨st, hinv, _, hprog⟩ :=
    get_instructions_some t (tokenizer_of_ok htok) htok.2.2.1 prog hp
  obtain ⟨tail, htail, hall⟩ := returned_program prog hprog
  obtain ⟨_, hold⟩ := returned_getElem? htail hall hj (by rw [hjne]; decide)
  obtain ⟨i, hi, hm⟩ := hinv.jne_ok j toke hold hjne
  have hm2 : matching (kinds prog) i j := by
    rw [kinds_of_append htail]; exact matching_append hm _
  exact ⟨i, hi, hm2.1, hm2, fun i2 h2 => matching_open_unique h2 hm2⟩

/-- C3, witness: in the program of `++[-]` the `JNE` instruction at index 3 has the operand 1,
the index of its `JEQ` instruction. -/
theorem jne_operand_is_matching_jeq_witness :
    ∃ i : Nat, ({ type := JNE, value := 1 } : bfk_token_t).value = (i : Int) ∧ i < 3 ∧
      matching (kinds sample_prog) i 3 ∧ ∀ i2, matching (kinds sample_prog) i2 3 → i2 = i :=
  jne_operand_is_matching_jeq sample_source sample_tokenizer sample_prog
    (by decide) (by decide) 3 { type := JNE, value := 1 } (by decide) rfl

/-- C4, counterexample. In the program of `++[-]` the `JEQ` instruction at index 1 matches the
`JNE` instruction at index 3, and its operand is 3, not the index 4 behind the `JNE`. -/
theorem jeq_operand_not_past_jne :
    get_tokenizer (source "++[-]") = Res.ret (some sample_tokenizer) ∧
      get_instructions sample_tokenizer = Res.ret (some sample_prog) ∧
      sample_prog.instructions[1]? = some { type := JEQ, value := 3 } ∧
      matching (kinds sample_prog) 1 3 ∧ (3 : Int) ≠ ((3 : Nat) : Int) + 1 := by
  decide

/-- C4, amended. In every program that `get_instructions` returns, the operand of a `JEQ`
instruction with a matching `JNE` instruction is the index of that `JNE` instruction itself. -/
theorem jeq_operand_is_matching_jne (code : dystring_t) (t : bfk_tokenizer)
    (prog : bfk_instuctions) (ht : get_tokenizer code = Res.ret (some t))
    (hp : get_instructions t = Res.ret (some prog)) (i j : Nat) (toke : bfk_token_t)
    (hi : prog.instructions[i]? = some toke) (hm : matching (kinds prog) i j) :
    toke.type = JEQ ∧ toke.value = (j : Int) := by
  have htok := get_tokenizer_some ht
  obtain ⟨st, hinv, _, hprog⟩ :=
    get_instructions_some t (tokenizer_of_ok htok) htok.2.2.1 prog hp
  obtain ⟨tail, htail, hall⟩ := returned_program prog hprog
  have hty : toke.type = JEQ := by
    have := hm.2.1
    rw [kinds_getElem?, hi] at this
    simpa using this
  obtain ⟨_, hold⟩ := returned_getElem? htail hall hi (by rw [hty]; decide)
  -- the closing bracket was written by the loop as well
  have hjlt : j < (kinds st.prog).length := by
    have hj := hm.2.2.1
    rw [kinds_getElem?] at hj
    cases htj : prog.instructions[j]? with
    | none => rw [htj] at hj; cases hj
    | some tj =>
      rw [htj] at hj
      simp only [Option.map_some', Option.some.injEq] at hj
      have := (returned_getElem? htail hall htj (by rw [hj]; decide)).1
      rw [kinds_length]; exact this
  have hm0 : matching (kinds st.prog) i j := by
    rw [kinds_of_append htail] at hm
    exact matching_of_append _ hjlt hm
  refine ⟨hty, ?_⟩
  rcases hinv.jeq_ok i toke hold hty with hin | ⟨j2, hj2, hm2⟩
  · obtain ⟨p, hp2⟩ := List.mem_iff_getElem?.mp hin
    exact absurd hm0 (not_matching_of_open (hinv.stack_ok p i hp2).2.2)
  · rw [hj2, matching_close_unique hm0 hm2]

/-- C4, witness: in the program of `++[-]` the `JEQ` instruction at index 1 has the operand 3,
the index of its `JNE` instruction. -/
theorem jeq_operand_is_matching_jne_witness :
    matching (kinds sample_prog) 1 3 ∧
      (({ type := JEQ, value := 3 } : bfk_token_t).type = JEQ ∧
        ({ type := JEQ, value := 3 } : bfk_token_t).value = ((3 : Nat) : Int)) :=
  ⟨by decide,
    jeq_operand_is_matching_jne sample_source sample_tokenizer sample_prog
      (by decide) (by decide) 1 3 { type := JEQ, value := 3 } (by decide) (by decide)⟩

/-- C5. The source `[+`, whose opening bracket has no partner, compiles: `get_instructions`
returns a program, with the placeholder operand 0 left in the `JEQ` instruction and without a
terminator, and `main` goes on to run it. -/
theorem unmatched_opening_bracket_compiles :
    parse (source "[+")
        = Res.ret (some { instructions := [{ type := JEQ, value := 0 }, { type := INC, value := 1 }]
                          capacity := 2 }) ∧
      main_on accepting 3 (source "[+") = Res.undef := by
  decide

/-- C6. A closing bracket that arrives while no opening bracket is waiting makes
`get_instructions` return `NULL`: when some prefix of the filtered source holds more `]` than
`[`, no program is returned. -/
theorem unmatched_closing_bracket_fails (code : dystring_t) (t : bfk_tokenizer)
    (ht : get_tokenizer code = Res.ret (some t)) (k : Nat)
    (hk : ((code.data.filter VALID_TOKENS.contains).take k).count '['
      < ((code.data.filter VALID_TOKENS.contains).take k).count ']') :
    get_instructions t = Res.ret none := by
  have htok := get_tokenizer_some ht
  have hok := tokenizer_of_ok htok
  obtain ⟨r, hr⟩ := get_instructions_total t hok
  cases r with
  | none => exact hr
  | some prog =>
    exfalso
    obtain ⟨st, hinv, hidx, _⟩ := get_instructions_some t hok htok.2.2.1 prog hr
    rw [← htok.1] at hk
    by_cases hkl : k ≤ t.data.length
    · have := hinv.closers_le k (by rw [hidx]; exact hkl)
      omega
    · have := hinv.closers_le t.data.length (by rw [hidx])
      rw [List.take_of_length_le (by omega)] at hk
      rw [List.take_of_length_le (le_refl _)] at this
      omega

/-- C6, witness: the source `+]`. -/
theorem unmatched_closing_bracket_fails_witness :
    get_instructions { data := ['+', ']'], size := 2, index := 0 } = Res.ret none :=
  unmatched_closing_bracket_fails (source "+]") { data := ['+', ']'], size := 2, index := 0 }
    (by decide) 2 (by decide)

/-- C7. The source `+` compiles to a program without terminator: the one allocated cell holds
the `INC` instruction, so the closing `push_token` finds `size >= capacity` and writes
nothing. -/
theorem terminator_dropped_when_full :
    parse (source "+")
      = Res.ret (some { instructions := [{ type := INC, value := 1 }], capacity := 1 }) := by
  decide

/-- C8. The empty source compiles to a program with no instruction at all (capacity 0, so the
terminator is dropped), and the first fetch of `run_program` reads outside the program. -/
theorem empty_source_has_no_terminator :
    parse (source "") = Res.ret (some { instructions := [], capacity := 0 }) ∧
      main_on accepting 1 (source "") = Res.undef := by
  decide

/-- C9. The source `ab+c+` compiles to one `INC` instruction with operand 2, followed by the
terminator. -/
theorem comment_stripping_folds_increments :
    get_tokenizer (source "ab+c+") = Res.ret (some { data := ['+', '+'], size := 2, index := 0 }) ∧
      get_instructions { data := ['+', '+'], size := 2, index := 0 }
        = Res.ret (some { instructions := [{ type := INC, value := 2 },
                            { type := BFK_EOF, value := 0 }]
                          capacity := 2 }) := by
  decide

/-- C10, counterexample. A cell holding 255 and the repeat count `INT_MAX`, both in the range
of the claim: the `int` sum `255 + 2147483647` overflows, so `increment` has no defined result
and the cell is not left at `(255 + 2147483647) mod 256 = 254`. -/
theorem increment_overflow_undefined :
    (state_with_cell 255).address_pointer < DEFAULT_MEMORY_SIZE ∧
      (state_with_cell 255).memory (state_with_cell 255).address_pointer = 255 ∧
      (0 : Int) ≤ 2147483647 ∧ (2147483647 : Int) ≤ INT_MAX ∧
      increment (state_with_cell 255) { type := INC, value := 2147483647 } = Res.undef := by
  refine ⟨by decide, by simp [state_with_cell, set_cell], by decide, by decide, ?_⟩
  rfl

/-- C10, amended. Wraparound of a cell holding `c` in `0..255` under a repeat count `n` in
`0..INT_MAX`: `increment` leaves `(c + n) mod 256` as long as the `int` sum `c + n` does not
exceed `INT_MAX`, `decrement` leaves `(c - n) mod 256` taken in `0..255`; no other part of the
state changes. -/
theorem increment_decrement_wrap (state : prog_state) (toke : bfk_token_t) (c n : Int)
    (hap : state.address_pointer < DEFAULT_MEMORY_SIZE)
    (hcell : state.memory state.address_pointer = c) (hc0 : 0 ≤ c) (hc1 : c ≤ 255)
    (hval : toke.value = n) (hn0 : 0 ≤ n) (hn1 : n ≤ INT_MAX) :
    (c + n ≤ INT_MAX → increment state toke = Res.ret (set_cell state ((c + n) % 256))) ∧
      decrement state toke = Res.ret (set_cell state ((c - n) % 256)) ∧
      0 ≤ (c + n) % 256 ∧ (c + n) % 256 ≤ 255 ∧ 0 ≤ (c - n) % 256 ∧ (c - n) % 256 ≤ 255 := by
  unfold INT_MAX at hn1
  refine ⟨?_, ?_, by omega, by omega, by omega, by omega⟩
  · intro hsum
    unfold INT_MAX at hsum
    unfold increment
    rw [if_pos hap, hcell, hval]
    have hfit : int_fits (c + n) = true := by
      simp only [int_fits, INT_MIN, INT_MAX, Bool.and_eq_true, decide_eq_true_eq]
      omega
    simp only [hfit, if_true]
    rw [show INT_SIZE_CEIL = 256 from rfl, Int.tmod_eq_emod (by omega) (by decide)]
  · unfold decrement
    rw [if_pos hap, hcell, hval]
    have hfit : int_fits (c - n) = true := by
      simp only [int_fits, INT_MIN, INT_MAX, Bool.and_eq_true, decide_eq_true_eq]
      omega
    simp only [hfit, if_true]
    rw [show INT_MAX_SIZE = 255 from rfl, land_byte]

/-- C10, witness: a cell holding 255 incremented by 1 holds 0, and a cell holding 0
decremented by 1 holds 255. -/
theorem increment_decrement_wrap_witness :
    increment (state_with_cell 255) { type := INC, value := 1 }
        = Res.ret (set_cell (state_with_cell 255) ((255 + 1) % 256)) ∧
      (255 + 1 : Int) % 256 = 0 ∧
      decrement (state_with_cell 0) { type := DEC, value := 1 }
        = Res.ret (set_cell (state_with_cell 0) ((0 - 1) % 256)) ∧
      (0 - 1 : Int) % 256 = 255 :=
  ⟨(increment_decrement_wrap (state_with_cell 255) { type := INC, value := 1 } 255 1
      (by decide) (by simp [state_with_cell, set_cell]) (by decide) (by decide) rfl
      (by decide) (by decide)).1 (by decide),
    by decide,
    (increment_decrement_wrap (state_with_cell 0) { type := DEC, value := 1 } 0 1
      (by decide) (by simp [state_with_cell, set_cell]) (by decide) (by decide) rfl
      (by decide) (by decide)).2.1,
    by decide⟩

/-- C11. A `MOVR` instruction with repeat count `n` (in `0..INT_MAX`) executed at an address
pointer `a < 64000`: when `a + n >= 64000` the stop flag is set, the exit code is set to a
non-zero value and the address pointer stays `a`; when `a + n < 64000` the address pointer
becomes `a + n` while the stop flag and the exit code are left as they were. -/
theorem move_right_bounds (sink : Nat → Bool) (state : prog_state) (toke : bfk_token_t)
    (n : Nat) (ha : state.address_pointer < DEFAULT_MEMORY_SIZE) (hty : toke.type = MOVR)
    (hn : toke.value = (n : Int)) (hmax : (n : Int) ≤ INT_MAX) :
    dispatch sink state toke = Res.ret (move_right state toke) ∧
      (DEFAULT_MEMORY_SIZE ≤ state.address_pointer + n →
        (move_right state toke).should_stop = true ∧
          (move_right state toke).exit_code ≠ 0 ∧
          (move_right state toke).address_pointer = state.address_pointer) ∧
      (state.address_pointer + n < DEFAULT_MEMORY_SIZE →
        (move_right state toke).address_pointer = state.address_pointer + n ∧
          (move_right state toke).should_stop = state.should_stop ∧
          (move_right state toke).exit_code = state.exit_code) := by
  unfold INT_MAX at hmax
  unfold DEFAULT_MEMORY_SIZE at ha
  have hconv : to_size_t toke.value = n := by
    rw [hn]; exact to_size_t_natCast n (by omega)
  have hsum : (state.address_pointer + to_size_t toke.value) % SIZE_CEIL
      = state.address_pointer + n := by
    rw [hconv]
    exact Nat.mod_eq_of_lt (by unfold SIZE_CEIL; omega)
  refine ⟨?_, ?_, ?_⟩
  · unfold dispatch
    rw [hty]
  · intro hge
    unfold move_right
    rw [hsum, if_pos hge, hty]
    refine ⟨rfl, ?_, rfl⟩
    show (1 : Int) ≠ 0
    decide
  · intro hlt
    unfold move_right
    rw [hsum, if_neg (by omega)]
    exact ⟨rfl, rfl, rfl⟩

/-- C11, witness: from the starting cell 32000, 32000 steps to the right leave the tape and
31999 steps stay on it. -/
theorem move_right_bounds_witness :
    (move_right (init_state { instructions := [], capacity := 0 })
        { type := MOVR, value := 32000 }).should_stop = true ∧
      (move_right (init_state { instructions := [], capacity := 0 })
        { type := MOVR, value := 31999 }).address_pointer = 32000 + 31999 :=
  ⟨((move_right_bounds accepting (init_state { instructions := [], capacity := 0 })
      { type := MOVR, value := 32000 } 32000 (by decide) rfl rfl (by decide)).2.1
        (by decide)).1,
    ((move_right_bounds accepting (init_state { instructions := [], capacity := 0 })
      { type := MOVR, value := 31999 } 31999 (by decide) rfl rfl (by decide)).2.2
        (by decide)).1⟩

/-- C12. The function `move_left` never halts: for every state and every operand it leaves
the stop flag and the exit code as they were and subtracts in `size_t`, so from the starting
cell 32000 a `MOVL` instruction with operand 32001 ends with the address pointer
`2 ^ 64 - 1` and execution goes on. -/
theorem move_left_wraps_instead_of_halting :
    (∀ (state : prog_state) (toke : bfk_token_t),
      (move_left state toke).should_stop = state.should_stop ∧
        (move_left state toke).exit_code = state.exit_code ∧
        (move_left state toke).address_pointer
          = (state.address_pointer + SIZE_CEIL - to_size_t toke.value) % SIZE_CEIL) ∧
      (move_left (init_state { instructions := [], capacity := 0 })
        { type := MOVL, value := 32001 }).should_stop = false ∧
      (move_left (init_state { instructions := [], capacity := 0 })
        { type := MOVL, value := 32001 }).exit_code = 0 ∧
      (move_left (init_state { instructions := [], capacity := 0 })
        { type := MOVL, value := 32001 }).address_pointer = 18446744073709551615 := by
  refine ⟨?_, by decide, by decide, by decide⟩
  intro state toke
  unfold move_left
  rw [if_neg (Nat.not_lt_zero _)]
  exact ⟨rfl, rfl, rfl⟩

/-- C13. A `READ` instruction is not a no-op: the case `READ` runs on into `jump_if_zero`, so
on a cell holding 0 the program counter is set to the repeat count before it is advanced. The
source `,,+++.` compiles to `READ 2, INC 3, WRITE 1` and the terminator; the step on `READ 2`
at index 0 leaves the program counter at 3 instead of 1, and the run ends with only the notice
of `read` written, the byte 3 never being computed. -/
theorem read_falls_through_to_jump :
    parse (source ",,+++.") = Res.ret (some read_prog) ∧
      (∃ s1, run_step accepting (init_state read_prog) = Res.ret s1 ∧
        s1.program_counter = 3 ∧ s1.should_stop = false) ∧
      main_on accepting 10 (source ",,+++.")
        = Res.ret (0, text_bytes "not implemented read yet...") :=
  ⟨by decide, read_prog_step, read_prog_run⟩

/-- C14. For a tokenizer whose cursor has not passed the end (`size` being a `size_t`),
`peek_next_token` returns the kind that `get_next_token` returns and leaves the tokenizer,
cursor included, as it was; at the end of the input it returns `BFK_EOF`. -/
theorem peek_next_token_spec (t : bfk_tokenizer) (hidx : t.index ≤ t.size)
    (hsize : t.size < SIZE_CEIL) :
    peek_next_token t = ((get_next_token t).1, t) ∧
      (t.index = t.size → peek_next_token t = (BFK_EOF, t)) := by
  have hrewind : (t.index + 1 + SIZE_CEIL - 1) % SIZE_CEIL = t.index := by
    have : t.index + 1 + SIZE_CEIL - 1 = t.index + SIZE_CEIL := by omega
    rw [this, Nat.add_mod_right]
    exact Nat.mod_eq_of_lt (by omega)
  constructor
  · rcases get_next_token_cases t with h | ⟨ty, hty, _, h⟩
    · unfold peek_next_token
      rw [h]
    · unfold peek_next_token
      rw [h]
      cases ty <;> first | exact absurd rfl hty | simp only [hrewind]
  · intro hend
    exact peek_next_token_at_end t (by omega)

/-- C14, witness: the cursor at the start of `+-`. -/
theorem peek_next_token_spec_witness :
    peek_next_token { data := ['+', '-'], size := 2, index := 0 }
      = ((get_next_token { data := ['+', '-'], size := 2, index := 0 }).1,
          { data := ['+', '-'], size := 2, index := 0 }) :=
  (peek_next_token_spec { data := ['+', '-'], size := 2, index := 0 } (by decide)
    (by decide)).1

/-- C15, counterexample. A source of `2 ^ 31` bytes `+`, all of them in the set: the push of
the last byte fills the capacity `2 ^ 31`, the doubling returns `2 ^ 31` converted to `int`,
a negative value, and `dystring_filter_except` returns a negative value, not the length of the
destination. -/
theorem dystring_filter_except_fails_on_large_source :
    ∃ r d, dystring_filter_except
        { data := List.replicate 2147483648 '+', capacity := 4294967296 } get_dystring ['+']
          = Res.ret (r, d) ∧ r < 0 := by
  obtain ⟨r, d, hres, hr⟩ := dystring_filter_except_result
    { data := List.replicate 2147483648 '+', capacity := 4294967296 } get_dystring ['+']
    get_dystring_ok
  refine ⟨r, d, hres, ?_⟩
  rcases hr with ⟨hneg, _⟩ | ⟨_, hd, hokd⟩
  · exact hneg
  · exfalso
    have hkeep : (['+'] : List Char).contains '+' = true := by decide
    have hlen := dystring_ok_size_lt hokd
    rw [dystring_t.size, hd, List.filter_replicate_of_pos hkeep] at hlen
    rw [show get_dystring.data = [] from rfl, List.nil_append, List.length_replicate] at hlen
    omega

/-- C15, amended. With an empty destination buffer as `init_dystring` and later growth leave
it, and a source of which fewer than `2 ^ 31` bytes are kept: `dystring_filter_except` leaves
in the destination exactly the source bytes that are in the set, `dystring_filter` exactly
those that are not in the set, in their original order, and the value returned is the length
of the destination. -/
theorem dystring_filter_keeps_subsequence (src dest : dystring_t) (set : List Char)
    (hok : dystring_ok dest) (hempty : dest.data = []) :
    ((src.data.filter set.contains).length < 2147483648 →
      ∃ d, dystring_filter_except src dest set = Res.ret ((d.size : Int), d) ∧
        d.data = src.data.filter set.contains) ∧
      ((src.data.filter (fun c => !set.contains c)).length < 2147483648 →
        ∃ d, dystring_filter src dest set = Res.ret ((d.size : Int), d) ∧
          d.data = src.data.filter (fun c => !set.contains c)) := by
  have hsize : dest.size = 0 := by simp [dystring_t.size, hempty]
  constructor
  · intro hlen
    obtain ⟨r, d, hres, hr⟩ := dystring_filter_except_result src dest set hok
    rcases hr with ⟨_, hbig⟩ | ⟨hr, hd, _⟩
    · omega
    · refine ⟨d, by rw [hres, hr], ?_⟩
      rw [hd, hempty, List.nil_append]
  · intro hlen
    obtain ⟨r, d, hres, hr⟩ := dystring_filter_result src dest set hok
    rcases hr with ⟨_, hbig⟩ | ⟨hr, hd, _⟩
    · omega
    · refine ⟨d, by rw [hres, hr], ?_⟩
      rw [hd, hempty, List.nil_append]

/-- C15, witness: the text `a+b-` filtered with the set `+-` into a fresh buffer. -/
theorem dystring_filter_keeps_subsequence_witness :
    (∃ d, dystring_filter_except (source "a+b-") get_dystring ['+', '-']
        = Res.ret ((d.size : Int), d) ∧
      d.data = (source "a+b-").data.filter ['+', '-'].contains) ∧
      (∃ d, dystring_filter (source "a+b-") get_dystring ['+', '-']
          = Res.ret ((d.size : Int), d) ∧
        d.data = (source "a+b-").data.filter (fun c => !(['+', '-'].contains c))) :=
  ⟨(dystring_filter_keeps_subsequence (source "a+b-") get_dystring ['+', '-']
      get_dystring_ok rfl).1 (by decide),
    (dystring_filter_keeps_subsequence (source "a+b-") get_dystring ['+', '-']
      get_dystring_ok rfl).2 (by decide)⟩

/-- C16. For every buffer reached from `init_dystring` by `dystring_push`,
`dystring_push_cstr`, `dystring_pop`, `dystring_filter` and `dystring_filter_except`
(allocation succeeding): the length is at most the capacity; each of the operations leaves a
buffer whose length is at most its capacity and whose capacity is the old one doubled some
number of times, so never smaller; the capacity stays when the bytes and the terminator fit;
and `dystring_expand` changes the capacity only when the required size exceeds it, then by
doubling at least once up to the required size. Below the capacity `2 ^ 63` a push returns. -/
theorem capacity_grows_only_by_doubling (s : dystring_t) (h : dystring_reach s) :
    s.size ≤ s.capacity ∧
      (∀ req r s1, dystring_expand req s = Res.ret (r, s1) →
        s1.data = s.data ∧ (req ≤ s.capacity → s1.capacity = s.capacity) ∧
          (s.capacity < req →
            ∃ j, 0 < j ∧ s1.capacity = s.capacity * 2 ^ j ∧ req ≤ s1.capacity)) ∧
      (∀ c r s1, dystring_push c s = Res.ret (r, s1) →
        grows_by_doubling s s1 ∧ (s.size + 1 + 1 ≤ s.capacity → s1.capacity = s.capacity)) ∧
      (∀ data r s1, dystring_push_cstr data s = Res.ret (r, s1) →
        grows_by_doubling s s1 ∧
          (s.size + data.length + 1 ≤ s.capacity → s1.capacity = s.capacity)) ∧
      (grows_by_doubling s (dystring_pop s) ∧ (dystring_pop s).capacity = s.capacity) ∧
      (∀ src excl r s1, dystring_filter src s excl = Res.ret (r, s1) →
        grows_by_doubling s s1 ∧
          (s.size + (src.data.filter (fun c => !excl.contains c)).length + 1 ≤ s.capacity →
            s1.capacity = s.capacity)) ∧
      (∀ src incl r s1, dystring_filter_except src s incl = Res.ret (r, s1) →
        grows_by_doubling s s1 ∧
          (s.size + (src.data.filter incl.contains).length + 1 ≤ s.capacity →
            s1.capacity = s.capacity)) ∧
      (s.capacity < 9223372036854775808 → ∀ c, ∃ r s1, dystring_push c s = Res.ret (r, s1)) := by
  have hs := dystring_reach_shape s h
  refine ⟨le_of_lt hs.2, ?_, ?_, ?_, ?_, ?_, ?_, ?_⟩
  · intro req r s1 hop
    obtain ⟨hdata, _, hroom, hsame, j, hj, hpos⟩ := dystring_expand_ret req s r s1 hs.1 hop
    exact ⟨hdata, fun hle => by rw [hsame hle], fun hlt => ⟨j, hpos hlt, hj, hroom⟩⟩
  · intro c r s1 hop
    obtain ⟨_, hshape, hj, hfit⟩ := dystring_push_ret c s r s1 hs hop
    exact ⟨⟨le_of_lt hshape.2, hj⟩, hfit⟩
  · intro data r s1 hop
    obtain ⟨hshape, hj, hfit⟩ := dystring_push_cstr_ret data s r s1 hs hop
    exact ⟨⟨le_of_lt hshape.2, hj⟩, hfit⟩
  · obtain ⟨hshape, hcap⟩ := dystring_pop_shape s hs
    exact ⟨⟨le_of_lt hshape.2, 0, by rw [hcap]; simp⟩, hcap⟩
  · intro src excl r s1 hop
    obtain ⟨hshape, hj, hfit⟩ := dystring_filter_ret src s excl r s1 hs hop
    exact ⟨⟨le_of_lt hshape.2, hj⟩, hfit⟩
  · intro src incl r s1 hop
    obtain ⟨hshape, hj, hfit⟩ := dystring_filter_except_ret src s incl r s1 hs hop
    exact ⟨⟨le_of_lt hshape.2, hj⟩, hfit⟩
  · intro hsmall c
    exact dystring_push_returns c s hs hsmall

/-- C16, witness: the buffer created by `init_dystring` has length 0 and capacity 16, and a
push on it returns. -/
theorem capacity_grows_only_by_doubling_witness :
    get_dystring.size = 0 ∧ get_dystring.capacity = 16 ∧
      get_dystring.size ≤ get_dystring.capacity ∧
      ∀ c, ∃ r s1, dystring_push c get_dystring = Res.ret (r, s1) :=
  ⟨rfl, rfl, (capacity_grows_only_by_doubling get_dystring dystring_reach.init).1,
    (capacity_grows_only_by_doubling get_dystring dystring_reach.init).2.2.2.2.2.2.2
      (by decide)⟩

/-- C17. Compiler and interpreter agree on the jumps. In a program returned by
`get_instructions` whose brackets are balanced, a step of `run_program` on the `JEQ`
instruction at index `i` finds a matching `JNE` instruction at some index `j` and leaves the
program counter at `j + 1` when the current cell is 0 and at `i + 1` otherwise; a step on the
`JNE` instruction at index `j` finds its matching `JEQ` instruction at some index `i` and
leaves the program counter at `i + 1` when the current cell is not 0 and at `j + 1`
otherwise. -/
theorem jump_encoding_agrees (code : dystring_t) (t : bfk_tokenizer) (prog : bfk_instuctions)
    (ht : get_tokenizer code = Res.ret (some t))
    (hp : get_instructions t = Res.ret (some prog)) (hbal : balanced (kinds prog))
    (sink : Nat → Bool) (state : prog_state) (hprog : state.program = prog)
    (hap : state.address_pointer < DEFAULT_MEMORY_SIZE) (toke : bfk_token_t)
    (hfetch : prog.instructions[state.program_counter]? = some toke) :
    (toke.type = JEQ → ∃ j s1, matching (kinds prog) state.program_counter j ∧
        run_step sink state = Res.ret s1 ∧
        (state.memory state.address_pointer = 0 → s1.program_counter = j + 1) ∧
        (state.memory state.address_pointer ≠ 0 →
          s1.program_counter = state.program_counter + 1)) ∧
      (toke.type = JNE → ∃ i s1, matching (kinds prog) i state.program_counter ∧
        run_step sink state = Res.ret s1 ∧
        (state.memory state.address_pointer ≠ 0 → s1.program_counter = i + 1) ∧
        (state.memory state.address_pointer = 0 →
          s1.program_counter = state.program_counter + 1)) := by
  have htok := get_tokenizer_some ht
  have hok := tokenizer_of_ok htok
  obtain ⟨st, hreach, hinv, _, hfinal⟩ := get_instructions_final t hok htok.2.2.1 prog hp
  obtain ⟨tail, htail, hall⟩ := returned_program prog hfinal
  have hstack := balanced_final_stack hok htok.2.2.1 hreach hfinal hbal
  have hlen_lt := hinv.length_lt
  have hsize_le := hinv.size_le
  have hidx_le : st.tokenizer.index ≤ t.data.length := by
    have := hinv.tok_ok.index_le
    rw [hinv.length_eq] at this
    exact this
  have hmod : ∀ n, n ≤ st.prog.size → (n + 1) % SIZE_CEIL = n + 1 := by
    intro n hn
    exact Nat.mod_eq_of_lt (by unfold SIZE_CEIL; omega)
  have hconv : ∀ n : Nat, n ≤ st.prog.size → to_size_t (n : Int) = n := by
    intro n hn
    exact to_size_t_natCast n (by omega)
  have hmatch_lt : ∀ a b, matching (kinds st.prog) a b → a < st.prog.size ∧ b < st.prog.size := by
    intro a b hm
    have hb : b < (kinds st.prog).length := by
      have := hm.2.2.1
      rw [List.getElem?_eq_some] at this
      exact this.1
    rw [kinds_length] at hb
    exact ⟨by have := hm.1; omega, hb⟩
  have hfetch2 : state.program.instructions[state.program_counter]? = some toke := by
    rw [hprog]; exact hfetch
  constructor
  · intro hty
    obtain ⟨hpc, hold⟩ := returned_getElem? htail hall hfetch (by rw [hty]; decide)
    rcases hinv.jeq_ok _ toke hold hty with hin | ⟨j, hj, hm⟩
    · rw [hstack] at hin; cases hin
    · have hjlt := (hmatch_lt _ _ hm).2
      have hm2 : matching (kinds prog) state.program_counter j := by
        rw [kinds_of_append htail]; exact matching_append hm _
      obtain ⟨s1, hstep, hzero, hnonzero⟩ := run_step_jeq sink state toke hfetch2 hty hap
      refine ⟨j, s1, hm2, hstep, fun h0 => ?_, fun hne => ?_⟩
      · rw [hzero h0, hj, hconv j (le_of_lt hjlt), hmod j (le_of_lt hjlt)]
      · rw [hnonzero hne, hmod _ (le_of_lt hpc)]
  · intro hty
    obtain ⟨hpc, hold⟩ := returned_getElem? htail hall hfetch (by rw [hty]; decide)
    obtain ⟨i, hi, hm⟩ := hinv.jne_ok _ toke hold hty
    have hilt := (hmatch_lt _ _ hm).1
    have hm2 : matching (kinds prog) i state.program_counter := by
      rw [kinds_of_append htail]; exact matching_append hm _
    obtain ⟨s1, hstep, hnonzero, hzero⟩ := run_step_jne sink state toke hfetch2 hty hap
    refine ⟨i, s1, hm2, hstep, fun hne => ?_, fun h0 => ?_⟩
    · rw [hnonzero hne, hi, hconv i (le_of_lt hilt), hmod i (le_of_lt hilt)]
    · rw [hzero h0, hmod _ (le_of_lt hpc)]

/-- C17, witness: in the program of `++[-]`, a step on the `JEQ` instruction at index 1 over
a cell holding 0 goes to index 4, behind the `JNE` instruction at index 3. -/
theorem jump_encoding_agrees_witness :
    ∃ j s1, matching (kinds sample_prog) 1 j ∧
      run_step accepting { init_state sample_prog with program_counter := 1 } = Res.ret s1 ∧
      ((0 : Int) = 0 → s1.program_counter = j + 1) ∧
      ((0 : Int) ≠ 0 → s1.program_counter = 1 + 1) :=
  (jump_encoding_agrees sample_source sample_tokenizer sample_prog (by decide) (by decide)
    (by decide) accepting { init_state sample_prog with program_counter := 1 } rfl
    (by decide) { type := JEQ, value := 3 } (by decide)).1 rfl

/-- C18. Folding is maximal: in every program that `get_instructions` returns, each
instruction of a folded kind (`MOVR`, `MOVL`, `INC`, `DEC`, `WRITE`, `READ`) has an operand of
at least 1, and an instruction of a folded kind is never followed by an instruction of the
same kind. -/
theorem folding_is_maximal (code : dystring_t) (t : bfk_tokenizer) (prog : bfk_instuctions)
    (ht : get_tokenizer code = Res.ret (some t))
    (hp : get_instructions t = Res.ret (some prog)) :
    (∀ toke, toke ∈ prog.instructions → toke.type.folds = true → 1 ≤ toke.value) ∧
      (∀ i a b, prog.instructions[i]? = some a → prog.instructions[i + 1]? = some b →
        a.type.folds = true → a.type ≠ b.type) := by
  have htok := get_tokenizer_some ht
  have hok := tokenizer_of_ok htok
  obtain ⟨st, hreach, _, _, hfinal⟩ := get_instructions_final t hok htok.2.2.1 prog hp
  have hI := compile_reach_fold t hok htok.2.2.1 st hreach
  rcases push_eof_shape st.prog with hs | hs
  · rw [hfinal, hs]
    exact ⟨hI.count_pos, hI.adjacent⟩
  · rw [hfinal, hs]
    exact fold_facts_append st.prog.instructions { type := BFK_EOF, value := 0 }
      hI.count_pos hI.adjacent (fun hf => by cases hf) (fun i a _ _ hf => folds_ne_eof hf)

/-- C18, witness: the program of `++[-]`. -/
theorem folding_is_maximal_witness :
    (∀ toke, toke ∈ sample_prog.instructions → toke.type.folds = true → 1 ≤ toke.value) ∧
      (∀ i a b, sample_prog.instructions[i]? = some a →
        sample_prog.instructions[i + 1]? = some b → a.type.folds = true → a.type ≠ b.type) :=
  folding_is_maximal sample_source sample_tokenizer sample_prog (by decide) (by decide)

/-- C19. While `get_instructions` compiles a tokenizer built by `get_tokenizer`, whatever
its length, the stack pointer is smaller than the stack size whenever the next token is a
`[`; the stack size is the capacity of the program, the number of characters. So the branch
that reports the full jump stack is never taken. -/
theorem jump_stack_never_full (code : dystring_t) (t : bfk_tokenizer)
    (ht : get_tokenizer code = Res.ret (some t)) (st : compile_state)
    (hreach : compile_reach t st) (hjeq : (get_next_token st.tokenizer).1 = JEQ) :
    st.stack_pointer < st.stack_size ∧ st.stack_size = st.prog.capacity ∧
      st.prog.capacity = t.data.length := by
  have htok := get_tokenizer_some ht
  have hok := tokenizer_of_ok htok
  have hinv := compile_reach_inv t hok htok.2.2.1 st hreach
  have hsize : st.stack_size = t.size :=
    compile_reach_induct t hok htok.2.2.1 (fun st => st.stack_size = t.size) rfl
      (by
        intro st st1 _ hI hcase
        cases hcase with
        | jeq _ _ _ => exact hI
        | jne _ _ _ _ _ => exact hI
        | fold _ _ _ _ _ _ _ => exact hI) st hreach
  have hlt : st.tokenizer.index < st.tokenizer.size := by
    by_contra hcon
    rw [get_next_token_at_end st.tokenizer (by omega)] at hjeq
    cases hjeq
  have hcount : (t.data.take st.tokenizer.index).count '[' ≤ st.tokenizer.index := by
    calc (t.data.take st.tokenizer.index).count '['
        ≤ (t.data.take st.tokenizer.index).length := List.count_le_length _ _
      _ ≤ st.tokenizer.index := by rw [List.length_take]; exact Nat.min_le_left _ _
  have hdepth := hinv.depth_eq
  have hlen := hinv.length_eq
  refine ⟨?_, ?_, hinv.capacity_eq⟩
  · show st.jump_stack.length < st.stack_size
    rw [hsize, hok.size_eq]
    omega
  · rw [hsize, hinv.capacity_eq, hok.size_eq]

/-- C19, witness: compiling `++[-]`, the state after `++` has been read meets the `[` with
an empty jump stack of size 5. -/
theorem jump_stack_never_full_witness :
    ({ tokenizer := { data := ['+', '+', '[', '-', ']'], size := 5, index := 2 }
       prog := { instructions := [{ type := INC, value := 2 }], capacity := 5 }
       jump_stack := []
       stack_size := 5 } : compile_state).stack_pointer < 5 :=
  (jump_stack_never_full sample_source sample_tokenizer (by decide)
    { tokenizer := { data := ['+', '+', '[', '-', ']'], size := 5, index := 2 }
      prog := { instructions := [{ type := INC, value := 2 }], capacity := 5 }
      jump_stack := []
      stack_size := 5 }
    (compile_reach.step _ _ compile_reach.start (by rfl)) (by decide)).1

/-- C20. Decompiling undoes compiling: when a source that consists of instruction characters
only compiles, writing for each instruction of the program, in order, its character as often
as its operand says (one bracket for a `JEQ` or `JNE` instruction, nothing for the
terminator) gives back the source. -/
theorem decompile_compile (code : dystring_t) (t : bfk_tokenizer) (prog : bfk_instuctions)
    (hvalid : ∀ c, c ∈ code.data → c ∈ VALID_TOKENS)
    (ht : get_tokenizer code = Res.ret (some t))
    (hp : get_instructions t = Res.ret (some prog)) : decompile prog = code.data := by
  have htok := get_tokenizer_some ht
  have hok := tokenizer_of_ok htok
  obtain ⟨st, hreach, _, hend, hfinal⟩ := get_instructions_final t hok htok.2.2.1 prog hp
  have hdata : t.data = code.data := by
    rw [htok.1, List.filter_eq_self]
    intro c hc
    simpa using hvalid c hc
  have hI := compile_reach_decompile t hok htok.2.2.1 st hreach
  rw [hend, List.take_length, hdata] at hI
  rcases push_eof_shape st.prog with hs | hs
  · rw [hfinal, hs]; exact hI
  · rw [hfinal, hs]
    show decompile_list (_ ++ _) = _
    rw [decompile_list_append]
    show decompile st.prog ++ ([] ++ []) = _
    rw [hI]
    simp

/-- C20, witness: the program of `++[-]` decompiles to `++[-]`. -/
theorem decompile_compile_witness : decompile sample_prog = sample_source.data :=
  decompile_compile sample_source sample_tokenizer sample_prog (by decide) (by decide)
    (by decide)

/-- C21. Cell-range invariant: for every program that `get_instructions` returns and every
standard output, each state that the loop of `run_program` reaches from the initial state
(all cells 0) has every cell of the tape in `0..255`; so has the state in which the loop
ends, whatever the budget of passes. A pass whose `int` arithmetic overflows has no
defined next state. -/
theorem cells_stay_in_range (code : dystring_t) (t : bfk_tokenizer) (prog : bfk_instuctions)
    (ht : get_tokenizer code = Res.ret (some t))
    (hp : get_instructions t = Res.ret (some prog)) (sink : Nat → Bool) :
    (∀ state, run_reach sink prog state → cells_in_range state) ∧
      (∀ fuel r, run_loop sink fuel (init_state prog) = Res.ret r → cells_in_range r) := by
  have hpos : ∀ toke, toke ∈ prog.instructions → toke.type = INC → 1 ≤ toke.value := by
    intro toke hmem hty
    exact returned_count_pos code t prog ht hp toke hmem (by rw [hty]; rfl)
  constructor
  · intro state hreach
    exact (run_reach_cells sink prog hpos state hreach).2
  · intro fuel r hloop
    exact (run_reach_cells sink prog hpos r
      (run_loop_reach sink prog fuel _ r run_reach.start hloop)).2

/-- C21, witness: the run of the program of `++[-]`, at its start and after its first pass,
which leaves 2 in the cell 32000. -/
theorem cells_stay_in_range_witness :
    cells_in_range (init_state sample_prog) ∧
      ∀ s1, run_step accepting (init_state sample_prog) = Res.ret s1 →
        s1.memory 32000 = 2 ∧ cells_in_range s1 :=
  ⟨(cells_stay_in_range sample_source sample_tokenizer sample_prog (by decide) (by decide)
      accepting).1 _ run_reach.start,
    fun s1 hstep =>
      ⟨by
        have h2 : run_step accepting (init_state sample_prog)
            = Res.ret { set_cell (init_state sample_prog) 2 with program_counter := 1 } := rfl
        rw [h2] at hstep
        simp only [Res.ret.injEq] at hstep
        rw [← hstep]
        rfl,
        (cells_stay_in_range sample_source sample_tokenizer sample_prog (by decide) (by decide)
          accepting).1 s1 (run_reach.step _ s1 run_reach.start rfl hstep)⟩⟩

end Bfk
